import Mathlib

/-!
# HuffmanCoding: a shallow embedding and its verification

The development follows the C++ sources `binarytree.h`, `bitstream.h` and
`huffmanEncoder.cpp`.

Conventions of the embedding:

* bytes, node ids, cursors and counters are natural numbers; the 32-bit fields
  whose wrap-around is observable (`SCharacter::frequency`, the header bit
  count, the `pattern`/`depth` pair of `findpattern`, the `NodeId` returned by
  `allocNode`) are reduced modulo `2^32` where the source truncates, and the
  `size_t` difference that drives the decode loop is taken modulo `2^64`;
* stream cursors are not truncated: a stream would need `2^64` bits before a
  cursor could wrap;
* `char` is signed (the sources are a Visual C++ project), so a byte `b >= 128`
  read through `char` is the negative number `b - 256`;
* recursion that the source does not bound (`findpattern`, `serializeNode`,
  `deserializeNode`, the decode loop) takes a fuel argument and answers
  `Outcome.outOfFuel` when it runs dry;
* an out-of-bounds access or a failed `assert` is `Outcome.fault`;
* console output (progress reports, warnings) is not modelled.
-/

namespace Huffman

/-! ## Outcomes -/

/-- Result of running a piece of the program: a value, a fault (an access outside
a container or a failed assertion) or exhausted fuel. -/
inductive Outcome (α : Type) where
  | ok (a : α)
  | fault
  | outOfFuel
deriving DecidableEq, Repr

namespace Outcome

/-- Sequencing of outcomes: the first failure wins. -/
def bind {α β : Type} (x : Outcome α) (f : α → Outcome β) : Outcome β :=
  match x with
  | ok a => f a
  | fault => fault
  | outOfFuel => outOfFuel

end Outcome

/-! ## binarytree.h -/

/-- The arena node of `BinaryTree<uint8_t>`: a value and the ids of both children,
`0` meaning "no child". -/
structure Node where
  value : Nat := 0
  left : Nat := 0
  right : Nat := 0
deriving DecidableEq, Repr, Inhabited

/-- The class `BinaryTree<uint8_t>`: the vector `m_nodes`; node id `k` is stored at
index `k - 1`. -/
structure BinaryTree where
  m_nodes : List Node := []
deriving DecidableEq, Repr, Inhabited

namespace BinaryTree

/-- `validateId`: `id <= m_nodes.size() && id > 0`. -/
def validateId (t : BinaryTree) (id : Nat) : Bool :=
  decide (id ≤ t.m_nodes.length) && decide (id > 0)

/-- `getNode(id, node)`: on a valid id copies the stored node into the out-parameter
and returns true; otherwise returns false and leaves the out-parameter alone. -/
def getNode (t : BinaryTree) (id : Nat) (node : Node) : Bool × Node :=
  if !t.validateId id then (false, node)
  else (true, t.m_nodes.getD (id - 1) node)

/-- `setNode(id, node)`: overwrites the stored node of a valid id. -/
def setNode (t : BinaryTree) (id : Nat) (node : Node) : Bool × BinaryTree :=
  if !t.validateId id then (false, t)
  else (true, { m_nodes := t.m_nodes.set (id - 1) node })

/-- `allocNode(value)`: pushes `Node(value)` and returns the new size, cast to the
32-bit type `NodeId`, as its id. -/
def allocNode (t : BinaryTree) (value : Nat) : BinaryTree × Nat :=
  ({ m_nodes := t.m_nodes ++ [{ value := value }] }, (t.m_nodes.length + 1) % 2 ^ 32)

/-- `linkNodeLeft(parentid, leftnodeid)`. -/
def linkNodeLeft (t : BinaryTree) (parentid leftnodeid : Nat) : BinaryTree :=
  let parent := (t.getNode parentid {}).2
  (t.setNode parentid { parent with left := leftnodeid }).2

/-- `linkNodeRight(parentid, rightnodeid)`. -/
def linkNodeRight (t : BinaryTree) (parentid rightnodeid : Nat) : BinaryTree :=
  let parent := (t.getNode parentid {}).2
  (t.setNode parentid { parent with right := rightnodeid }).2

/-- `linkNode(parentid, childid, isright)`. -/
def linkNode (t : BinaryTree) (parentid childid : Nat) (isright : Bool) : BinaryTree :=
  if isright then t.linkNodeRight parentid childid else t.linkNodeLeft parentid childid

/-- `isNodeLeaf(node)`: the node exists and both child ids are zero. -/
def isNodeLeaf (t : BinaryTree) (node : Nat) : Bool :=
  match t.getNode node {} with
  | (true, n) => (n.left == 0) && (n.right == 0)
  | (false, _) => false

/-- `isNodeBranch(node)`. -/
def isNodeBranch (t : BinaryTree) (node : Nat) : Bool := !t.isNodeLeaf node

/-- `isNode(node)`. -/
def isNode (t : BinaryTree) (node : Nat) : Bool := t.validateId node

/-- `getChildNodeLeft(id)`: the left field of the node, `0` for an invalid id. -/
def getChildNodeLeft (t : BinaryTree) (id : Nat) : Nat := (t.getNode id {}).2.left

/-- `getChildNodeRight(id)`: the right field of the node, `0` for an invalid id. -/
def getChildNodeRight (t : BinaryTree) (id : Nat) : Nat := (t.getNode id {}).2.right

/-- `getChildNode(id, isright)`. -/
def getChildNode (t : BinaryTree) (id : Nat) (isright : Bool) : Nat :=
  if isright then t.getChildNodeRight id else t.getChildNodeLeft id

/-- `getNodeValue(id, value)`: on a valid id stores the node's value in the
out-parameter and returns true. -/
def getNodeValue (t : BinaryTree) (id : Nat) (value : Nat) : Bool × Nat :=
  match t.getNode id {} with
  | (true, n) => (true, n.value)
  | (false, _) => (false, value)

end BinaryTree

/-! ## bitstream.h -/

/-- `calcByteCount(bitCount)`: whole bytes needed for `bitCount` bits. -/
def calcByteCount (bitCount : Nat) : Nat :=
  if bitCount % 8 ≠ 0 then bitCount / 8 + 1 else bitCount / 8

/-- The class `BitStream`: write cursor, read cursor, bit count and byte buffer. -/
structure BitStream where
  m_bufferWrite : Nat := 0
  m_bufferRead : Nat := 0
  m_bufferSize : Nat := 0
  m_buffer : List Nat := []
deriving DecidableEq, Repr, Inhabited

namespace BitStream

/-- `BitStream(size_t reservebits)`: a zeroed buffer of `calcByteCount(reservebits)`
bytes, all counters zero. -/
def reserve (reservebits : Nat) : BitStream :=
  { m_buffer := List.replicate (calcByteCount reservebits) 0 }

/-- `BitStream()`: reserves ten bytes. -/
def new : BitStream := reserve (10 * 8)

/-- `BitStream(const byte_t* bytes, size_t numbits)`: delegates to the reserving
constructor, then sets `m_bufferSize` and copies `calcByteCount(numbits)` bytes.
The caller supplies at least that many bytes. -/
def fromBytes (bytes : List Nat) (numbits : Nat) : BitStream :=
  { reserve numbits with
    m_bufferSize := numbits
    m_buffer := bytes.take (calcByteCount numbits) }

/-- `realloc()`: doubles the buffer, new bytes are zero. -/
def realloc (s : BitStream) : BitStream :=
  { s with m_buffer := s.m_buffer ++ List.replicate s.m_buffer.length 0 }

/-- `writebit(bit)`: grows the buffer when the write cursor is at its end, ors the bit
into byte `writeptr / 8` at offset `8 - (writeptr % 8 + 1)` and advances the write
cursor and the bit count. The byte access faults when it is outside the buffer. -/
def writebit (s : BitStream) (bit : Bool) : Outcome BitStream :=
  let s1 := if s.m_bufferWrite + 1 > s.m_buffer.length * 8 then s.realloc else s
  let index := s1.m_bufferWrite / 8
  let offset := 8 - (s1.m_bufferWrite % 8 + 1)
  if index < s1.m_buffer.length then
    Outcome.ok { s1 with
      m_buffer := s1.m_buffer.set index (s1.m_buffer.getD index 0 ||| (bit.toNat * (1 <<< offset)))
      m_bufferWrite := s1.m_bufferWrite + 1
      m_bufferSize := s1.m_bufferSize + 1 }
  else Outcome.fault

/-- Loop of `write`: `for (bit = bitof; bit < bitsz; bit++) writebit(...)`, with `n`
the number of iterations left. -/
def writeLoop (width data : Nat) : Nat → Nat → BitStream → Outcome BitStream
  | 0, _, s => Outcome.ok s
  | n + 1, bit, s =>
    (s.writebit ((data &&& ((1 <<< (width - (bit + 1))) % 2 ^ width)) != 0)).bind
      (writeLoop width data n (bit + 1))

/-- `write<type_t>(data, bitoffset, bitcount)` for a type of `width` bits: writes the
bits `bitof .. bitsz - 1` of `data`, counted from the most significant bit, where
`bitof` is `bitoffset` (or `0` when that is `>= width`) and `bitsz` is `bitcount`
capped at `width`. The mask is the `int` literal `1` shifted and cast to the type, so the
embedding stands for types of up to 32 bits (the source uses 8 and 32). -/
def write (s : BitStream) (width data bitoffset bitcount : Nat) : Outcome BitStream :=
  let bitof := if bitoffset ≥ width then 0 else bitoffset
  let bitsz := if bitcount > width then width else bitcount
  writeLoop width data (bitsz - bitof) bitof s

/-- `readbit(bit)`: fails, leaving the out-parameter alone, when the read cursor has
reached `m_buffer.size() * 8`; otherwise stores the addressed bit and advances the
read cursor. The result is (returned flag, out-parameter, stream). -/
def readbit (s : BitStream) (bit : Bool) : Bool × Bool × BitStream :=
  if s.m_bufferRead ≥ s.m_buffer.length * 8 then (false, bit, s)
  else
    let index := s.m_bufferRead / 8
    let offset := 8 - (s.m_bufferRead % 8 + 1)
    (true, (s.m_buffer.getD index 0 &&& (1 <<< offset)) != 0,
      { s with m_bufferRead := s.m_bufferRead + 1 })

/-- Loop of `read`: `for (i = bitpos; i < bitcount; i++)`, with `n` the number of
iterations left. A failed `readbit` returns false at once; the shift
`bytewidth - (i + 1)` is only defined for `i < 8`. -/
def readLoop : Nat → Nat → Nat → BitStream → Outcome (Bool × Nat × BitStream)
  | 0, _, data, s => Outcome.ok (true, data, s)
  | n + 1, i, data, s =>
    match s.readbit false with
    | (false, _, s1) => Outcome.ok (false, data, s1)
    | (true, bit, s1) =>
      if i < 8 then readLoop n (i + 1) (data ||| (bit.toNat <<< (8 - (i + 1)))) s1
      else Outcome.fault

/-- `read(data, bitpos, bitcount)`. The result is (returned flag, out-parameter,
stream). -/
def read (s : BitStream) (data bitpos bitcount : Nat) : Outcome (Bool × Nat × BitStream) :=
  readLoop (bitcount - bitpos) bitpos data s

/-- `getBitCount()`. -/
def getBitCount (s : BitStream) : Nat := s.m_bufferSize

/-- `getByteCount()`. -/
def getByteCount (s : BitStream) : Nat := calcByteCount s.m_bufferSize

/-- `getWrite()`. -/
def getWrite (s : BitStream) : Nat := s.m_bufferWrite

/-- `getRead()`. -/
def getRead (s : BitStream) : Nat := s.m_bufferRead

/-- The bytes that `getBitBuffer()` together with `getByteCount()` hands to a writer:
the first `getByteCount()` bytes of the buffer. For an empty buffer the source forms
`&m_buffer[0]` but reads nothing through it; that is taken as harmless. -/
def getBitBuffer (s : BitStream) : List Nat := s.m_buffer.take s.getByteCount

end BitStream

/-! ## huffmanEncoder.cpp -/

/-- The struct `SCharacter`: a frequency, a character code and the tree node that
stands for it. -/
structure SCharacter where
  frequency : Nat := 0
  charCode : Nat := 0
  treeNode : Nat := 0
deriving DecidableEq, Repr, Inhabited

/-- The `std::priority_queue<SCharacter, vector<SCharacter>, CharacterCompare>` used by
`huffmanCompress`, by its contract: `CharacterCompare` orders by `frequency` alone, so
`top` is an entry of least frequency and the order among entries of equal frequency is
left to the library. `elems` is the specification view of the content. -/
structure PQueue where
  σ : Type
  empty : σ
  push : σ → SCharacter → σ
  top : σ → SCharacter
  pop : σ → σ
  size : σ → Nat
  elems : σ → List SCharacter
  elems_empty : elems empty = []
  size_eq : ∀ q, size q = (elems q).length
  push_perm : ∀ q x, (elems (push q x)).Perm (x :: elems q)
  pop_perm : ∀ q, elems q ≠ [] → (top q :: elems (pop q)).Perm (elems q)
  top_min : ∀ q x, x ∈ elems q → (top q).frequency ≤ x.frequency

/-- The wrapper `struct SHuffmanTreeHeader` and the bytes that follow it in the
compressed stream. -/
structure Artifact where
  bitcount : Nat := 0
  payload : List Nat := []
deriving DecidableEq, Repr, Inhabited

/-- `findpattern(tree, node, c, pattern, depth)`: depth-first search for a leaf holding
`c`; on the way back every level shifts `pattern` right by one and, coming from the
right child, sets bit 31. The result is (returned flag, pattern, depth). -/
def findpattern : Nat → BinaryTree → Nat → Nat → Nat → Nat → Outcome (Bool × Nat × Nat)
  | 0, _, _, _, _, _ => Outcome.outOfFuel
  | fuel + 1, tree, node, c, pattern, depth =>
    if !tree.isNode node then Outcome.ok (false, pattern, depth)
    else
      let left := tree.getChildNodeLeft node
      let right := tree.getChildNodeRight node
      if tree.isNodeLeaf node && ((tree.getNodeValue node 0).2 == c) then
        Outcome.ok (true, pattern, depth)
      else
        match findpattern fuel tree left c pattern depth with
        | Outcome.ok (true, p, d) => Outcome.ok (true, p >>> 1, (d + 1) % 2 ^ 32)
        | Outcome.ok (false, p, d) =>
          match findpattern fuel tree right c p d with
          | Outcome.ok (true, p1, d1) =>
            Outcome.ok (true, (p1 >>> 1) ||| (1 <<< 31), (d1 + 1) % 2 ^ 32)
          | Outcome.ok (false, p1, d1) => Outcome.ok (false, p1, d1)
          | Outcome.fault => Outcome.fault
          | Outcome.outOfFuel => Outcome.outOfFuel
        | Outcome.fault => Outcome.fault
        | Outcome.outOfFuel => Outcome.outOfFuel

/-- `serializeNode(tree, node, stream)`: nothing for an invalid id; for a leaf the bit 1
and the eight bits of its value; otherwise the bit 0, the left subtree, the right
subtree. -/
def serializeNode : Nat → BinaryTree → Nat → BitStream → Outcome BitStream
  | 0, _, _, _ => Outcome.outOfFuel
  | fuel + 1, tree, node, stream =>
    if !tree.isNode node then Outcome.ok stream
    else if tree.isNodeLeaf node then
      (stream.writebit true).bind fun s1 =>
        s1.write 8 (tree.getNodeValue node 0).2 0 8
    else
      (stream.writebit false).bind fun s1 =>
        (serializeNode fuel tree (tree.getChildNodeLeft node) s1).bind fun s2 =>
          serializeNode fuel tree (tree.getChildNodeRight node) s2

/-- `deserializeNode(tree, node, stream)`; the results of `readbit` and `read` are not
looked at, so a failed `readbit` leaves `bit` at `0`. The result is (returned id, tree,
stream). -/
def deserializeNode : Nat → BinaryTree → Nat → BitStream → Outcome (Nat × BinaryTree × BitStream)
  | 0, _, _, _ => Outcome.outOfFuel
  | fuel + 1, tree, node, stream =>
    match stream.readbit false with
    | (_, true, s1) =>
      (s1.read 0 0 8).bind fun r =>
        Outcome.ok ((tree.allocNode r.2.1).2, (tree.allocNode r.2.1).1, r.2.2)
    | (_, false, s1) =>
      let parent := (tree.allocNode 0).2
      (deserializeNode fuel (tree.allocNode 0).1 node s1).bind fun l =>
        (deserializeNode fuel (l.2.1.linkNodeLeft parent l.1) node l.2.2).bind fun r =>
          Outcome.ok (parent, r.2.1.linkNodeRight parent r.1, r.2.2)

/-- `tableSize`: `numeric_limits<uint8_t>::max()`. -/
def tableSize : Nat := 255

/-- The index `(size_t)curChar` of a byte read through the signed type `char`: the byte
itself below 128, else the sign-extended value `2^64 - 256 + b`. -/
def charIndex (b : Nat) : Nat := if b < 128 then b else 2 ^ 64 - 256 + b

/-- The loop "Fill character frequency table" of `huffmanCompress`: each character
stores its code in its table entry and increments the 32-bit frequency; an index
outside the table is a fault. -/
def fillTable : List Nat → List SCharacter → Outcome (List SCharacter)
  | [], table => Outcome.ok table
  | curChar :: rest, table =>
    if charIndex curChar < table.length then
      let e := table.getD (charIndex curChar) {}
      fillTable rest
        (table.set (charIndex curChar)
          { e with charCode := curChar % 256, frequency := (e.frequency + 1) % 2 ^ 32 })
    else Outcome.fault

/-- The loop that scans the frequency table: an entry with a non-zero frequency and a
non-zero character code gets a leaf and is pushed on the queue. -/
def fillQueue (pq : PQueue) : List SCharacter → BinaryTree → pq.σ → BinaryTree × pq.σ
  | [], tree, q => (tree, q)
  | e :: rest, tree, q =>
    if e.frequency ≠ 0 ∧ e.charCode > 0 then
      fillQueue pq rest (tree.allocNode e.charCode).1
        (pq.push q
          { frequency := e.frequency, charCode := e.charCode,
            treeNode := (tree.allocNode e.charCode).2 })
    else fillQueue pq rest tree q

/-- One pass of the loop "Build tree from character queue": the two top entries are
removed, the one of strictly larger frequency (else the second) becomes the right
child of a new node, whose entry carries the 32-bit sum of both frequencies. -/
def mergeStep (pq : PQueue) (tree : BinaryTree) (q : pq.σ) : BinaryTree × pq.σ × Nat :=
  let charStruct0 := pq.top q
  let q1 := pq.pop q
  let charStruct1 := pq.top q1
  let q2 := pq.pop q1
  let right := if charStruct0.frequency > charStruct1.frequency
    then charStruct0.treeNode else charStruct1.treeNode
  let left := if charStruct0.frequency > charStruct1.frequency
    then charStruct1.treeNode else charStruct0.treeNode
  let parentNode := (tree.allocNode 0).2
  let tree1 := (tree.allocNode 0).1
  let parentStruct : SCharacter :=
    { charCode := 0
      frequency := (charStruct1.frequency + charStruct0.frequency) % 2 ^ 32
      treeNode := parentNode }
  let tree2 := tree1.linkNodeLeft parentNode left
  let tree3 := tree2.linkNodeRight parentNode right
  (tree3, pq.push q2 parentStruct, parentNode)

/-- The loop `while (alphabetQueue.size() > 1)`; the result is (tree, queue,
rootNode). -/
def mergeLoop (pq : PQueue) : Nat → BinaryTree → pq.σ → Nat → Outcome (BinaryTree × pq.σ × Nat)
  | 0, tree, q, rootNode =>
    if pq.size q > 1 then Outcome.outOfFuel else Outcome.ok (tree, q, rootNode)
  | fuel + 1, tree, q, rootNode =>
    if pq.size q > 1 then
      mergeLoop pq fuel (mergeStep pq tree q).1 (mergeStep pq tree q).2.1 (mergeStep pq tree q).2.2
    else Outcome.ok (tree, q, rootNode)

/-- The loop "Begin compression": a character without a pattern is skipped (the source
prints a warning and continues), any other one has the first `depth` bits of its
pattern written. -/
def encodeLoop (fuel : Nat) (tree : BinaryTree) (rootNode : Nat) :
    List Nat → BitStream → Outcome BitStream
  | [], bitstream => Outcome.ok bitstream
  | c :: rest, bitstream =>
    (findpattern fuel tree rootNode (c % 256) 0 0).bind fun r =>
      if !r.1 then encodeLoop fuel tree rootNode rest bitstream
      else (bitstream.write 32 r.2.1 0 r.2.2).bind (encodeLoop fuel tree rootNode rest)

/-- The tree part of `huffmanCompress`: frequency table, queue, merge loop. The result
is (tree, rootNode). The merge loop removes one entry per pass, so the queue size is
enough fuel. -/
def buildTree (pq : PQueue) (text : List Nat) : Outcome (BinaryTree × Nat) :=
  (fillTable text (List.replicate tableSize {})).bind fun table =>
    let tq := fillQueue pq table {} pq.empty
    (mergeLoop pq (pq.size tq.2) tq.1 tq.2 0).bind fun r =>
      Outcome.ok (r.1, r.2.2)

/-- The bit stream of `huffmanCompress` at the moment the header is written: the
serialized tree followed by the codes. The recursions over the tree get one unit of
fuel per node and one more. -/
def compressStream (pq : PQueue) (text : List Nat) : Outcome BitStream :=
  (buildTree pq text).bind fun tr =>
    (serializeNode (tr.1.m_nodes.length + 1) tr.1 tr.2 (BitStream.reserve (text.length * 8))).bind
      fun s1 => encodeLoop (tr.1.m_nodes.length + 1) tr.1 tr.2 text s1

/-- `huffmanCompress(text, encodedText)`: the header holds the bit count cast to 32
bits, the payload the first `getByteCount()` bytes of the buffer. The function returns
true on every path, so the written artifact is its whole result. -/
def huffmanCompress (pq : PQueue) (text : List Nat) : Outcome Artifact :=
  (compressStream pq text).bind fun s =>
    Outcome.ok { bitcount := s.getBitCount % 2 ^ 32, payload := s.getBitBuffer }

/-- The decode loop `while ((header.bitcount - bitstream.getRead()) > 0)` of
`huffmanDecompress`; the difference is computed in `size_t`. -/
def decodeLoop (bitcount : Nat) (tree : BinaryTree) (root : Nat) :
    Nat → Nat → BitStream → List Nat → Outcome (List Nat)
  | 0, _, bitstream, out =>
    if (bitcount + 2 ^ 64 - bitstream.getRead % 2 ^ 64) % 2 ^ 64 > 0 then Outcome.outOfFuel
    else Outcome.ok out
  | fuel + 1, curnode, bitstream, out =>
    if (bitcount + 2 ^ 64 - bitstream.getRead % 2 ^ 64) % 2 ^ 64 > 0 then
      match bitstream.readbit false with
      | (_, bit, s1) =>
        let next := tree.getChildNode curnode bit
        if tree.isNodeLeaf next then
          decodeLoop bitcount tree root fuel root s1 (out ++ [(tree.getNodeValue next 0).2])
        else decodeLoop bitcount tree root fuel next s1 out
    else Outcome.ok out

/-- `huffmanDecompress(encodedText, decodedText)`: reads the header and
`ceil(bitcount / 8)` payload bytes (the `assert` after the read fails when the stream is
shorter; bytes behind the payload are not looked at), rebuilds the tree into an empty
arena, takes node `1` as the root and decodes the remaining bits. The result is the
decoded text; the function itself returns true on every path. -/
def huffmanDecompress (fuel : Nat) (encodedText : Artifact) : Outcome (List Nat) :=
  let bytecount := calcByteCount encodedText.bitcount
  if encodedText.payload.length < bytecount then Outcome.fault
  else
    let bitstream := BitStream.fromBytes (encodedText.payload.take bytecount) encodedText.bitcount
    (deserializeNode fuel {} 0 bitstream).bind fun r =>
      decodeLoop encodedText.bitcount r.2.1 1 fuel 1 r.2.2 []

/-! ## Specification vocabulary -/

/-! ### Streams -/

/-- Bit `i` of a byte buffer, most significant bit of each byte first: the test that
`readbit` performs at read cursor `i`. -/
def bitAt (buf : List Nat) (i : Nat) : Bool :=
  (buf.getD (i / 8) 0 &&& (1 <<< (8 - (i % 8 + 1)))) != 0

/-- The bits written so far: positions below the write cursor. -/
def written (s : BitStream) : List Bool :=
  (List.range s.m_bufferWrite).map (bitAt s.m_buffer)

/-- State of a stream that has only been written to since its reserving constructor:
the buffer is not empty, the write cursor is inside it, every bit from the write cursor on
is zero, and the bit count equals the write cursor. -/
structure Clean (s : BitStream) : Prop where
  nonempty : 0 < s.m_buffer.length
  bound : s.m_bufferWrite ≤ s.m_buffer.length * 8
  zero : ∀ i, s.m_bufferWrite ≤ i → bitAt s.m_buffer i = false
  size : s.m_bufferSize = s.m_bufferWrite

/-- The bits that `write` hands to `writebit` for the positions `bit .. bit + n - 1` of
a value of `width` bits. -/
def msbBits (width data : Nat) : Nat → Nat → List Bool
  | 0, _ => []
  | n + 1, bit =>
    ((data &&& ((1 <<< (width - (bit + 1))) % 2 ^ width)) != 0) :: msbBits width data n (bit + 1)

/-- The bits appended by `write(data, bitoffset, bitcount)` on a type of `width` bits. -/
def writeBits (width data bitoffset bitcount : Nat) : List Bool :=
  msbBits width data
    ((if bitcount > width then width else bitcount) - (if bitoffset ≥ width then 0 else bitoffset))
    (if bitoffset ≥ width then 0 else bitoffset)

/-- The bits `readbit` can still deliver: from the read cursor to the end of the
buffer. -/
def unread (s : BitStream) : List Bool :=
  (List.range' s.m_bufferRead (s.m_buffer.length * 8 - s.m_bufferRead)).map (bitAt s.m_buffer)

/-- The stream with the read cursor moved on by `n`. -/
def advance (s : BitStream) (n : Nat) : BitStream :=
  { s with m_bufferRead := s.m_bufferRead + n }

/-- The value `read` accumulates from the given bits, starting at loop index `i` with
`data` in the out-parameter. -/
def readBitsVal : List Bool → Nat → Nat → Nat
  | [], _, data => data
  | b :: bs, i, data => readBitsVal bs (i + 1) (data ||| (b.toNat <<< (8 - (i + 1))))

/-! ### Arena and tree shapes -/

/-- The node stored under an id, if the id is valid. -/
def nodeAt (t : BinaryTree) (id : Nat) : Option Node :=
  if id = 0 then none else t.m_nodes[id - 1]?

/-- Shape of a tree: leaves carry a byte, inner nodes have two subtrees. -/
inductive HTree where
  | leaf (v : Nat)
  | node (l r : HTree)
deriving DecidableEq, Repr

namespace HTree

/-- Length of the longest path from the root to a leaf. -/
def depth : HTree → Nat
  | leaf _ => 0
  | node l r => max l.depth r.depth + 1


/-- Number of nodes. -/
def size : HTree → Nat
  | leaf _ => 1
  | node l r => l.size + r.size + 1


/-- Leaf values, left to right. -/
def leaves : HTree → List Nat
  | leaf v => [v]
  | node l r => l.leaves ++ r.leaves


/-- The serialized form: `1` and eight value bits for a leaf; `0`, the left subtree, the
right subtree for an inner node. -/
def ser : HTree → List Bool
  | leaf v => true :: msbBits 8 v 8 0
  | node l r => false :: (l.ser ++ r.ser)

end HTree

/-- The subtree of the arena `t` under `id` has shape `s`: every node on the way is
stored under an id above `lo`, leaves have both child ids zero and inner nodes have two
children. -/
def Embeds (t : BinaryTree) (lo : Nat) : HTree → Nat → Prop
  | HTree.leaf v, id => lo < id ∧ nodeAt t id = some { value := v }
  | HTree.node l r, id =>
    lo < id ∧ ∃ n, nodeAt t id = some n ∧ Embeds t lo l n.left ∧ Embeds t lo r n.right

/-- Every leaf value of the shape is a byte. -/
def HTree.Bytes : HTree → Prop
  | HTree.leaf v => v < 256
  | HTree.node l r => l.Bytes ∧ r.Bytes

/-- The way to the first leaf (left before right) that holds `c`: `false` for a step to the
left child, `true` for a step to the right child. -/
def HTree.path : HTree → Nat → Option (List Bool)
  | HTree.leaf v, c => if v = c then some [] else none
  | HTree.node l r, c =>
    match l.path c with
    | some p => some (false :: p)
    | none =>
      match r.path c with
      | some p => some (true :: p)
      | none => none

/-- The leaf or subtree reached from the root by the given steps. -/
def HTree.follow : HTree → List Bool → Option HTree
  | s, [] => some s
  | HTree.leaf _, _ :: _ => none
  | HTree.node l r, b :: bs => if b then r.follow bs else l.follow bs

/-- The 32-bit pattern `findpattern` has built when it is back at the node where the
given steps start: one shift per step, bit 31 set for a step to the right. -/
def packPattern : List Bool → Nat → Nat
  | [], p => p
  | b :: bs, p => if b then (packPattern bs p >>> 1) ||| (1 <<< 31) else packPattern bs p >>> 1

/-! ### Table, queue and forest -/

/-- The table holds, for every index, the number of occurrences `cnt i` reduced to 32
bits and the index itself as character code once the character was seen. -/
def TableOf (cnt : Nat → Nat) (table : List SCharacter) : Prop :=
  table.length = tableSize ∧ ∀ i, i < tableSize →
    table.getD i {} = { frequency := cnt i % 2 ^ 32, charCode := if cnt i = 0 then 0 else i }

/-- Leaf values of all trees of a forest. -/
def leavesOf (g : List (SCharacter × HTree)) : List Nat := g.flatMap fun p => p.2.leaves

/-- The queue entries `es` stand for the trees of `g`: every entry is paired with the shape
found under its tree node, whose leaves are bytes and whose depth is below the node id. -/
structure Forest (t : BinaryTree) (es : List SCharacter) (g : List (SCharacter × HTree)) :
    Prop where
  perm : (g.map Prod.fst).Perm es
  embeds : ∀ p, p ∈ g → Embeds t 0 p.2 p.1.treeNode
  depth : ∀ p, p ∈ g → p.2.depth < p.1.treeNode
  bytes : ∀ p, p ∈ g → p.2.Bytes

/-- The ids of the nodes that make up the shape `s` under `id`: the node itself, then the
nodes of its left and of its right subtree. -/
def idsUnder (t : BinaryTree) : HTree → Nat → List Nat
  | HTree.leaf _, id => [id]
  | HTree.node l r, id =>
    id :: (idsUnder t l (t.getChildNodeLeft id) ++ idsUnder t r (t.getChildNodeRight id))

/-- Node ids of all trees of a forest. -/
def idsOf (t : BinaryTree) (g : List (SCharacter × HTree)) : List Nat :=
  g.flatMap fun p => idsUnder t p.2 p.1.treeNode

/-- The forest as the merge loop sees it: every tree with the frequency of its queue
entry. -/
def freqForest (g : List (SCharacter × HTree)) : List (Nat × HTree) :=
  g.map fun p => (p.1.frequency, p.2)

/-- One pass of the merge loop on a forest of trees with frequencies: a tree `a` of least
frequency and a tree `b` of least frequency among the others are taken out and put back
as one tree with `a` to the left and `b` to the right, under the 32-bit sum of both
frequencies. -/
def HuffStep (g g' : List (Nat × HTree)) : Prop :=
  ∃ a b rest, g.Perm (a :: b :: rest)
    ∧ (∀ x, x ∈ b :: rest → a.1 ≤ x.1)
    ∧ (∀ x, x ∈ rest → b.1 ≤ x.1)
    ∧ g'.Perm (((a.1 + b.1) % 2 ^ 32, HTree.node a.2 b.2) :: rest)

/-- The merge loop on a forest: passes are made until one tree is left. -/
inductive HuffRun : List (Nat × HTree) → HTree → Prop
  | done (f : Nat) (s : HTree) : HuffRun [(f, s)] s
  | step (g g' : List (Nat × HTree)) (s : HTree) : HuffStep g g' → HuffRun g' s → HuffRun g s

/-- The character codes of the table entries that get a leaf. -/
def symbolsOf (table : List SCharacter) : List Nat :=
  (table.filter fun e => decide (e.frequency ≠ 0 ∧ e.charCode > 0)).map fun e => e.charCode

/-- The forest that the queue fill builds from a table: a leaf with its frequency for every
entry that has a non-zero frequency and a non-zero character code. -/
def leafForest (table : List SCharacter) : List (Nat × HTree) :=
  (table.filter fun e => decide (e.frequency ≠ 0 ∧ e.charCode > 0)).map
    fun e => (e.frequency, HTree.leaf e.charCode)

/-- The bits the encode loop writes for a character: the first `depth` bits of the pattern
of its way, nothing for a character without a leaf. -/
def codeBits (s : HTree) (c : Nat) : List Bool :=
  match s.path c with
  | some bits => writeBits 32 (packPattern bits 0) 0 ((0 + bits.length) % 2 ^ 32)
  | none => []

/-- Depth of the tree under `id` in the arena (the longest way down to a leaf), searched
with the given fuel. -/
def treeDepth : Nat → BinaryTree → Nat → Nat
  | 0, _, _ => 0
  | fuel + 1, t, id =>
    if !t.isNode id || t.isNodeLeaf id then 0
    else max (treeDepth fuel t (t.getChildNodeLeft id)) (treeDepth fuel t (t.getChildNodeRight id)) + 1

/-! ### Texts given by their counts -/

/-- The text made of `w` copies of the byte `c` for the first weight, then of `c + 1` for
the second weight, and so on. -/
def blocks : List Nat → Nat → List Nat
  | [], _ => []
  | w :: ws, c => List.replicate w c ++ blocks ws (c + 1)

/-- The frequency table after `n` more occurrences of the byte `b`. -/
def bump (n b : Nat) (table : List SCharacter) : List SCharacter :=
  if n = 0 then table
  else table.set b
    { table.getD b {} with
      charCode := b % 256
      frequency := ((table.getD b {}).frequency + n) % 2 ^ 32 }

/-- The frequency table after the text `blocks ws c`. -/
def bumpAll : List Nat → Nat → List SCharacter → List SCharacter
  | [], _, table => table
  | w :: ws, c, table => bumpAll ws (c + 1) (bump w c table)

/-- Weights without ties for which the merge loop builds a tree of depth 33. -/
def deepWeights : List Nat :=
  [1, 2, 4, 5, 8, 13, 21, 34, 55, 89, 144, 233, 377, 610, 987, 1597, 2584, 4181, 6765, 10946,
    17711, 28657, 46368, 75025, 121393, 196418, 317811, 514229, 832040, 1346269, 2178309,
    3524578, 5702887, 9227465]

/-- A text of 24157816 bytes: one byte `1`, two bytes `2`, four bytes `3`, ..., 9227465
bytes `34`. -/
def deepText : List Nat := blocks deepWeights 1

/-- The tree of `deepText`: the leaves `1..34` under the ids `1..34`, and above them a
chain of 33 inner nodes up to the root `67`. -/
def deepTree : BinaryTree :=
  { m_nodes := (List.range 34).map (fun i => Node.mk (i + 1) 0 0)
      ++ [Node.mk 0 1 2, Node.mk 0 35 3]
      ++ (List.range 31).map (fun i => Node.mk 0 (i + 4) (i + 36)) }

/-- A text of `2^32` bytes: `2^32 - 1` bytes `a` and one byte `b`. -/
def hugeText : List Nat := blocks [2 ^ 32 - 1, 1] 97

/-! ### Runs of single calls -/

/-- Writing the bits of a list one by one with `writebit`. -/
def writeEach : List Bool → BitStream → Outcome BitStream
  | [], s => Outcome.ok s
  | b :: bs, s => (s.writebit b).bind (writeEach bs)

/-- Reading up to `n` bits one by one with `readbit`; the first failed call ends the
run. -/
def readEach : Nat → BitStream → List Bool
  | 0, _ => []
  | n + 1, s =>
    match s.readbit false with
    | (true, b, s1) => b :: readEach n s1
    | (false, _, _) => []

/-- Successive calls of `allocNode`, one for each value of the list; the result is the
arena after the last call and the ids that were returned, in order. -/
def allocEach : List Nat → BinaryTree → BinaryTree × List Nat
  | [], t => (t, [])
  | v :: vs, t =>
    ((allocEach vs (t.allocNode v).1).1, (t.allocNode v).2 :: (allocEach vs (t.allocNode v).1).2)

/-- The reference encoding `ser` of the specification: for a leaf the bit 1 followed by
the 8 bits of its value, most significant bit first; for an inner node the bit 0 followed
by the encoding of the left and then of the right subtree. -/
def specSer : HTree → List Bool
  | HTree.leaf v => true :: (List.range 8).map (fun i => v.testBit (7 - i))
  | HTree.node l r => false :: (specSer l ++ specSer r)

/-- The arena that `huffmanCompress` builds for the text `aaab`: the leaves `a` and `b`
under the ids 1 and 2 and the root 3 with `b` to the left and `a` to the right. -/
def aaabTree : BinaryTree := ⟨[⟨97, 0, 0⟩, ⟨98, 0, 0⟩, ⟨0, 2, 1⟩]⟩

/-! ### The arena of a built tree -/

/-- The node reached from `id` by the given steps (`false` to the left child, `true` to the
right child) with `getChildNode`; it is `0` once a step has left the tree. -/
def walk (t : BinaryTree) : Nat → List Bool → Nat
  | id, [] => id
  | id, b :: bs => walk t (t.getChildNode id b) bs

/-- The values of the leaf nodes of the arena, in the order of their ids. -/
def leafValues (t : BinaryTree) : List Nat :=
  ((List.range' 1 t.m_nodes.length).filter fun id => t.isNodeLeaf id).map
    fun id => (t.getNodeValue id 0).2

/-- The symbols that `huffmanCompress` counts for a text: the byte values from 1 on whose
number of occurrences, as a 32-bit counter, is not zero. -/
def countedSymbols (text : List Nat) : List Nat :=
  (List.range tableSize).filter fun i => decide (text.count i % 2 ^ 32 ≠ 0 ∧ 0 < i)

/-! ### Texts with wrapped counters -/

/-- A text of `2^32 + 3` bytes: `2^32` bytes `a`, one byte `b` and two bytes `c`. -/
def wrapText : List Nat := blocks [2 ^ 32, 1, 2] 97

/-! ### Weights -/

namespace HTree

/-- The occurrences under a tree shape: the counts of its leaves, added up. -/
def weight (cnt : Nat → Nat) : HTree → Nat
  | leaf v => cnt v
  | node l r => weight cnt l + weight cnt r

end HTree

/-- In every inner node of the shape the right side weighs at least as much as the left
side. -/
def RightHeavy (cnt : Nat → Nat) : HTree → Prop
  | HTree.leaf _ => True
  | HTree.node l r =>
    HTree.weight cnt l ≤ HTree.weight cnt r ∧ RightHeavy cnt l ∧ RightHeavy cnt r

/-- The occurrences under the node `id` of the arena: the counts of the values of the
leaf nodes below it, added up; followed for `fuel` levels. -/
def weightUnder (cnt : Nat → Nat) : Nat → BinaryTree → Nat → Nat
  | 0, _, _ => 0
  | fuel + 1, t, id =>
    if !t.isNode id then 0
    else if t.isNodeLeaf id then cnt (t.getNodeValue id 0).2
    else weightUnder cnt fuel t (t.getChildNodeLeft id)
      + weightUnder cnt fuel t (t.getChildNodeRight id)

/-- A text of `3 * 2^31 + 5` bytes: `2^31` bytes `a`, as many bytes `b` and `2^31 + 5`
bytes `c`. -/
def heavyText : List Nat := blocks [2 ^ 31, 2 ^ 31, 2 ^ 31 + 5] 97

/-! ### Depth assignments -/

/-- The cost of a list of (weight, depth) pairs: every weight times its depth, added
up. -/
def pairCost (P : List (Nat × Nat)) : Nat := (P.map fun p => p.1 * p.2).sum

/-- The Kraft sum of the depths of a list of (weight, depth) pairs, scaled by `2^N`. -/
def kraftSum (N : Nat) (P : List (Nat × Nat)) : Nat := (P.map fun p => 2 ^ (N - p.2)).sum

/-! ### Code bits -/

namespace HTree

/-- The code bits of a tree shape whose root lies at depth `d`: for every leaf its count
times its depth, added up. -/
def codeLength (cnt : Nat → Nat) : HTree → Nat → Nat
  | leaf v, d => cnt v * d
  | node l r, d => codeLength cnt l (d + 1) + codeLength cnt r (d + 1)

end HTree

/-- The leaves of a tree shape as (count, depth) pairs, the root at depth `d`. -/
def leafDepths (cnt : Nat → Nat) : HTree → Nat → List (Nat × Nat)
  | HTree.leaf v, d => [(cnt v, d)]
  | HTree.node l r, d => leafDepths cnt l (d + 1) ++ leafDepths cnt r (d + 1)

/-- The code bits of the tree under the node `id` of the arena, which lies at depth `d`:
for every leaf node below it the count of its value times its depth, added up; followed
for `fuel` levels. -/
def codeLengthUnder (cnt : Nat → Nat) : Nat → BinaryTree → Nat → Nat → Nat
  | 0, _, _, _ => 0
  | fuel + 1, t, id, d =>
    if !t.isNode id then 0
    else if t.isNodeLeaf id then cnt (t.getNodeValue id 0).2 * d
    else codeLengthUnder cnt fuel t (t.getChildNodeLeft id) (d + 1)
      + codeLengthUnder cnt fuel t (t.getChildNodeRight id) (d + 1)

/-- A text of `2^33 + 13` bytes: `2^31` bytes `a`, `2^31 + 1` bytes `b`, `2^31 + 2` bytes
`c` and `2^31 + 10` bytes `d`. -/
def skewText : List Nat := blocks [2 ^ 31, 2 ^ 31 + 1, 2 ^ 31 + 2, 2 ^ 31 + 10] 97

/-! ### The passes of the merge loop -/

/-- The states (arena, queue) in which the loop `while (alphabetQueue.size() > 1)` runs a
pass, in the order of the passes: the states on which `mergeLoop` calls `mergeStep`. -/
def mergeStates (pq : PQueue) : Nat → BinaryTree → pq.σ → List (BinaryTree × pq.σ)
  | 0, _, _ => []
  | fuel + 1, tree, q =>
    if pq.size q > 1 then
      (tree, q) :: mergeStates pq fuel (mergeStep pq tree q).1 (mergeStep pq tree q).2.1
    else []

/-- The passes of the merge loop in the tree build of a text: the loop starts on the arena
and the queue of the queue fill, with the fuel that `buildTree` gives it. -/
def buildStates (pq : PQueue) (text : List Nat) : List (BinaryTree × pq.σ) :=
  match fillTable text (List.replicate tableSize {}) with
  | Outcome.ok table =>
    mergeStates pq (pq.size (fillQueue pq table {} pq.empty).2)
      (fillQueue pq table {} pq.empty).1 (fillQueue pq table {} pq.empty).2
  | _ => []

/-- The frequencies of the entries of a queue, added up. -/
def freqSum (pq : PQueue) (q : pq.σ) : Nat := ((pq.elems q).map fun e => e.frequency).sum

/-! ## A priority queue to compute with -/

/-- Insertion into a list kept in ascending order of frequency, after the entries of
equal frequency. -/
def insertByFrequency (x : SCharacter) : List SCharacter → List SCharacter
  | [] => [x]
  | y :: ys => if x.frequency < y.frequency then x :: y :: ys else y :: insertByFrequency x ys

/-- Ascending order of frequency. -/
def FreqSorted (l : List SCharacter) : Prop :=
  l.Pairwise fun a b => a.frequency ≤ b.frequency

theorem insertByFrequency_perm (x : SCharacter) (l : List SCharacter) :
    (insertByFrequency x l).Perm (x :: l) := by
  induction l with
  | nil => exact List.Perm.refl _
  | cons y ys ih =>
    unfold insertByFrequency
    split
    · exact List.Perm.refl _
    · exact (List.Perm.cons y ih).trans (List.Perm.swap x y ys)

theorem insertByFrequency_sorted (x : SCharacter) (l : List SCharacter)
    (h : FreqSorted l) : FreqSorted (insertByFrequency x l) := by
  induction l with
  | nil => simp [insertByFrequency, FreqSorted]
  | cons y ys ih =>
    unfold insertByFrequency
    have hy := List.pairwise_cons.mp h
    split
    · rename_i hlt
      refine List.pairwise_cons.mpr ⟨?_, h⟩
      intro a ha
      rcases List.mem_cons.mp ha with rfl | ha
      · exact Nat.le_of_lt hlt
      · exact Nat.le_trans (Nat.le_of_lt hlt) (hy.1 a ha)
    · rename_i hge
      refine List.pairwise_cons.mpr ⟨?_, ih hy.2⟩
      intro a ha
      rcases List.mem_cons.mp ((insertByFrequency_perm x ys).subset ha) with rfl | ha
      · exact Nat.le_of_not_lt hge
      · exact hy.1 a ha

/-- A model of the priority queue: a list kept in ascending order of frequency, new
entries going behind the entries of equal frequency. -/
def listQueue : PQueue where
  σ := { l : List SCharacter // FreqSorted l }
  empty := ⟨[], List.Pairwise.nil⟩
  push := fun q x => ⟨insertByFrequency x q.1, insertByFrequency_sorted x q.1 q.2⟩
  top := fun q => q.1.headD {}
  pop := fun q => ⟨q.1.tail, List.Pairwise.tail q.2⟩
  size := fun q => q.1.length
  elems := fun q => q.1
  elems_empty := rfl
  size_eq := fun _ => rfl
  push_perm := fun q x => insertByFrequency_perm x q.1
  pop_perm := by
    rintro ⟨l, hl⟩ hne
    cases l with
    | nil => exact absurd rfl hne
    | cons y ys => exact List.Perm.refl _
  top_min := by
    rintro ⟨l, hl⟩ x hx
    cases l with
    | nil => cases hx
    | cons y ys =>
      rcases List.mem_cons.mp hx with rfl | hx
      · exact Nat.le_refl _
      · exact (List.pairwise_cons.mp hl).1 x hx

/-! ## Lemmas -/

/-! ### Bits of a byte buffer -/

theorem and_two_pow_ne_zero (x k : Nat) : ((x &&& (1 <<< k)) != 0) = x.testBit k := by
  rw [Nat.one_shiftLeft]
  cases h : x.testBit k
  · have : x &&& 2 ^ k = 0 := by
      apply Nat.eq_of_testBit_eq
      intro j
      rw [Nat.testBit_and, Nat.testBit_two_pow, Nat.zero_testBit]
      by_cases hj : k = j
      · subst hj; simp [h]
      · simp [hj]
    simp [this]
  · have : (x &&& 2 ^ k).testBit k = true := by
      rw [Nat.testBit_and, Nat.testBit_two_pow, h]; simp
    have hne : x &&& 2 ^ k ≠ 0 := by
      intro h0; rw [h0, Nat.zero_testBit] at this; cases this
    simp [hne]

theorem bitAt_eq_testBit (buf : List Nat) (i : Nat) :
    bitAt buf i = (buf.getD (i / 8) 0).testBit (7 - i % 8) := by
  unfold bitAt
  rw [and_two_pow_ne_zero]
  congr 1
  omega

theorem bitAt_append_zeros (buf : List Nat) (n i : Nat) :
    bitAt (buf ++ List.replicate n 0) i = bitAt buf i := by
  rw [bitAt_eq_testBit, bitAt_eq_testBit]
  by_cases h : i / 8 < buf.length
  · rw [List.getD_append _ _ _ _ h]
  · have h' : buf.length ≤ i / 8 := Nat.le_of_not_lt h
    rw [List.getD_append_right _ _ _ _ h', List.getD_eq_default _ _ h']
    simp [List.getElem?_getD_replicate_default_eq]

theorem bitAt_replicate_zero (n i : Nat) : bitAt (List.replicate n 0) i = false := by
  rw [bitAt_eq_testBit]
  simp [List.getElem?_getD_replicate_default_eq]

theorem bitAt_set (buf : List Nat) (w i : Nat) (b : Bool) (hw : w / 8 < buf.length) :
    bitAt (buf.set (w / 8) (buf.getD (w / 8) 0 ||| (b.toNat * (1 <<< (8 - (w % 8 + 1)))))) i
      = if i = w then (bitAt buf w || b) else bitAt buf i := by
  rw [bitAt_eq_testBit, bitAt_eq_testBit, bitAt_eq_testBit]
  have h87 : 8 - (w % 8 + 1) = 7 - w % 8 := by omega
  rw [h87, Nat.one_shiftLeft]
  generalize hx : buf.getD (w / 8) 0 = x
  by_cases hi : i / 8 = w / 8
  · have hget : (buf.set (w / 8) (x ||| b.toNat * 2 ^ (7 - w % 8))).getD (i / 8) 0
        = x ||| b.toNat * 2 ^ (7 - w % 8) := by
      rw [hi, List.getD_eq_getElem _ _ (by simpa using hw), List.getElem_set_self]
    rw [hget, Nat.testBit_or]
    by_cases hiw : i = w
    · subst hiw
      simp only [if_true]
      cases b <;> simp [Nat.testBit_two_pow_self]
    · simp only [hiw, if_false]
      have hne : 7 - w % 8 ≠ 7 - i % 8 := by omega
      rw [hi, hx]
      cases b <;> simp [Nat.testBit_two_pow_of_ne hne]
  · have hiw : i ≠ w := by intro h; exact hi (by rw [h])
    simp only [hiw, if_false]
    congr 1
    simp only [List.getD_eq_getElem?_getD]
    rw [List.getElem?_set_ne (Ne.symm hi)]

/-! ### Writing -/

@[simp] theorem Outcome.bind_ok {α β : Type} (a : α) (f : α → Outcome β) :
    (Outcome.ok a).bind f = f a := rfl

@[simp] theorem Outcome.bind_fault {α β : Type} (f : α → Outcome β) :
    (Outcome.fault : Outcome α).bind f = Outcome.fault := rfl

@[simp] theorem Outcome.bind_outOfFuel {α β : Type} (f : α → Outcome β) :
    (Outcome.outOfFuel : Outcome α).bind f = Outcome.outOfFuel := rfl

theorem written_length (s : BitStream) : (written s).length = s.m_bufferWrite := by
  simp [written]

theorem clean_reserve (n : Nat) (h : 0 < n) : Clean (BitStream.reserve n) := by
  refine ⟨?_, ?_, ?_, rfl⟩
  · simp only [BitStream.reserve, List.length_replicate, calcByteCount]
    split <;> omega
  · simp [BitStream.reserve]
  · intro i _
    exact bitAt_replicate_zero _ _

theorem written_reserve (n : Nat) : written (BitStream.reserve n) = [] := rfl

theorem writebit_spec (s : BitStream) (b : Bool) (h : Clean s) :
    ∃ s', s.writebit b = Outcome.ok s' ∧ Clean s' ∧ written s' = written s ++ [b]
      ∧ s'.m_bufferRead = s.m_bufferRead := by
  obtain ⟨hne, hb, hz, hsz⟩ := h
  -- the stream after the optional growth
  have key : ∀ s1 : BitStream, s1.m_bufferWrite = s.m_bufferWrite →
      s1.m_bufferRead = s.m_bufferRead → s1.m_bufferSize = s.m_bufferSize →
      (∀ i, bitAt s1.m_buffer i = bitAt s.m_buffer i) →
      s1.m_bufferWrite / 8 < s1.m_buffer.length →
      ∃ s', (if s1.m_bufferWrite / 8 < s1.m_buffer.length then
          Outcome.ok { s1 with
            m_buffer := s1.m_buffer.set (s1.m_bufferWrite / 8)
              (s1.m_buffer.getD (s1.m_bufferWrite / 8) 0 |||
                (b.toNat * (1 <<< (8 - (s1.m_bufferWrite % 8 + 1)))))
            m_bufferWrite := s1.m_bufferWrite + 1
            m_bufferSize := s1.m_bufferSize + 1 }
        else Outcome.fault) = Outcome.ok s' ∧ Clean s' ∧ written s' = written s ++ [b]
          ∧ s'.m_bufferRead = s.m_bufferRead := by
    intro s1 hw hr hs hbits hidx
    rw [if_pos hidx]
    refine ⟨_, rfl, ⟨?_, ?_, ?_, ?_⟩, ?_, hr⟩
    · simpa using (by omega : 0 < s1.m_buffer.length)
    · simp only [List.length_set]
      have := Nat.div_add_mod s1.m_bufferWrite 8
      have := Nat.mod_lt s1.m_bufferWrite (by decide : 8 > 0)
      omega
    · intro i hi
      simp only at hi ⊢
      rw [bitAt_set _ _ _ _ hidx, if_neg (by omega), hbits]
      exact hz i (by omega)
    · simp only [hs, hw, hsz]
    · simp only [written, List.range_succ, List.map_append, List.map_cons, List.map_nil, hw]
      congr 1
      · apply List.map_congr_left
        intro i hi
        have hi' : i < s.m_bufferWrite := List.mem_range.mp hi
        rw [← hw, bitAt_set _ _ _ _ hidx, if_neg (by omega), hbits]
      · rw [← hw, bitAt_set _ _ _ _ hidx, if_pos rfl, hbits, hz _ (by omega)]
        simp
  unfold BitStream.writebit
  by_cases hg : s.m_bufferWrite + 1 > s.m_buffer.length * 8
  · simp only [hg, if_true]
    apply key s.realloc rfl rfl rfl
    · intro i; exact bitAt_append_zeros _ _ _
    · simp only [BitStream.realloc, List.length_append, List.length_replicate]
      have : s.m_bufferWrite / 8 = s.m_buffer.length := by omega
      omega
  · simp only [hg, if_false]
    apply key s rfl rfl rfl (fun _ => rfl)
    omega

/-! ### Write loop and reading -/

theorem msbBits_length (width data n bit : Nat) : (msbBits width data n bit).length = n := by
  induction n generalizing bit with
  | zero => rfl
  | succ n ih => simp [msbBits, ih]

theorem writeLoop_spec (width data n bit : Nat) (s : BitStream) (h : Clean s) :
    ∃ s', BitStream.writeLoop width data n bit s = Outcome.ok s' ∧ Clean s'
      ∧ written s' = written s ++ msbBits width data n bit
      ∧ s'.m_bufferRead = s.m_bufferRead := by
  induction n generalizing bit s with
  | zero => exact ⟨s, rfl, h, by simp [msbBits], rfl⟩
  | succ n ih =>
    obtain ⟨s1, h1, hc1, hw1, hr1⟩ :=
      writebit_spec s ((data &&& ((1 <<< (width - (bit + 1))) % 2 ^ width)) != 0) h
    obtain ⟨s2, h2, hc2, hw2, hr2⟩ := ih (bit + 1) s1 hc1
    refine ⟨s2, ?_, hc2, ?_, by rw [hr2, hr1]⟩
    · simp only [BitStream.writeLoop, h1, Outcome.bind_ok, h2]
    · rw [hw2, hw1, msbBits, List.append_assoc]; rfl

theorem write_spec (width data bitoffset bitcount : Nat) (s : BitStream) (h : Clean s) :
    ∃ s', s.write width data bitoffset bitcount = Outcome.ok s' ∧ Clean s'
      ∧ written s' = written s ++ writeBits width data bitoffset bitcount
      ∧ s'.m_bufferRead = s.m_bufferRead :=
  writeLoop_spec width data _ _ s h

@[simp] theorem advance_zero (s : BitStream) : advance s 0 = s := rfl

@[simp] theorem advance_advance (s : BitStream) (m n : Nat) :
    advance (advance s m) n = advance s (m + n) := by
  simp [advance, Nat.add_assoc]

theorem unread_length (s : BitStream) :
    (unread s).length = s.m_buffer.length * 8 - s.m_bufferRead := by
  simp [unread]

theorem drop_range_from (n a m : Nat) :
    List.drop n (List.range' a m) = List.range' (a + n) (m - n) := by
  induction n generalizing a m with
  | zero => simp
  | succ n ih =>
    cases m with
    | zero => simp
    | succ m =>
      rw [List.range'_succ, List.drop_succ_cons, ih]
      congr 1 <;> omega

theorem unread_advance (s : BitStream) (n : Nat) : unread (advance s n) = (unread s).drop n := by
  simp only [unread, advance, ← List.map_drop]
  congr 1
  rw [drop_range_from]
  congr 1
  omega

theorem readbit_nil (s : BitStream) (x : Bool) (h : unread s = []) :
    s.readbit x = (false, x, s) := by
  have hl := unread_length s
  rw [h] at hl
  simp only [List.length_nil] at hl
  unfold BitStream.readbit
  rw [if_pos (by omega)]

theorem readbit_cons (s : BitStream) (x b : Bool) (rest : List Bool) (h : unread s = b :: rest) :
    s.readbit x = (true, b, advance s 1) ∧ unread (advance s 1) = rest := by
  have hl := unread_length s
  rw [h] at hl
  simp only [List.length_cons] at hl
  have hlt : s.m_bufferRead < s.m_buffer.length * 8 := by omega
  constructor
  · unfold BitStream.readbit
    rw [if_neg (by omega)]
    have hb : bitAt s.m_buffer s.m_bufferRead = b := by
      have : s.m_buffer.length * 8 - s.m_bufferRead = (s.m_buffer.length * 8 - s.m_bufferRead - 1) + 1 := by
        omega
      unfold unread at h
      rw [this, List.range'_succ] at h
      simp only [List.map_cons, List.cons.injEq] at h
      exact h.1
    simp only [bitAt] at hb
    simp only [hb, advance]
  · rw [unread_advance, h]; rfl

theorem readLoop_full (bits rest : List Bool) (i data : Nat) (s : BitStream)
    (h : unread s = bits ++ rest) (hi : i + bits.length ≤ 8) :
    BitStream.readLoop bits.length i data s
      = Outcome.ok (true, readBitsVal bits i data, advance s bits.length) := by
  induction bits generalizing i data s with
  | nil => rfl
  | cons b bs ih =>
    obtain ⟨h1, h2⟩ := readbit_cons s false b (bs ++ rest) h
    simp only [List.length_cons] at hi ⊢
    simp only [BitStream.readLoop, h1]
    rw [if_pos (by omega), ih (i + 1) _ (advance s 1) h2 (by omega)]
    simp [readBitsVal, Nat.add_comm]

theorem readLoop_short (bits : List Bool) (n i data : Nat) (s : BitStream)
    (h : unread s = bits) (hn : bits.length < n) (hi : i + n ≤ 8) :
    BitStream.readLoop n i data s
      = Outcome.ok (false, readBitsVal bits i data, advance s bits.length) := by
  induction bits generalizing n i data s with
  | nil =>
    cases n with
    | zero => cases hn
    | succ n => simp only [BitStream.readLoop, readbit_nil s false h]; rfl
  | cons b bs ih =>
    cases n with
    | zero => cases hn
    | succ n =>
      obtain ⟨h1, h2⟩ := readbit_cons s false b bs h
      simp only [List.length_cons] at hn ⊢
      simp only [BitStream.readLoop, h1]
      rw [if_pos (by omega), ih n (i + 1) _ (advance s 1) h2 (by omega) (by omega)]
      simp [readBitsVal, Nat.add_comm]

set_option maxRecDepth 100000 in
theorem readBitsVal_msbBits : ∀ v, v < 256 → readBitsVal (msbBits 8 v 8 0) 0 0 = v := by
  decide

theorem read_byte (v : Nat) (hv : v < 256) (rest : List Bool) (s : BitStream)
    (h : unread s = msbBits 8 v 8 0 ++ rest) :
    s.read 0 0 8 = Outcome.ok (true, v, advance s 8) := by
  have := readLoop_full (msbBits 8 v 8 0) rest 0 0 s h (by simp [msbBits_length])
  rw [msbBits_length, readBitsVal_msbBits v hv] at this
  exact this

/-! ### The arena as a partial map -/

theorem nodeAt_zero (t : BinaryTree) : nodeAt t 0 = none := rfl

theorem nodeAt_some_bound {t : BinaryTree} {id : Nat} {n : Node} (h : nodeAt t id = some n) :
    0 < id ∧ id ≤ t.m_nodes.length := by
  unfold nodeAt at h
  split at h
  · cases h
  · have := (List.getElem?_eq_some_iff.mp h).1
    omega

theorem nodeAt_eq_none {t : BinaryTree} {id : Nat} (h : id = 0 ∨ t.m_nodes.length < id) :
    nodeAt t id = none := by
  unfold nodeAt
  split
  · rfl
  · exact List.getElem?_eq_none (by omega)

theorem nodeAt_isSome (t : BinaryTree) (id : Nat) (h0 : 0 < id) (hl : id ≤ t.m_nodes.length) :
    ∃ n, nodeAt t id = some n := by
  unfold nodeAt
  rw [if_neg (by omega)]
  exact ⟨t.m_nodes[id - 1], List.getElem?_eq_getElem (by omega)⟩

theorem validateId_eq (t : BinaryTree) (id : Nat) :
    t.validateId id = (nodeAt t id).isSome := by
  unfold BinaryTree.validateId
  by_cases h : 0 < id ∧ id ≤ t.m_nodes.length
  · obtain ⟨n, hn⟩ := nodeAt_isSome t id h.1 h.2
    simp [hn, h.1, h.2]
  · rw [nodeAt_eq_none (by omega)]
    simp only [Option.isSome_none, Bool.and_eq_false_imp, decide_eq_true_eq, decide_eq_false_iff_not]
    omega

theorem getNode_eq (t : BinaryTree) (id : Nat) (d : Node) :
    t.getNode id d = match nodeAt t id with
      | some n => (true, n)
      | none => (false, d) := by
  unfold BinaryTree.getNode
  rw [validateId_eq]
  cases h : nodeAt t id with
  | none => simp
  | some n =>
    simp only [Option.isSome_some, Bool.not_true, Bool.false_eq_true, if_false]
    have hb := nodeAt_some_bound h
    unfold nodeAt at h
    rw [if_neg (by omega)] at h
    rw [List.getD_eq_getElem?_getD, h]; rfl

theorem isNode_eq (t : BinaryTree) (id : Nat) : t.isNode id = (nodeAt t id).isSome :=
  validateId_eq t id

theorem isNodeLeaf_eq (t : BinaryTree) (id : Nat) :
    t.isNodeLeaf id = match nodeAt t id with
      | some n => (n.left == 0) && (n.right == 0)
      | none => false := by
  unfold BinaryTree.isNodeLeaf
  rw [getNode_eq]
  cases nodeAt t id <;> rfl

theorem getChildNodeLeft_eq (t : BinaryTree) (id : Nat) :
    t.getChildNodeLeft id = match nodeAt t id with
      | some n => n.left
      | none => 0 := by
  unfold BinaryTree.getChildNodeLeft
  rw [getNode_eq]
  cases nodeAt t id <;> rfl

theorem getChildNodeRight_eq (t : BinaryTree) (id : Nat) :
    t.getChildNodeRight id = match nodeAt t id with
      | some n => n.right
      | none => 0 := by
  unfold BinaryTree.getChildNodeRight
  rw [getNode_eq]
  cases nodeAt t id <;> rfl

theorem getNodeValue_eq (t : BinaryTree) (id d : Nat) :
    t.getNodeValue id d = match nodeAt t id with
      | some n => (true, n.value)
      | none => (false, d) := by
  unfold BinaryTree.getNodeValue
  rw [getNode_eq]
  cases nodeAt t id <;> rfl

theorem allocNode_length (t : BinaryTree) (v : Nat) :
    (t.allocNode v).1.m_nodes.length = t.m_nodes.length + 1 := by
  simp [BinaryTree.allocNode]

theorem allocNode_id (t : BinaryTree) (v : Nat) (h : t.m_nodes.length + 1 < 2 ^ 32) :
    (t.allocNode v).2 = t.m_nodes.length + 1 :=
  Nat.mod_eq_of_lt h

theorem nodeAt_allocNode (t : BinaryTree) (v id : Nat) :
    nodeAt (t.allocNode v).1 id
      = if id = t.m_nodes.length + 1 then some { value := v } else nodeAt t id := by
  unfold nodeAt BinaryTree.allocNode
  by_cases h0 : id = 0
  · subst h0; simp
  · simp only [h0, if_false]
    by_cases h1 : id = t.m_nodes.length + 1
    · subst h1; simp
    · simp only [h1, if_false]
      by_cases h2 : id - 1 < t.m_nodes.length
      · rw [List.getElem?_append_left h2]
      · rw [List.getElem?_eq_none (by simp; omega), List.getElem?_eq_none (by omega)]

theorem setNode_length (t : BinaryTree) (id : Nat) (n : Node) :
    (t.setNode id n).2.m_nodes.length = t.m_nodes.length := by
  unfold BinaryTree.setNode
  split <;> simp

theorem nodeAt_setNode (t : BinaryTree) (p : Nat) (n : Node) (id : Nat) :
    nodeAt (t.setNode p n).2 id
      = if id = p then (nodeAt t p).map (fun _ => n) else nodeAt t id := by
  unfold BinaryTree.setNode
  rw [validateId_eq]
  cases h : nodeAt t p with
  | none =>
    simp only [Option.isSome_none, Bool.not_false, if_true, Option.map_none']
    split
    · rename_i hid; rw [hid, h]
    · rfl
  | some m =>
    have hb := nodeAt_some_bound h
    simp only [Option.isSome_some, Bool.not_true, Bool.false_eq_true, if_false, Option.map_some']
    unfold nodeAt
    by_cases h0 : id = 0
    · subst h0
      rw [if_pos rfl, if_neg (by omega), if_pos rfl]
    · simp only [h0, if_false]
      by_cases h1 : id = p
      · subst h1
        simp only [if_true]
        rw [List.getElem?_set_self (by omega)]
      · simp only [h1, if_false]
        rw [List.getElem?_set_ne (by omega)]

theorem linkNodeLeft_length (t : BinaryTree) (p l : Nat) :
    (t.linkNodeLeft p l).m_nodes.length = t.m_nodes.length :=
  setNode_length _ _ _

theorem linkNodeRight_length (t : BinaryTree) (p r : Nat) :
    (t.linkNodeRight p r).m_nodes.length = t.m_nodes.length :=
  setNode_length _ _ _

theorem nodeAt_linkNodeLeft (t : BinaryTree) (p l id : Nat) :
    nodeAt (t.linkNodeLeft p l) id
      = if id = p then (nodeAt t p).map (fun n => { n with left := l }) else nodeAt t id := by
  unfold BinaryTree.linkNodeLeft
  simp only [nodeAt_setNode, getNode_eq]
  cases nodeAt t p <;> rfl

theorem nodeAt_linkNodeRight (t : BinaryTree) (p r id : Nat) :
    nodeAt (t.linkNodeRight p r) id
      = if id = p then (nodeAt t p).map (fun n => { n with right := r }) else nodeAt t id := by
  unfold BinaryTree.linkNodeRight
  simp only [nodeAt_setNode, getNode_eq]
  cases nodeAt t p <;> rfl

/-! ### Tree shapes and serialization -/

theorem Embeds.lo_lt {t : BinaryTree} {lo : Nat} {s : HTree} {id : Nat} (h : Embeds t lo s id) :
    lo < id := by
  cases s with
  | leaf v => exact h.1
  | node l r => exact h.1

theorem Embeds.valid {t : BinaryTree} {lo : Nat} {s : HTree} {id : Nat} (h : Embeds t lo s id) :
    ∃ n, nodeAt t id = some n := by
  cases s with
  | leaf v => exact ⟨_, h.2⟩
  | node l r => obtain ⟨_, n, hn, _⟩ := h; exact ⟨n, hn⟩

theorem Embeds.congr {t t' : BinaryTree} {lo : Nat} {s : HTree} {id : Nat}
    (hf : ∀ i, lo < i → i ≤ t.m_nodes.length → nodeAt t' i = nodeAt t i)
    (h : Embeds t lo s id) : Embeds t' lo s id := by
  induction s generalizing id with
  | leaf v =>
    refine ⟨h.1, ?_⟩
    rw [hf id h.1 (nodeAt_some_bound h.2).2]; exact h.2
  | node l r ihl ihr =>
    obtain ⟨hlo, n, hn, hl, hr⟩ := h
    refine ⟨hlo, n, ?_, ihl hl, ihr hr⟩
    rw [hf id hlo (nodeAt_some_bound hn).2]; exact hn

theorem Embeds.weaken {t : BinaryTree} {lo lo' : Nat} {s : HTree} {id : Nat}
    (hle : lo' ≤ lo) (h : Embeds t lo s id) : Embeds t lo' s id := by
  induction s generalizing id with
  | leaf v => exact ⟨Nat.lt_of_le_of_lt hle h.1, h.2⟩
  | node l r ihl ihr =>
    obtain ⟨hlo, n, hn, hl, hr⟩ := h
    exact ⟨Nat.lt_of_le_of_lt hle hlo, n, hn, ihl hl, ihr hr⟩

theorem isNodeLeaf_leaf {t : BinaryTree} {lo v id : Nat} (h : Embeds t lo (HTree.leaf v) id) :
    t.isNodeLeaf id = true := by
  rw [isNodeLeaf_eq, h.2]; rfl

theorem isNodeLeaf_node {t : BinaryTree} {lo id : Nat} {l r : HTree}
    (h : Embeds t lo (HTree.node l r) id) : t.isNodeLeaf id = false := by
  obtain ⟨_, n, hn, hl, _⟩ := h
  rw [isNodeLeaf_eq, hn]
  have : n.left ≠ 0 := by
    have := hl.lo_lt
    omega
  simp [this]

theorem isNode_of_embeds {t : BinaryTree} {lo id : Nat} {s : HTree} (h : Embeds t lo s id) :
    t.isNode id = true := by
  obtain ⟨n, hn⟩ := h.valid
  rw [isNode_eq, hn]; rfl

theorem serializeNode_spec (t : BinaryTree) (lo : Nat) (s : HTree) (id fuel : Nat)
    (bs : BitStream) (he : Embeds t lo s id) (hf : s.depth < fuel) (hc : Clean bs) :
    ∃ bs', serializeNode fuel t id bs = Outcome.ok bs' ∧ Clean bs'
      ∧ written bs' = written bs ++ s.ser ∧ bs'.m_bufferRead = bs.m_bufferRead := by
  induction s generalizing id fuel bs with
  | leaf v =>
    cases fuel with
    | zero => cases hf
    | succ fuel =>
      obtain ⟨s1, h1, hc1, hw1, hr1⟩ := writebit_spec bs true hc
      obtain ⟨s2, h2, hc2, hw2, hr2⟩ := write_spec 8 v 0 8 s1 hc1
      refine ⟨s2, ?_, hc2, ?_, by rw [hr2, hr1]⟩
      · simp only [serializeNode, isNode_of_embeds he, isNodeLeaf_leaf he, Bool.not_true,
          Bool.false_eq_true, if_false, if_true, h1, Outcome.bind_ok, getNodeValue_eq, he.2, h2]
      · rw [hw2, hw1, List.append_assoc]; rfl
  | node l r ihl ihr =>
    cases fuel with
    | zero => cases hf
    | succ fuel =>
      have hleaf := isNodeLeaf_node he
      have hnode := isNode_of_embeds he
      obtain ⟨_, n, hn, hl, hr⟩ := he
      simp only [HTree.depth] at hf
      obtain ⟨s1, h1, hc1, hw1, hr1⟩ := writebit_spec bs false hc
      obtain ⟨s2, h2, hc2, hw2, hr2⟩ := ihl n.left fuel s1 hl (by omega) hc1
      obtain ⟨s3, h3, hc3, hw3, hr3⟩ := ihr n.right fuel s2 hr (by omega) hc2
      refine ⟨s3, ?_, hc3, ?_, by rw [hr3, hr2, hr1]⟩
      · simp only [serializeNode, hnode, hleaf, Bool.not_true, Bool.false_eq_true, if_false,
          h1, Outcome.bind_ok, getChildNodeLeft_eq, getChildNodeRight_eq, hn, h2, h3]
      · rw [hw3, hw2, hw1]; simp [HTree.ser]

/-! ### Deserialization -/

theorem deserializeNode_spec (s : HTree) (t : BinaryTree) (node fuel : Nat) (bs : BitStream)
    (rest : List Bool) (hb : s.Bytes) (hf : s.depth < fuel) (hu : unread bs = s.ser ++ rest)
    (hsz : t.m_nodes.length + s.size < 2 ^ 32) :
    ∃ t', deserializeNode fuel t node bs
        = Outcome.ok (t.m_nodes.length + 1, t', advance bs s.ser.length)
      ∧ Embeds t' t.m_nodes.length s (t.m_nodes.length + 1)
      ∧ t'.m_nodes.length = t.m_nodes.length + s.size
      ∧ ∀ i, i ≤ t.m_nodes.length → nodeAt t' i = nodeAt t i := by
  induction s generalizing t fuel bs rest with
  | leaf v =>
    cases fuel with
    | zero => cases hf
    | succ fuel =>
      simp only [HTree.ser, List.cons_append] at hu
      obtain ⟨h1, h2⟩ := readbit_cons bs false true _ hu
      have h3 := read_byte v hb rest (advance bs 1) h2
      simp only [HTree.size] at hsz
      refine ⟨(t.allocNode v).1, ?_, ⟨Nat.lt_succ_self _, ?_⟩, ?_, ?_⟩
      · simp only [deserializeNode, h1, h3, Outcome.bind_ok, allocNode_id t v hsz, advance_advance,
          HTree.ser, List.length_cons, msbBits_length]
      · rw [nodeAt_allocNode, if_pos rfl]
      · rw [allocNode_length]; rfl
      · intro i hi
        rw [nodeAt_allocNode, if_neg (by omega)]
  | node l r ihl ihr =>
    cases fuel with
    | zero => cases hf
    | succ fuel =>
      simp only [HTree.depth] at hf
      simp only [HTree.size] at hsz
      simp only [HTree.ser, List.cons_append, List.append_assoc] at hu
      obtain ⟨h1, h2⟩ := readbit_cons bs false false _ hu
      obtain ⟨t2, hd2, he2, hl2, hfr2⟩ :=
        ihl (t.allocNode 0).1 fuel (advance bs 1) (r.ser ++ rest) hb.1 (by omega) h2
          (by rw [allocNode_length]; omega)
      have hu3 : unread (advance (advance bs 1) l.ser.length) = r.ser ++ rest := by
        rw [unread_advance, h2, List.drop_left]
      rw [allocNode_length] at hd2 he2 hl2 hfr2
      obtain ⟨t4, hd4, he4, hl4, hfr4⟩ :=
        ihr (t2.linkNodeLeft (t.m_nodes.length + 1) (t.m_nodes.length + 1 + 1))
          fuel (advance (advance bs 1) l.ser.length) rest hb.2 (by omega) hu3
          (by rw [linkNodeLeft_length, hl2]; omega)
      rw [linkNodeLeft_length] at hd4 he4 hl4 hfr4
      -- the parent node in the successive trees
      have hp2 : nodeAt t2 (t.m_nodes.length + 1) = some { value := 0 } := by
        rw [hfr2 _ (Nat.le_refl _), nodeAt_allocNode, if_pos rfl]
      have hp4 : nodeAt t4 (t.m_nodes.length + 1)
          = some (Node.mk 0 (t.m_nodes.length + 1 + 1) 0) := by
        rw [hfr4 _ (by omega), nodeAt_linkNodeLeft, if_pos rfl, hp2]; rfl
      have hl' : Embeds (t4.linkNodeRight (t.m_nodes.length + 1) (t2.m_nodes.length + 1))
          t.m_nodes.length l (t.m_nodes.length + 1 + 1) := by
        have e3 : Embeds (t2.linkNodeLeft (t.m_nodes.length + 1) (t.m_nodes.length + 1 + 1))
            (t.m_nodes.length + 1) l (t.m_nodes.length + 1 + 1) := by
          apply Embeds.congr _ he2
          intro i hi _
          rw [nodeAt_linkNodeLeft, if_neg (by omega)]
        have e4 : Embeds t4 (t.m_nodes.length + 1) l (t.m_nodes.length + 1 + 1) := by
          apply Embeds.congr _ e3
          intro i _ hi
          rw [linkNodeLeft_length] at hi
          exact hfr4 i hi
        apply Embeds.weaken (Nat.le_succ _)
        apply Embeds.congr _ e4
        intro i hi _
        rw [nodeAt_linkNodeRight, if_neg (by omega)]
      have hr' : Embeds (t4.linkNodeRight (t.m_nodes.length + 1) (t2.m_nodes.length + 1))
          t.m_nodes.length r (t2.m_nodes.length + 1) := by
        refine Embeds.weaken (show t.m_nodes.length ≤ t2.m_nodes.length by omega) ?_
        apply Embeds.congr _ he4
        intro i hi _
        rw [nodeAt_linkNodeRight, if_neg (by omega)]
      refine ⟨t4.linkNodeRight (t.m_nodes.length + 1) (t2.m_nodes.length + 1), ?_,
        ⟨Nat.lt_succ_self _, Node.mk 0 (t.m_nodes.length + 1 + 1) (t2.m_nodes.length + 1),
          ?_, hl', hr'⟩, ?_, ?_⟩
      · simp only [advance_advance] at hd4
        simp only [deserializeNode, h1, allocNode_id t 0 (by omega), allocNode_length, hd2,
          Outcome.bind_ok, hd4,
          advance_advance, HTree.ser, List.length_cons, List.length_append]
        have e : 1 + l.ser.length + r.ser.length = l.ser.length + r.ser.length + 1 := by omega
        rw [e]
      · rw [nodeAt_linkNodeRight, if_pos rfl, hp4]; rfl
      · rw [linkNodeRight_length, hl4, hl2]
        simp only [HTree.size]; omega
      · intro i hi
        rw [nodeAt_linkNodeRight, if_neg (by omega), hfr4 i (by omega), nodeAt_linkNodeLeft,
          if_neg (by omega), hfr2 i (by omega), nodeAt_allocNode, if_neg (by omega)]

/-! ### From written bits to readable bits -/

theorem calcByteCount_bounds (n : Nat) : n ≤ calcByteCount n * 8 ∧ calcByteCount n * 8 < n + 8 := by
  unfold calcByteCount
  split <;> omega

theorem bitAt_take (buf : List Nat) (k i : Nat) (h : i < k * 8) :
    bitAt (buf.take k) i = bitAt buf i := by
  rw [bitAt_eq_testBit, bitAt_eq_testBit]
  congr 1
  simp only [List.getD_eq_getElem?_getD]
  rw [List.getElem?_take_of_lt (by omega)]

theorem unread_of_written (s s' : BitStream) (hr : s'.m_bufferRead = 0)
    (hlen : s.m_bufferWrite ≤ s'.m_buffer.length * 8)
    (hbits : ∀ i, i < s.m_bufferWrite → bitAt s'.m_buffer i = bitAt s.m_buffer i) :
    ∃ pad, unread s' = written s ++ pad := by
  refine ⟨(List.range' s.m_bufferWrite (s'.m_buffer.length * 8 - s.m_bufferWrite)).map
    (bitAt s'.m_buffer), ?_⟩
  unfold unread written
  rw [hr, Nat.sub_zero]
  have hsplit : List.range' 0 (s'.m_buffer.length * 8)
      = List.range s.m_bufferWrite
        ++ List.range' s.m_bufferWrite (s'.m_buffer.length * 8 - s.m_bufferWrite) := by
    rw [List.range_eq_range']
    have := List.range'_append 0 s.m_bufferWrite (s'.m_buffer.length * 8 - s.m_bufferWrite) 1
    simp only [Nat.one_mul, Nat.zero_add] at this
    rw [this]
    congr 1
    omega
  rw [hsplit, List.map_append]
  congr 1
  apply List.map_congr_left
  intro i hi
  exact hbits i (List.mem_range.mp hi)

/-- The stream that `huffmanDecompress` builds from the bytes and the bit count that
`huffmanCompress` took from a written stream delivers the written bits first. -/
theorem unread_fromBytes (s : BitStream) (hc : Clean s) :
    ∃ pad, unread (BitStream.fromBytes s.getBitBuffer s.getBitCount) = written s ++ pad := by
  have hb := calcByteCount_bounds s.m_bufferWrite
  have hle : calcByteCount s.m_bufferWrite ≤ s.m_buffer.length := by
    have := hc.bound
    unfold calcByteCount at hb ⊢
    split <;> omega
  apply unread_of_written s _ rfl
  · simp only [BitStream.fromBytes, BitStream.getBitBuffer, BitStream.getByteCount,
      BitStream.getBitCount, hc.size, List.take_take, List.length_take, Nat.min_self]
    rw [Nat.min_eq_left hle]
    exact hb.1
  · intro i hi
    simp only [BitStream.fromBytes, BitStream.getBitBuffer, BitStream.getByteCount,
      BitStream.getBitCount, hc.size, List.take_take, Nat.min_self]
    exact bitAt_take _ _ _ (by omega)

theorem unread_self (s : BitStream) (hc : Clean s) (hr : s.m_bufferRead = 0) :
    ∃ pad, unread s = written s ++ pad :=
  unread_of_written s s hr hc.bound (fun _ _ => rfl)

/-! ### The pattern of a way -/

theorem findpattern_invalid (fuel : Nat) (t : BinaryTree) (c p d : Nat) :
    findpattern (fuel + 1) t 0 c p d = Outcome.ok (false, p, d) := by
  simp [findpattern, isNode_eq, nodeAt_zero]

theorem findpattern_spec (t : BinaryTree) (lo : Nat) (s : HTree) (id fuel c p d : Nat)
    (he : Embeds t lo s id) (hf : s.depth + 1 < fuel) (hd : d < 2 ^ 32) :
    findpattern fuel t id c p d =
      match s.path c with
      | some bits => Outcome.ok (true, packPattern bits p, (d + bits.length) % 2 ^ 32)
      | none => Outcome.ok (false, p, d) := by
  induction s generalizing id fuel with
  | leaf v =>
    obtain ⟨fuel, rfl⟩ : ∃ f, fuel = f + 1 + 1 := ⟨fuel - 2, by simp only [HTree.depth] at hf; omega⟩
    have hleaf := isNodeLeaf_leaf he
    have hnode := isNode_of_embeds he
    unfold findpattern
    simp only [hnode, hleaf, Bool.not_true, Bool.false_eq_true, if_false, getNodeValue_eq, he.2,
      getChildNodeLeft_eq, getChildNodeRight_eq, Bool.true_and, HTree.path, beq_iff_eq]
    by_cases hv : v = c
    · subst hv
      simp only [if_true, List.length_nil, Nat.add_zero, packPattern, Nat.mod_eq_of_lt hd]
    · simp only [hv, if_false, findpattern_invalid]
  | node l r ihl ihr =>
    obtain ⟨fuel, rfl⟩ : ∃ f, fuel = f + 1 := ⟨fuel - 1, by omega⟩
    have hleaf := isNodeLeaf_node he
    have hnode := isNode_of_embeds he
    obtain ⟨_, n, hn, hl, hr⟩ := he
    simp only [HTree.depth] at hf
    have h1 := ihl n.left fuel hl (by omega)
    have h2 := ihr n.right fuel hr (by omega)
    unfold findpattern
    simp only [hnode, hleaf, Bool.not_true, Bool.false_eq_true, if_false, Bool.false_and,
      getChildNodeLeft_eq, getChildNodeRight_eq, hn, h1, HTree.path]
    cases hpl : l.path c with
    | some bits =>
      simp only [packPattern, Bool.false_eq_true, if_false, List.length_cons]
      congr 3
      omega
    | none =>
      simp only [h2]
      cases hpr : r.path c with
      | some bits =>
        simp only [packPattern, if_true, List.length_cons]
        congr 3
        omega
      | none => rfl

theorem msbTest_eq (data j : Nat) (hj : j < 32) :
    ((data &&& ((1 <<< (32 - (j + 1))) % 2 ^ 32)) != 0) = data.testBit (31 - j) := by
  have h1 : 32 - (j + 1) = 31 - j := by omega
  rw [h1, Nat.one_shiftLeft, Nat.mod_eq_of_lt (Nat.pow_lt_pow_right (by decide) (by omega)),
    ← Nat.one_shiftLeft, and_two_pow_ne_zero]

theorem msbBits_congr (data data' : Nat) (n j j' : Nat)
    (h : ∀ i, i < n →
      ((data &&& ((1 <<< (32 - (j + i + 1))) % 2 ^ 32)) != 0)
        = ((data' &&& ((1 <<< (32 - (j' + i + 1))) % 2 ^ 32)) != 0)) :
    msbBits 32 data n j = msbBits 32 data' n j' := by
  induction n generalizing j j' with
  | zero => rfl
  | succ n ih =>
    simp only [msbBits]
    congr 1
    · exact h 0 (Nat.succ_pos _)
    · apply ih
      intro i hi
      have := h (i + 1) (by omega)
      simpa [Nat.add_assoc, Nat.add_comm 1 i] using this

theorem packPattern_cons (b : Bool) (bs : List Bool) (p : Nat) :
    packPattern (b :: bs) p
      = if b then (packPattern bs p >>> 1) ||| (1 <<< 31) else packPattern bs p >>> 1 := rfl

theorem packPattern_lt (bits : List Bool) (p : Nat) (hp : p < 2 ^ 32) :
    packPattern bits p < 2 ^ 32 := by
  induction bits with
  | nil => exact hp
  | cons b bs ih =>
    have hs : packPattern bs p >>> 1 < 2 ^ 32 := by
      rw [Nat.shiftRight_eq_div_pow]
      exact Nat.lt_of_le_of_lt (Nat.div_le_self _ _) ih
    rw [packPattern_cons]
    split
    · exact Nat.or_lt_two_pow hs (by decide)
    · exact hs

theorem msbBits_packPattern (bits : List Bool) (p : Nat) (hp : p < 2 ^ 32)
    (hlen : bits.length ≤ 32) : msbBits 32 (packPattern bits p) bits.length 0 = bits := by
  induction bits with
  | nil => rfl
  | cons b bs ih =>
    simp only [List.length_cons] at hlen ⊢
    have hlt := packPattern_lt bs p hp
    simp only [msbBits]
    congr 1
    · rw [msbTest_eq _ 0 (by decide), packPattern_cons]
      cases b
      · simp only [Bool.false_eq_true, if_false, Nat.testBit_shiftRight]
        exact Nat.testBit_lt_two_pow hlt
      · simp only [if_true, Nat.testBit_or, Nat.testBit_shiftRight, Nat.one_shiftLeft]
        rw [Nat.testBit_two_pow_self, Bool.or_true]
    · refine Eq.trans ?_ (ih (by omega))
      apply msbBits_congr
      intro i hi
      rw [msbTest_eq _ (0 + 1 + i) (by omega), msbTest_eq _ (0 + i) (by omega)]
      have e : 31 - (0 + i) = 1 + (31 - (0 + 1 + i)) := by omega
      rw [packPattern_cons]
      cases b
      · simp only [Bool.false_eq_true, if_false, Nat.testBit_shiftRight, e]
      · simp only [if_true, Nat.testBit_or, Nat.testBit_shiftRight, Nat.one_shiftLeft, e]
        rw [Nat.testBit_two_pow_of_ne (by omega)]
        simp

/-- The bits `write(pattern, 0, depth)` appends for the pattern and depth that
`findpattern` returns on a way of at most 32 steps: the way itself. -/
theorem writeBits_packPattern (bits : List Bool) (hlen : bits.length ≤ 32) :
    writeBits 32 (packPattern bits 0) 0 ((0 + bits.length) % 2 ^ 32) = bits := by
  have h1 : (0 + bits.length) % 2 ^ 32 = bits.length := by
    rw [Nat.zero_add]; exact Nat.mod_eq_of_lt (by omega)
  unfold writeBits
  rw [h1]
  simp only [ge_iff_le, Nat.le_zero_eq, OfNat.ofNat_ne_zero, if_false, Nat.sub_zero, gt_iff_lt]
  rw [if_neg (by omega)]
  exact msbBits_packPattern bits 0 (by decide) hlen

/-! ### The frequency table -/

theorem tableOf_init : TableOf (fun _ => 0) (List.replicate tableSize {}) := by
  refine ⟨by simp, ?_⟩
  intro i hi
  simp [List.getD_eq_getElem?_getD, List.getElem?_replicate, hi]

theorem charIndex_small (b : Nat) (h : b < 128) : charIndex b = b := by
  simp [charIndex, h]

theorem fillTable_spec (text : List Nat) (cnt : Nat → Nat) (table : List SCharacter)
    (ht : TableOf cnt table) (hb : ∀ b ∈ text, b < 128) :
    ∃ table', fillTable text table = Outcome.ok table'
      ∧ TableOf (fun i => cnt i + text.count i) table' := by
  induction text generalizing cnt table with
  | nil => exact ⟨table, rfl, by simpa using ht⟩
  | cons b rest ih =>
    have hb128 : b < 128 := hb b (List.mem_cons_self _ _)
    have hidx : charIndex b < table.length := by
      rw [charIndex_small b hb128, ht.1]; unfold tableSize; omega
    have hstep : TableOf (fun i => cnt i + (if i = b then 1 else 0))
        (table.set (charIndex b)
          { table.getD (charIndex b) {} with
            charCode := b % 256
            frequency := ((table.getD (charIndex b) {}).frequency + 1) % 2 ^ 32 }) := by
      refine ⟨by simpa using ht.1, ?_⟩
      intro i hi
      rw [charIndex_small b hb128]
      by_cases hib : i = b
      · subst hib
        rw [List.getD_eq_getElem?_getD, List.getElem?_set_self (by rw [ht.1]; exact hi)]
        simp only [Option.getD_some, if_true]
        rw [ht.2 i hi]
        simp only [SCharacter.mk.injEq, and_true]
        refine ⟨by omega, ?_⟩
        rw [if_neg (by omega)]
        omega
      · rw [List.getD_eq_getElem?_getD, List.getElem?_set_ne (Ne.symm hib),
          ← List.getD_eq_getElem?_getD, ht.2 i hi]
        simp [hib]
    obtain ⟨table', h1, h2⟩ := ih _ _ hstep (fun x hx => hb x (List.mem_cons_of_mem _ hx))
    refine ⟨table', ?_, ?_⟩
    · simp only [fillTable, hidx, if_true]
      exact h1
    · have e : (fun i => cnt i + (if i = b then 1 else 0) + rest.count i)
          = (fun i => cnt i + (b :: rest).count i) := by
        funext i
        rw [List.count_cons]
        by_cases hib : i = b
        · subst hib; simp; omega
        · have : (b == i) = false := by simpa using Ne.symm hib
          simp [hib, this]
      rw [← e]; exact h2

/-! ### The forest behind the queue -/

theorem HuffRun.perm {g h : List (Nat × HTree)} {s : HTree} (hp : g.Perm h)
    (hr : HuffRun g s) : HuffRun h s := by
  cases hr with
  | done f s =>
    rw [List.perm_comm, List.perm_singleton] at hp
    rw [hp]
    exact HuffRun.done f s
  | step _ g' _ hs hr' =>
    obtain ⟨a, b, rest, h1, h2, h3, h4⟩ := hs
    exact HuffRun.step h g' s ⟨a, b, rest, hp.symm.trans h1, h2, h3, h4⟩ hr'

theorem freqForest_cons (p : SCharacter × HTree) (g : List (SCharacter × HTree)) :
    freqForest (p :: g) = (p.1.frequency, p.2) :: freqForest g := rfl

theorem freqForest_perm {g g' : List (SCharacter × HTree)} (h : g.Perm g') :
    (freqForest g).Perm (freqForest g') :=
  h.map _

theorem idsUnder_length (t : BinaryTree) (s : HTree) (id : Nat) :
    (idsUnder t s id).length = s.size := by
  induction s generalizing id with
  | leaf v => rfl
  | node l r ihl ihr =>
    simp only [idsUnder, List.length_cons, List.length_append, ihl, ihr, HTree.size]

theorem idsUnder_congr {t t' : BinaryTree} {lo : Nat} {s : HTree} {id : Nat}
    (hf : ∀ i, lo < i → i ≤ t.m_nodes.length → nodeAt t' i = nodeAt t i)
    (h : Embeds t lo s id) : idsUnder t' s id = idsUnder t s id := by
  induction s generalizing id with
  | leaf v => rfl
  | node l r ihl ihr =>
    obtain ⟨hlo, n, hn, hl, hr⟩ := h
    have hn' : nodeAt t' id = some n := by rw [hf id hlo (nodeAt_some_bound hn).2, hn]
    simp only [idsUnder, getChildNodeLeft_eq, getChildNodeRight_eq, hn, hn']
    rw [ihl hl, ihr hr]

theorem idsOf_cons (t : BinaryTree) (p : SCharacter × HTree) (g : List (SCharacter × HTree)) :
    idsOf t (p :: g) = idsUnder t p.2 p.1.treeNode ++ idsOf t g := by
  simp [idsOf]

theorem idsOf_perm (t : BinaryTree) {g g' : List (SCharacter × HTree)} (h : g.Perm g') :
    (idsOf t g).Perm (idsOf t g') :=
  List.Perm.flatMap_right _ h

theorem idsOf_congr {t t' : BinaryTree} {g : List (SCharacter × HTree)}
    (hf : ∀ i, 0 < i → i ≤ t.m_nodes.length → nodeAt t' i = nodeAt t i)
    (h : ∀ p, p ∈ g → Embeds t 0 p.2 p.1.treeNode) : idsOf t' g = idsOf t g := by
  induction g with
  | nil => rfl
  | cons p g ih =>
    rw [idsOf_cons, idsOf_cons, idsUnder_congr hf (h p (List.mem_cons_self _ _)),
      ih (fun q hq => h q (List.mem_cons_of_mem _ hq))]

theorem Forest.length_eq {t : BinaryTree} {es : List SCharacter} {g : List (SCharacter × HTree)}
    (h : Forest t es g) : g.length = es.length := by
  rw [← h.perm.length_eq, List.length_map]

theorem Embeds.le_length {t : BinaryTree} {lo : Nat} {s : HTree} {id : Nat}
    (h : Embeds t lo s id) : id ≤ t.m_nodes.length := by
  obtain ⟨n, hn⟩ := h.valid
  exact (nodeAt_some_bound hn).2

/-- Removing the top entry of the queue removes its tree from the forest. -/
theorem forest_pop (pq : PQueue) (t : BinaryTree) (q : pq.σ) (g : List (SCharacter × HTree))
    (h : Forest t (pq.elems q) g) (hne : pq.elems q ≠ []) :
    ∃ s g', g.Perm ((pq.top q, s) :: g') ∧ Forest t (pq.elems (pq.pop q)) g' := by
  have hpop := pq.pop_perm q hne
  have htop : pq.top q ∈ g.map Prod.fst :=
    h.perm.symm.subset (hpop.subset (List.mem_cons_self _ _))
  obtain ⟨⟨e, s⟩, hmem, he⟩ := List.mem_map.mp htop
  simp only at he
  subst he
  obtain ⟨g', hg⟩ : ∃ g', g.Perm ((pq.top q, s) :: g') := ⟨_, List.perm_cons_erase hmem⟩
  have hsub : ∀ p, p ∈ g' → p ∈ g := fun p hp => hg.symm.subset (List.mem_cons_of_mem _ hp)
  refine ⟨s, g', hg, ?_, ?_, ?_, ?_⟩
  · have h1 : (pq.top q :: g'.map Prod.fst).Perm (pq.top q :: pq.elems (pq.pop q)) :=
      ((hg.map Prod.fst).symm.trans h.perm).trans hpop.symm
    exact h1.cons_inv
  · intro p hp; exact h.embeds p (hsub p hp)
  · intro p hp; exact h.depth p (hsub p hp)
  · intro p hp; exact h.bytes p (hsub p hp)

theorem nodeAt_newParent (t : BinaryTree) (left right i : Nat) :
    nodeAt (((t.allocNode 0).1.linkNodeLeft (t.m_nodes.length + 1) left).linkNodeRight
        (t.m_nodes.length + 1) right) i
      = if i = t.m_nodes.length + 1 then some (Node.mk 0 left right) else nodeAt t i := by
  by_cases h : i = t.m_nodes.length + 1
  · subst h
    simp only [nodeAt_linkNodeRight, nodeAt_linkNodeLeft, if_true, nodeAt_allocNode,
      Option.map_some']
  · simp only [nodeAt_linkNodeRight, nodeAt_linkNodeLeft, h, if_false, nodeAt_allocNode]

theorem leavesOf_cons (p : SCharacter × HTree) (g : List (SCharacter × HTree)) :
    leavesOf (p :: g) = p.2.leaves ++ leavesOf g := by
  simp [leavesOf]

theorem leavesOf_perm {g g' : List (SCharacter × HTree)} (h : g.Perm g') :
    (leavesOf g).Perm (leavesOf g') :=
  List.Perm.flatMap_right _ h

/-- One pass of the merge loop joins two trees of the forest under a new root. -/
theorem mergeStep_spec (pq : PQueue) (t : BinaryTree) (q : pq.σ)
    (g : List (SCharacter × HTree)) (h : Forest t (pq.elems q) g) (h2 : 2 ≤ pq.size q)
    (hsz : t.m_nodes.length + 1 < 2 ^ 32) :
    ∃ e sl sr g2,
      Forest (mergeStep pq t q).1 (pq.elems (mergeStep pq t q).2.1)
        ((e, HTree.node sl sr) :: g2)
      ∧ e.treeNode = (mergeStep pq t q).2.2
      ∧ (leavesOf ((e, HTree.node sl sr) :: g2)).Perm (leavesOf g)
      ∧ g.length = g2.length + 2
      ∧ (mergeStep pq t q).1.m_nodes.length = t.m_nodes.length + 1
      ∧ (idsOf (mergeStep pq t q).1 ((e, HTree.node sl sr) :: g2)).Perm
          ((t.m_nodes.length + 1) :: idsOf t g)
      ∧ HuffStep (freqForest g) (freqForest ((e, HTree.node sl sr) :: g2)) := by
  have hne : pq.elems q ≠ [] := by
    intro h0
    rw [pq.size_eq, h0] at h2
    cases h2
  obtain ⟨s0, g1, hg1, hF1⟩ := forest_pop pq t q g h hne
  have hlen := h.length_eq
  have hlen1 := hF1.length_eq
  have hgl : g.length = g1.length + 1 := by rw [hg1.length_eq]; rfl
  have hne1 : pq.elems (pq.pop q) ≠ [] := by
    intro h0
    rw [h0] at hlen1
    rw [pq.size_eq] at h2
    simp only [List.length_nil] at hlen1
    omega
  obtain ⟨s1, g2, hg2, hF2⟩ := forest_pop pq t (pq.pop q) g1 hF1 hne1
  have hm0 : (pq.top q, s0) ∈ g := hg1.symm.subset (List.mem_cons_self _ _)
  have hm1 : (pq.top (pq.pop q), s1) ∈ g :=
    hg1.symm.subset (List.mem_cons_of_mem _ (hg2.symm.subset (List.mem_cons_self _ _)))
  have he0 := h.embeds _ hm0
  have he1 := h.embeds _ hm1
  have hd0 := h.depth _ hm0
  have hd1 := h.depth _ hm1
  have hb0 := h.bytes _ hm0
  have hb1 := h.bytes _ hm1
  simp only at he0 he1 hd0 hd1 hb0 hb1
  have hperm : g.Perm ((pq.top q, s0) :: (pq.top (pq.pop q), s1) :: g2) :=
    hg1.trans (List.Perm.cons _ hg2)
  -- the general shape of the step, for either assignment of the two sides
  have key : ∀ (el er : SCharacter) (sl sr : HTree),
      Embeds t 0 sl el.treeNode → Embeds t 0 sr er.treeNode →
      sl.depth < el.treeNode → sr.depth < er.treeNode → sl.Bytes → sr.Bytes →
      (sl.leaves ++ sr.leaves).Perm (s0.leaves ++ s1.leaves) →
      (idsUnder t sl el.treeNode ++ idsUnder t sr er.treeNode).Perm
        (idsUnder t s0 (pq.top q).treeNode ++ idsUnder t s1 (pq.top (pq.pop q)).treeNode) →
      ∀ f : Nat,
      Forest (((t.allocNode 0).1.linkNodeLeft (t.m_nodes.length + 1) el.treeNode).linkNodeRight
          (t.m_nodes.length + 1) er.treeNode)
        (pq.elems (pq.push (pq.pop (pq.pop q))
          { frequency := f, charCode := 0, treeNode := t.m_nodes.length + 1 }))
        (({ frequency := f, charCode := 0, treeNode := t.m_nodes.length + 1 },
          HTree.node sl sr) :: g2)
      ∧ (leavesOf (({ frequency := f, charCode := 0, treeNode := t.m_nodes.length + 1 },
          HTree.node sl sr) :: g2)).Perm (leavesOf g)
      ∧ (idsOf (((t.allocNode 0).1.linkNodeLeft (t.m_nodes.length + 1)
            el.treeNode).linkNodeRight (t.m_nodes.length + 1) er.treeNode)
          (({ frequency := f, charCode := 0, treeNode := t.m_nodes.length + 1 },
            HTree.node sl sr) :: g2)).Perm ((t.m_nodes.length + 1) :: idsOf t g) := by
    intro el er sl sr hel her hdl hdr hbl hbr hlv hids f
    have hframe : ∀ i, 0 < i → i ≤ t.m_nodes.length →
        nodeAt (((t.allocNode 0).1.linkNodeLeft (t.m_nodes.length + 1) el.treeNode).linkNodeRight
          (t.m_nodes.length + 1) er.treeNode) i = nodeAt t i := by
      intro i _ hi
      rw [nodeAt_newParent, if_neg (by omega)]
    refine ⟨⟨?_, ?_, ?_, ?_⟩, ?_, ?_⟩
    · exact ((pq.push_perm _ _).trans (List.Perm.cons _ hF2.perm.symm)).symm
    · intro p hp
      rcases List.mem_cons.mp hp with rfl | hp
      · refine ⟨Nat.succ_pos _, Node.mk 0 el.treeNode er.treeNode, ?_, hel.congr hframe,
          her.congr hframe⟩
        rw [nodeAt_newParent, if_pos rfl]
      · exact (hF2.embeds p hp).congr hframe
    · intro p hp
      rcases List.mem_cons.mp hp with rfl | hp
      · have := hel.le_length
        have := her.le_length
        simp only [HTree.depth]
        omega
      · exact hF2.depth p hp
    · intro p hp
      rcases List.mem_cons.mp hp with rfl | hp
      · exact ⟨hbl, hbr⟩
      · exact hF2.bytes p hp
    · refine List.Perm.trans ?_ (leavesOf_perm hperm).symm
      simp only [leavesOf_cons, HTree.leaves, ← List.append_assoc]
      exact List.Perm.append_right _ hlv
    · refine List.Perm.trans ?_ (List.Perm.cons _ (idsOf_perm t hperm).symm)
      have hnew : nodeAt (((t.allocNode 0).1.linkNodeLeft (t.m_nodes.length + 1)
          el.treeNode).linkNodeRight (t.m_nodes.length + 1) er.treeNode) (t.m_nodes.length + 1)
          = some (Node.mk 0 el.treeNode er.treeNode) := by
        rw [nodeAt_newParent, if_pos rfl]
      rw [idsOf_cons, idsOf_congr hframe hF2.embeds]
      simp only [idsUnder, getChildNodeLeft_eq, getChildNodeRight_eq, hnew, idsOf_cons]
      rw [idsUnder_congr hframe hel, idsUnder_congr hframe her]
      simp only [List.cons_append, ← List.append_assoc]
      exact List.Perm.cons _ (List.Perm.append_right _ hids)
  have hlen3 : ∀ l r : Nat, (((t.allocNode 0).1.linkNodeLeft (t.m_nodes.length + 1)
      l).linkNodeRight (t.m_nodes.length + 1) r).m_nodes.length = t.m_nodes.length + 1 := by
    intro l r
    rw [linkNodeRight_length, linkNodeLeft_length, allocNode_length]
  -- the two entries taken out are of least frequency
  have hmin0 : ∀ x, x ∈ g → (pq.top q).frequency ≤ x.1.frequency := by
    intro x hx
    exact pq.top_min q x.1 (h.perm.subset (List.mem_map_of_mem _ hx))
  have hmin1 : ∀ x, x ∈ g1 → (pq.top (pq.pop q)).frequency ≤ x.1.frequency := by
    intro x hx
    exact pq.top_min (pq.pop q) x.1 (hF1.perm.subset (List.mem_map_of_mem _ hx))
  have hle01 : (pq.top q).frequency ≤ (pq.top (pq.pop q)).frequency := hmin0 _ hm1
  have hstep : ∀ e : SCharacter,
      e.frequency = ((pq.top (pq.pop q)).frequency + (pq.top q).frequency) % 2 ^ 32 →
      HuffStep (freqForest g) (freqForest ((e, HTree.node s0 s1) :: g2)) := by
    intro e hef
    refine ⟨((pq.top q).frequency, s0), ((pq.top (pq.pop q)).frequency, s1), freqForest g2,
      freqForest_perm hperm, ?_, ?_, ?_⟩
    · intro x hx
      rcases List.mem_cons.mp hx with rfl | hx
      · exact hle01
      · obtain ⟨p, hp, rfl⟩ := List.mem_map.mp hx
        exact hmin0 p (hperm.symm.subset
          (List.mem_cons_of_mem _ (List.mem_cons_of_mem _ hp)))
    · intro x hx
      obtain ⟨p, hp, rfl⟩ := List.mem_map.mp hx
      exact hmin1 p (hg2.symm.subset (List.mem_cons_of_mem _ hp))
    · rw [freqForest_cons, hef, Nat.add_comm]
  unfold mergeStep
  simp only [allocNode_id t 0 hsz]
  by_cases hgt : (pq.top q).frequency > (pq.top (pq.pop q)).frequency
  · exact absurd hgt (Nat.not_lt.mpr hle01)
  · simp only [hgt, if_false]
    obtain ⟨hF, hl, hi⟩ := key (pq.top q) (pq.top (pq.pop q)) s0 s1 he0 he1 hd0 hd1 hb0 hb1
      (List.Perm.refl _) (List.Perm.refl _)
      (((pq.top (pq.pop q)).frequency + (pq.top q).frequency) % 2 ^ 32)
    exact ⟨_, s0, s1, g2, hF, rfl, hl, by rw [hgl, hg2.length_eq]; rfl, hlen3 _ _, hi,
      hstep _ rfl⟩

/-! ### Merge loop and queue fill -/

theorem mergeLoop_done (pq : PQueue) (fuel : Nat) (t : BinaryTree) (q : pq.σ) (r : Nat)
    (h : pq.size q ≤ 1) : mergeLoop pq fuel t q r = Outcome.ok (t, q, r) := by
  cases fuel <;> simp only [mergeLoop, if_neg (Nat.not_lt.mpr h)]

/-- The merge loop leaves one tree that holds the leaves of the whole forest, and returns
its node as the root. -/
theorem mergeLoop_spec (pq : PQueue) (fuel : Nat) (t : BinaryTree) (q : pq.σ) (r : Nat)
    (g : List (SCharacter × HTree)) (h : Forest t (pq.elems q) g) (h2 : 2 ≤ g.length)
    (hfuel : g.length ≤ fuel + 1) (hsz : t.m_nodes.length + g.length ≤ 2 ^ 32) :
    ∃ t' q' root e sl sr, mergeLoop pq fuel t q r = Outcome.ok (t', q', root)
      ∧ Forest t' (pq.elems q') [(e, HTree.node sl sr)]
      ∧ e.treeNode = root
      ∧ (HTree.node sl sr).leaves.Perm (leavesOf g)
      ∧ t'.m_nodes.length + 1 = t.m_nodes.length + g.length
      ∧ (idsUnder t' (HTree.node sl sr) root).Perm
          (List.range' (t.m_nodes.length + 1) (g.length - 1) ++ idsOf t g)
      ∧ HuffRun (freqForest g) (HTree.node sl sr) := by
  induction fuel generalizing t q r g with
  | zero => omega
  | succ fuel ih =>
    have hsize : pq.size q = g.length := by rw [pq.size_eq, h.length_eq]
    obtain ⟨e, sl, sr, g2, hF, he, hl, hlen, hn1, hids, hhuff⟩ :=
      mergeStep_spec pq t q g h (by omega) (by omega)
    have hstep : mergeLoop pq (fuel + 1) t q r
        = mergeLoop pq fuel (mergeStep pq t q).1 (mergeStep pq t q).2.1 (mergeStep pq t q).2.2 := by
      simp only [mergeLoop, if_pos (show pq.size q > 1 by omega)]
    rw [hstep]
    by_cases hg2 : g2 = []
    · subst hg2
      have hs : pq.size (mergeStep pq t q).2.1 ≤ 1 := by
        rw [pq.size_eq, ← hF.length_eq]; simp
      rw [mergeLoop_done pq fuel _ _ _ hs]
      refine ⟨_, _, _, e, sl, sr, rfl, hF, he, ?_, ?_, ?_,
        HuffRun.step _ _ _ hhuff (HuffRun.done e.frequency (HTree.node sl sr))⟩
      · simpa [leavesOf] using hl
      · rw [hn1, hlen]; rfl
      · rw [hlen]
        have e0 : idsOf (mergeStep pq t q).1 [] = [] := rfl
        rw [idsOf_cons, e0, List.append_nil] at hids
        simp only at hids
        rw [he] at hids
        simpa [List.range'] using hids
    · have hpos : 0 < g2.length := List.length_pos.mpr hg2
      obtain ⟨t', q', root, e', sl', sr', h1, hF', he', hl', hn', hids', hrun'⟩ :=
        ih _ _ (mergeStep pq t q).2.2 _ hF (by simp only [List.length_cons]; omega)
          (by simp only [List.length_cons]; omega)
          (by rw [hn1]; simp only [List.length_cons]; omega)
      refine ⟨t', q', root, e', sl', sr', h1, hF', he', hl'.trans hl, ?_, ?_,
        HuffRun.step _ _ _ hhuff hrun'⟩
      · rw [hn', hn1, hlen]; simp only [List.length_cons]; omega
      · refine hids'.trans ?_
        rw [hn1, hlen]
        simp only [List.length_cons, Nat.add_sub_cancel]
        have e1 : g2.length + 2 - 1 = g2.length + 1 := by omega
        rw [e1, List.range'_succ]
        refine (List.Perm.append_left _ hids).trans ?_
        simp only [List.cons_append]
        exact List.perm_middle

theorem symbolsOf_length_le (table : List SCharacter) : (symbolsOf table).length ≤ table.length := by
  simp only [symbolsOf, List.length_map]
  exact List.length_filter_le _ _

theorem fillQueue_spec (pq : PQueue) (es : List SCharacter) (t : BinaryTree) (q : pq.σ)
    (g : List (SCharacter × HTree)) (h : Forest t (pq.elems q) g)
    (hb : ∀ e, e ∈ es → e.charCode < 256) (hsz : t.m_nodes.length + es.length < 2 ^ 32) :
    ∃ g', Forest (fillQueue pq es t q).1 (pq.elems (fillQueue pq es t q).2) g'
      ∧ (leavesOf g').Perm (leavesOf g ++ symbolsOf es)
      ∧ g'.length = g.length + (symbolsOf es).length
      ∧ (fillQueue pq es t q).1.m_nodes.length = t.m_nodes.length + (symbolsOf es).length
      ∧ (idsOf (fillQueue pq es t q).1 g').Perm
          (idsOf t g ++ List.range' (t.m_nodes.length + 1) (symbolsOf es).length)
      ∧ (freqForest g').Perm (freqForest g ++ leafForest es) := by
  induction es generalizing t q g with
  | nil => exact ⟨g, h, by simp [symbolsOf], by simp [symbolsOf], by simp [symbolsOf, fillQueue],
      by simp [symbolsOf, fillQueue], by simp [leafForest]⟩
  | cons e rest ih =>
    have hb' : ∀ x, x ∈ rest → x.charCode < 256 := fun x hx => hb x (List.mem_cons_of_mem _ hx)
    simp only [List.length_cons] at hsz
    have hid : (t.allocNode e.charCode).2 = t.m_nodes.length + 1 :=
      allocNode_id t e.charCode (by omega)
    by_cases hpass : e.frequency ≠ 0 ∧ e.charCode > 0
    · have hframe : ∀ i, 0 < i → i ≤ t.m_nodes.length →
          nodeAt (t.allocNode e.charCode).1 i = nodeAt t i := by
        intro i _ hi
        rw [nodeAt_allocNode, if_neg (by omega)]
      have hF : Forest (t.allocNode e.charCode).1
          (pq.elems (pq.push q
            { frequency := e.frequency, charCode := e.charCode,
              treeNode := (t.allocNode e.charCode).2 }))
          (({ frequency := e.frequency, charCode := e.charCode,
              treeNode := (t.allocNode e.charCode).2 }, HTree.leaf e.charCode) :: g) := by
        refine ⟨?_, ?_, ?_, ?_⟩
        · exact ((pq.push_perm _ _).trans (List.Perm.cons _ h.perm.symm)).symm
        · intro p hp
          rcases List.mem_cons.mp hp with rfl | hp
          · refine ⟨by rw [hid]; exact Nat.succ_pos _, ?_⟩
            rw [hid, nodeAt_allocNode, if_pos rfl]
          · exact (h.embeds p hp).congr hframe
        · intro p hp
          rcases List.mem_cons.mp hp with rfl | hp
          · rw [hid]; exact Nat.succ_pos _
          · exact h.depth p hp
        · intro p hp
          rcases List.mem_cons.mp hp with rfl | hp
          · exact hb e (List.mem_cons_self _ _)
          · exact h.bytes p hp
      obtain ⟨g', hF', hl', hlen', hn', hids', hfr'⟩ :=
        ih _ _ _ hF hb' (by rw [allocNode_length]; omega)
      have hsym : (symbolsOf (e :: rest)).length = (symbolsOf rest).length + 1 := by
        simp only [symbolsOf, List.filter_cons, hpass, decide_True, if_true, List.map_cons,
          ne_eq, not_false_eq_true, and_self, gt_iff_lt, List.length_cons]
      refine ⟨g', ?_, ?_, ?_, ?_, ?_, ?_⟩
      · simp only [fillQueue, if_pos hpass]; exact hF'
      · refine hl'.trans ?_
        simp only [leavesOf_cons, HTree.leaves, symbolsOf, List.filter_cons, hpass,
          decide_True, if_true, List.map_cons, ne_eq, not_false_eq_true, and_self, gt_iff_lt]
        simp only [List.singleton_append, List.cons_append]
        exact (List.perm_middle).symm
      · rw [hlen']
        simp only [List.length_cons, symbolsOf, List.filter_cons, hpass, decide_True, if_true,
          List.map_cons, ne_eq, not_false_eq_true, and_self, gt_iff_lt]
        omega
      · simp only [fillQueue, if_pos hpass]
        rw [hn', allocNode_length, hsym]; omega
      · simp only [fillQueue, if_pos hpass]
        refine hids'.trans ?_
        rw [allocNode_length, hsym, List.range'_succ, idsOf_cons, idsOf_congr hframe h.embeds]
        simp only [idsUnder, hid, List.singleton_append, List.cons_append]
        exact List.perm_middle.symm
      · refine hfr'.trans ?_
        simp only [freqForest_cons, leafForest, List.filter_cons, hpass, decide_True, if_true,
          List.map_cons, ne_eq, not_false_eq_true, and_self, gt_iff_lt, List.cons_append]
        exact List.perm_middle.symm
    · obtain ⟨g', hF', hl', hlen', hn', hids', hfr'⟩ := ih t q g h hb' (by omega)
      have hsym : symbolsOf (e :: rest) = symbolsOf rest := by
        simp only [symbolsOf, List.filter_cons, hpass, decide_False, Bool.false_eq_true,
          if_false]
      refine ⟨g', ?_, ?_, ?_, ?_, ?_, ?_⟩
      · simp only [fillQueue, if_neg hpass]; exact hF'
      · simpa only [symbolsOf, List.filter_cons, hpass, decide_False, Bool.false_eq_true,
          if_false] using hl'
      · simpa only [symbolsOf, List.filter_cons, hpass, decide_False, Bool.false_eq_true,
          if_false] using hlen'
      · simp only [fillQueue, if_neg hpass]
        rw [hn', hsym]
      · simp only [fillQueue, if_neg hpass]
        rw [hsym]; exact hids'
      · simpa only [leafForest, List.filter_cons, hpass, decide_False, Bool.false_eq_true,
          if_false] using hfr'

/-! ### The tree of a text and the encode loop -/

theorem forest_empty (pq : PQueue) : Forest {} (pq.elems pq.empty) [] := by
  refine ⟨?_, ?_, ?_, ?_⟩
  · rw [pq.elems_empty]; exact List.Perm.refl _
  all_goals intro p hp; cases hp

theorem tableOf_charCode_lt {cnt : Nat → Nat} {table : List SCharacter} (h : TableOf cnt table)
    (e : SCharacter) (he : e ∈ table) : e.charCode < 256 := by
  obtain ⟨i, hi, rfl⟩ := List.getElem_of_mem he
  have hi' : i < tableSize := by rw [← h.1]; exact hi
  have := h.2 i hi'
  rw [List.getD_eq_getElem _ _ hi] at this
  rw [this]
  simp only
  unfold tableSize at hi'
  split <;> omega

/-- The tree part of `huffmanCompress` on a text of bytes below 128: with fewer than two
symbols in the table the root stays `0`; otherwise the root is an inner node of a tree
whose leaves are the symbols of the table. -/
theorem buildTree_spec (pq : PQueue) (text : List Nat) (hb : ∀ b ∈ text, b < 128) :
    ∃ table t root, fillTable text (List.replicate tableSize {}) = Outcome.ok table
      ∧ TableOf (fun i => text.count i) table
      ∧ buildTree pq text = Outcome.ok (t, root)
      ∧ (((symbolsOf table).length ≤ 1 ∧ root = 0)
        ∨ (2 ≤ (symbolsOf table).length ∧ ∃ sl sr, Embeds t 0 (HTree.node sl sr) root
            ∧ (HTree.node sl sr).depth < root
            ∧ (HTree.node sl sr).Bytes
            ∧ (HTree.node sl sr).leaves.Perm (symbolsOf table)
            ∧ (idsUnder t (HTree.node sl sr) root).Perm (List.range' 1 t.m_nodes.length)
            ∧ HuffRun (leafForest table) (HTree.node sl sr))) := by
  obtain ⟨table, h1, h2⟩ := fillTable_spec text (fun _ => 0) _ tableOf_init hb
  simp only [Nat.zero_add] at h2
  have hk255 : (symbolsOf table).length ≤ 255 := by
    have := symbolsOf_length_le table
    rw [h2.1] at this
    exact this
  obtain ⟨g, hF, hl, hlen, hn, hids, hfr⟩ :=
    fillQueue_spec pq table {} pq.empty [] (forest_empty pq) (tableOf_charCode_lt h2)
      (by rw [h2.1]; decide)
  have e2 : freqForest [] = [] := rfl
  rw [e2, List.nil_append] at hfr
  have e0 : idsOf {} [] = [] := rfl
  have e1 : ({} : BinaryTree).m_nodes.length = 0 := rfl
  rw [e0, e1] at hids
  rw [e1] at hn
  simp only [leavesOf, List.flatMap_nil, List.nil_append, List.length_nil, Nat.zero_add]
    at hl hlen hn hids
  have hsize : pq.size (fillQueue pq table {} pq.empty).2 = (symbolsOf table).length := by
    rw [pq.size_eq, ← hF.length_eq, hlen]
  by_cases hk : (symbolsOf table).length ≤ 1
  · refine ⟨table, (fillQueue pq table {} pq.empty).1, 0, h1, h2, ?_, Or.inl ⟨hk, rfl⟩⟩
    simp only [buildTree, h1, Outcome.bind_ok]
    rw [mergeLoop_done pq _ _ _ _ (by rw [hsize]; exact hk)]
    rfl
  · obtain ⟨t', q', root, e, sl, sr, hm, hF', he, hl', hn', hids', hrun⟩ :=
      mergeLoop_spec pq (pq.size (fillQueue pq table {} pq.empty).2) _ _ 0 g hF (by omega)
        (by rw [hsize, hlen]; omega) (by rw [hn, hlen]; omega)
    refine ⟨table, t', root, h1, h2, ?_,
      Or.inr ⟨by omega, sl, sr, ?_, ?_, ?_, ?_, ?_, hrun.perm hfr⟩⟩
    · simp only [buildTree, h1, Outcome.bind_ok, hm]
    · rw [← he]; exact hF'.embeds _ (List.mem_singleton.mpr rfl)
    · rw [← he]; exact hF'.depth _ (List.mem_singleton.mpr rfl)
    · exact hF'.bytes _ (List.mem_singleton.mpr rfl)
    · exact hl'.trans hl
    · refine hids'.trans ((List.Perm.append_left _ hids).trans ?_)
      rw [hn, hlen] at hn' ⊢
      have e2 : t'.m_nodes.length
          = ((symbolsOf table).length - 1) + (symbolsOf table).length := by omega
      rw [e2, ← List.range'_append_1 1 (symbolsOf table).length ((symbolsOf table).length - 1),
        Nat.add_comm 1]
      exact List.perm_append_comm

theorem encodeLoop_spec (t : BinaryTree) (lo : Nat) (s : HTree) (root fuel : Nat)
    (text : List Nat) (bs : BitStream) (he : Embeds t lo s root) (hf : s.depth + 1 < fuel)
    (hc : Clean bs) :
    ∃ bs', encodeLoop fuel t root text bs = Outcome.ok bs' ∧ Clean bs'
      ∧ written bs' = written bs ++ text.flatMap (fun c => codeBits s (c % 256))
      ∧ bs'.m_bufferRead = bs.m_bufferRead := by
  induction text generalizing bs with
  | nil => exact ⟨bs, rfl, hc, by simp, rfl⟩
  | cons c rest ih =>
    have hfp := findpattern_spec t lo s root fuel (c % 256) 0 0 he hf (by decide)
    cases hp : s.path (c % 256) with
    | none =>
      rw [hp] at hfp
      obtain ⟨bs', h1, hc', hw', hr'⟩ := ih bs hc
      refine ⟨bs', ?_, hc', ?_, hr'⟩
      · simp only [encodeLoop, hfp, Outcome.bind_ok, Bool.not_false, if_true]
        exact h1
      · rw [hw']
        simp [List.flatMap_cons, codeBits, hp]
    | some bits =>
      rw [hp] at hfp
      obtain ⟨s1, h1, hc1, hw1, hr1⟩ :=
        write_spec 32 (packPattern bits 0) 0 ((0 + bits.length) % 2 ^ 32) bs hc
      obtain ⟨bs', h2, hc', hw', hr'⟩ := ih s1 hc1
      refine ⟨bs', ?_, hc', ?_, by rw [hr', hr1]⟩
      · simp only [encodeLoop, hfp, Outcome.bind_ok, Bool.not_true, Bool.false_eq_true, if_false,
          h1]
        exact h2
      · rw [hw', hw1]
        simp [List.flatMap_cons, codeBits, hp]

theorem encodeLoop_noroot (t : BinaryTree) (fuel : Nat) (text : List Nat) (bs : BitStream) :
    encodeLoop (fuel + 1) t 0 text bs = Outcome.ok bs := by
  induction text with
  | nil => rfl
  | cons c rest ih =>
    simp only [encodeLoop, findpattern_invalid, Outcome.bind_ok, Bool.not_false, if_true]
    exact ih

theorem mem_symbolsOf {text : List Nat} {table : List SCharacter}
    (h : TableOf (fun i => text.count i) table) {c : Nat} (hc : c ∈ symbolsOf table) :
    c ∈ text ∧ 0 < c := by
  simp only [symbolsOf, List.mem_map, List.mem_filter, decide_eq_true_eq] at hc
  obtain ⟨e, ⟨he, hfreq, hcode⟩, rfl⟩ := hc
  obtain ⟨i, hi, rfl⟩ := List.getElem_of_mem he
  have hi' : i < tableSize := by rw [← h.1]; exact hi
  have := h.2 i hi'
  rw [List.getD_eq_getElem _ _ hi] at this
  rw [this] at hfreq hcode ⊢
  simp only at hfreq hcode ⊢
  have hcnt : text.count i ≠ 0 := by
    intro h0; rw [h0] at hfreq; exact hfreq rfl
  rw [if_neg hcnt] at hcode ⊢
  exact ⟨List.count_pos_iff.mp (Nat.pos_of_ne_zero hcnt), hcode⟩

theorem symbolsOf_mem {text : List Nat} {table : List SCharacter}
    (h : TableOf (fun i => text.count i) table) (hlen : text.length < 2 ^ 32) {c : Nat}
    (hc : c ∈ text) (h0 : 0 < c) (h255 : c < tableSize) : c ∈ symbolsOf table := by
  have hcnt : 0 < text.count c := List.count_pos_iff.mpr hc
  have hle : text.count c ≤ text.length := List.count_le_length _ _
  have he := h.2 c h255
  have hlt : c < table.length := by rw [h.1]; exact h255
  rw [List.getD_eq_getElem _ _ hlt] at he
  simp only [symbolsOf, List.mem_map, List.mem_filter, decide_eq_true_eq]
  refine ⟨table[c], ⟨List.getElem_mem _, ?_, ?_⟩, ?_⟩
  · rw [he]; simp only; rw [Nat.mod_eq_of_lt (by omega)]; omega
  · rw [he]; simp only; rw [if_neg (by omega)]; exact h0
  · rw [he]; simp only; rw [if_neg (by omega)]

theorem serializeNode_noroot (t : BinaryTree) (fuel : Nat) (bs : BitStream) :
    serializeNode (fuel + 1) t 0 bs = Outcome.ok bs := by
  simp [serializeNode, isNode_eq, nodeAt_zero]

/-- The stream of `huffmanCompress` on a text of bytes below 128: untouched when the table
has fewer than two symbols, else the serialized tree followed by the code of every
character. -/
theorem compressStream_spec (pq : PQueue) (text : List Nat) (hb : ∀ b ∈ text, b < 128) :
    ∃ table t root bs, fillTable text (List.replicate tableSize {}) = Outcome.ok table
      ∧ TableOf (fun i => text.count i) table
      ∧ buildTree pq text = Outcome.ok (t, root)
      ∧ compressStream pq text = Outcome.ok bs
      ∧ (((symbolsOf table).length ≤ 1 ∧ root = 0 ∧ bs = BitStream.reserve (text.length * 8))
        ∨ (2 ≤ (symbolsOf table).length ∧ ∃ sl sr, Embeds t 0 (HTree.node sl sr) root
            ∧ (HTree.node sl sr).depth < root
            ∧ (HTree.node sl sr).Bytes
            ∧ (HTree.node sl sr).leaves.Perm (symbolsOf table)
            ∧ Clean bs
            ∧ written bs = (HTree.node sl sr).ser
                ++ text.flatMap (fun c => codeBits (HTree.node sl sr) (c % 256)))) := by
  obtain ⟨table, t, root, h1, h2, h3, h4⟩ := buildTree_spec pq text hb
  rcases h4 with ⟨hk, hroot⟩ | ⟨hk, sl, sr, he, hd, hby, hl, _⟩
  · subst hroot
    refine ⟨table, t, 0, BitStream.reserve (text.length * 8), h1, h2, h3, ?_,
      Or.inl ⟨hk, rfl, rfl⟩⟩
    simp only [compressStream, h3, Outcome.bind_ok, serializeNode_noroot, encodeLoop_noroot]
  · have hne : 0 < text.length * 8 := by
      cases text with
      | nil =>
        have hmem : ∃ c, c ∈ symbolsOf table := by
          cases hs : symbolsOf table with
          | nil => rw [hs] at hk; simp at hk
          | cons c _ => exact ⟨c, List.mem_cons_self _ _⟩
        obtain ⟨c, hc⟩ := hmem
        exact absurd (mem_symbolsOf h2 hc).1 (List.not_mem_nil _)
      | cons c rest => simp
    have hle := he.le_length
    obtain ⟨s1, hs1, hc1, hw1, _⟩ :=
      serializeNode_spec t 0 _ root (t.m_nodes.length + 1) _ he (by omega)
        (clean_reserve (text.length * 8) hne)
    obtain ⟨s2, hs2, hc2, hw2, _⟩ :=
      encodeLoop_spec t 0 _ root (t.m_nodes.length + 1) text s1 he (by omega) hc1
    refine ⟨table, t, root, s2, h1, h2, h3, ?_, Or.inr ⟨hk, sl, sr, he, hd, hby, hl, hc2, ?_⟩⟩
    · simp only [compressStream, h3, Outcome.bind_ok, hs1, hs2]
    · rw [hw2, hw1, written_reserve, List.nil_append]

/-! ### The decode loop -/

theorem decodeLoop_stop (bitcount : Nat) (t : BinaryTree) (root fuel cur : Nat) (bs : BitStream)
    (out : List Nat) (h : bs.m_bufferRead = bitcount) :
    decodeLoop bitcount t root fuel cur bs out = Outcome.ok out := by
  have hc : ¬ (bitcount + 2 ^ 64 - bs.getRead % 2 ^ 64) % 2 ^ 64 > 0 := by
    simp only [BitStream.getRead, h]
    omega
  cases fuel <;> simp only [decodeLoop, if_neg hc]

theorem decodeLoop_step (bitcount : Nat) (t : BinaryTree) (root fuel cur : Nat) (bs : BitStream)
    (out : List Nat) (b : Bool) (rest : List Bool) (h : bs.m_bufferRead < bitcount)
    (hb : bitcount < 2 ^ 64) (hu : unread bs = b :: rest) :
    decodeLoop bitcount t root (fuel + 1) cur bs out =
      if t.isNodeLeaf (t.getChildNode cur b) then
        decodeLoop bitcount t root fuel root (advance bs 1)
          (out ++ [(t.getNodeValue (t.getChildNode cur b) 0).2])
      else decodeLoop bitcount t root fuel (t.getChildNode cur b) (advance bs 1) out := by
  have hc : (bitcount + 2 ^ 64 - bs.getRead % 2 ^ 64) % 2 ^ 64 > 0 := by
    simp only [BitStream.getRead]
    omega
  simp only [decodeLoop, if_pos hc, (readbit_cons bs false b rest hu).1]

theorem path_leaf_eq {v c : Nat} {bits : List Bool} (h : (HTree.leaf v).path c = some bits) :
    v = c ∧ bits = [] := by
  simp only [HTree.path] at h
  split at h
  · rename_i hv; exact ⟨hv, by simpa using h.symm⟩
  · cases h

theorem path_node_ne_nil {l r : HTree} {c : Nat} {bits : List Bool}
    (h : (HTree.node l r).path c = some bits) : bits ≠ [] := by
  simp only [HTree.path] at h
  cases hl : l.path c with
  | some p => rw [hl] at h; simp only [Option.some.injEq] at h; rw [← h]; simp
  | none =>
    rw [hl] at h
    cases hr : r.path c with
    | some p => rw [hr] at h; simp only [Option.some.injEq] at h; rw [← h]; simp
    | none => rw [hr] at h; cases h

theorem getChildNode_eq (t : BinaryTree) (id : Nat) (b : Bool) (n : Node)
    (h : nodeAt t id = some n) : t.getChildNode id b = if b then n.right else n.left := by
  unfold BinaryTree.getChildNode
  rw [getChildNodeLeft_eq, getChildNodeRight_eq, h]

/-- Reading the way of a character from an inner node leads to its leaf: the loop emits
the character and goes back to the root. -/
theorem decodeLoop_walk (bitcount : Nat) (t : BinaryTree) (root : Nat) (s : HTree)
    (cur fuel c : Nat) (bits rest : List Bool) (bs : BitStream) (out : List Nat)
    (he : Embeds t 0 s cur) (hp : s.path c = some bits) (hne : bits ≠ [])
    (hu : unread bs = bits ++ rest) (hr : bs.m_bufferRead + bits.length ≤ bitcount)
    (hb : bitcount < 2 ^ 64) :
    decodeLoop bitcount t root (fuel + bits.length) cur bs out
      = decodeLoop bitcount t root fuel root (advance bs bits.length) (out ++ [c]) := by
  induction s generalizing cur bits bs with
  | leaf v => exact absurd (path_leaf_eq hp).2 hne
  | node l r ihl ihr =>
    obtain ⟨_, n, hn, hl, hr'⟩ := he
    -- one step to the child `sub` under `next`, the way going on with `p`
    have key : ∀ (b : Bool) (sub : HTree) (p : List Bool),
        bits = b :: p → Embeds t 0 sub (if b then n.right else n.left) → sub.path c = some p →
        (∀ (cur : Nat) (bits : List Bool) (bs : BitStream),
          Embeds t 0 sub cur → sub.path c = some bits → bits ≠ [] →
          unread bs = bits ++ rest → bs.m_bufferRead + bits.length ≤ bitcount →
          decodeLoop bitcount t root (fuel + bits.length) cur bs out
            = decodeLoop bitcount t root fuel root (advance bs bits.length) (out ++ [c])) →
        decodeLoop bitcount t root (fuel + bits.length) cur bs out
          = decodeLoop bitcount t root fuel root (advance bs bits.length) (out ++ [c]) := by
      intro b sub p hbits hsub hpath ih
      subst hbits
      simp only [List.length_cons, List.cons_append] at hr hu ⊢
      rw [← Nat.add_assoc,
        decodeLoop_step bitcount t root _ cur bs out b (p ++ rest) (by omega) hb hu,
        getChildNode_eq t cur b n hn]
      have hu' := (readbit_cons bs false b (p ++ rest) hu).2
      cases sub with
      | leaf v =>
        obtain ⟨hv, hp0⟩ := path_leaf_eq hpath
        subst hp0
        subst hv
        rw [isNodeLeaf_leaf hsub, if_pos rfl, getNodeValue_eq, hsub.2]
        rfl
      | node sl sr =>
        rw [isNodeLeaf_node hsub, if_neg (by simp)]
        rw [ih _ p (advance bs 1) hsub hpath (path_node_ne_nil hpath) hu'
          (by simp only [advance]; omega), advance_advance, Nat.add_comm 1]
    simp only [HTree.path] at hp
    cases hpl : l.path c with
    | some p =>
      rw [hpl] at hp
      simp only [Option.some.injEq] at hp
      exact key false l p hp.symm hl hpl (fun cur bits bs => ihl cur bits bs)
    | none =>
      rw [hpl] at hp
      cases hpr : r.path c with
      | some p =>
        rw [hpr] at hp
        simp only [Option.some.injEq] at hp
        exact key true r p hp.symm hr' hpr (fun cur bits bs => ihr cur bits bs)
      | none => rw [hpr] at hp; cases hp

theorem treeDepth_eq (t : BinaryTree) (lo : Nat) (s : HTree) (id fuel : Nat)
    (he : Embeds t lo s id) (hf : s.depth < fuel) : treeDepth fuel t id = s.depth := by
  induction s generalizing id fuel with
  | leaf v =>
    cases fuel with
    | zero => cases hf
    | succ fuel => simp [treeDepth, isNodeLeaf_leaf he, HTree.depth]
  | node l r ihl ihr =>
    cases fuel with
    | zero => cases hf
    | succ fuel =>
      have hleaf := isNodeLeaf_node he
      have hnode := isNode_of_embeds he
      obtain ⟨_, n, hn, hl, hr⟩ := he
      simp only [HTree.depth] at hf
      simp only [treeDepth, hnode, hleaf, Bool.not_true, Bool.or_self, Bool.false_eq_true,
        if_false, getChildNodeLeft_eq, getChildNodeRight_eq, hn, HTree.depth,
        ihl n.left fuel hl (by omega), ihr n.right fuel hr (by omega)]

theorem path_of_mem_leaves (s : HTree) (c : Nat) (h : c ∈ s.leaves) :
    ∃ bits, s.path c = some bits := by
  induction s with
  | leaf v =>
    simp only [HTree.leaves, List.mem_singleton] at h
    exact ⟨[], by simp [HTree.path, h]⟩
  | node l r ihl ihr =>
    simp only [HTree.leaves, List.mem_append] at h
    simp only [HTree.path]
    cases hl : l.path c with
    | some p => exact ⟨_, rfl⟩
    | none =>
      rcases h with h | h
      · obtain ⟨p, hp⟩ := ihl h
        rw [hp] at hl; cases hl
      · obtain ⟨p, hp⟩ := ihr h
        rw [hp]; exact ⟨_, rfl⟩

theorem path_length_le_depth (s : HTree) (c : Nat) (bits : List Bool)
    (h : s.path c = some bits) : bits.length ≤ s.depth := by
  induction s generalizing bits with
  | leaf v => rw [(path_leaf_eq h).2]; exact Nat.zero_le _
  | node l r ihl ihr =>
    simp only [HTree.path] at h
    simp only [HTree.depth]
    cases hl : l.path c with
    | some p =>
      rw [hl] at h
      simp only [Option.some.injEq] at h
      have := ihl p hl
      rw [← h, List.length_cons]
      omega
    | none =>
      rw [hl] at h
      cases hr : r.path c with
      | some p =>
        rw [hr] at h
        simp only [Option.some.injEq] at h
        have := ihr p hr
        rw [← h, List.length_cons]
        omega
      | none => rw [hr] at h; cases h

theorem depth_lt_ser_length (s : HTree) : s.depth < s.ser.length := by
  induction s with
  | leaf v => simp [HTree.depth, HTree.ser]
  | node l r ihl ihr =>
    simp only [HTree.depth, HTree.ser, List.length_cons, List.length_append]
    omega

/-- The decode loop, started at the root on the ways of the characters of `text`, emits
`text`. -/
theorem decodeLoop_text (bitcount : Nat) (t : BinaryTree) (root : Nat) (s : HTree)
    (text : List Nat) (rest : List Bool) (fuel : Nat) (bs : BitStream) (out : List Nat)
    (he : Embeds t 0 s root)
    (hp : ∀ c, c ∈ text → ∃ bits, s.path c = some bits ∧ bits ≠ [])
    (hu : unread bs = text.flatMap (fun c => (s.path c).getD []) ++ rest)
    (hr : bs.m_bufferRead + (text.flatMap (fun c => (s.path c).getD [])).length = bitcount)
    (hb : bitcount < 2 ^ 64)
    (hf : (text.flatMap (fun c => (s.path c).getD [])).length ≤ fuel) :
    decodeLoop bitcount t root fuel root bs out = Outcome.ok (out ++ text) := by
  induction text generalizing bs out fuel with
  | nil =>
    simp only [List.flatMap_nil, List.length_nil, Nat.add_zero] at hr
    rw [decodeLoop_stop _ _ _ _ _ _ _ hr, List.append_nil]
  | cons c cs ih =>
    obtain ⟨bits, hbits, hne⟩ := hp c (List.mem_cons_self _ _)
    simp only [List.flatMap_cons, hbits, Option.getD_some, List.length_append,
      List.append_assoc] at hu hr hf
    obtain ⟨fuel, rfl⟩ : ∃ f, fuel = f + bits.length := ⟨fuel - bits.length, by omega⟩
    rw [decodeLoop_walk bitcount t root s root fuel c bits _ bs out he hbits hne hu (by omega) hb]
    rw [ih fuel (advance bs bits.length) (out ++ [c])
      (fun x hx => hp x (List.mem_cons_of_mem _ hx))
      (by rw [unread_advance, hu, List.drop_left])
      (by simp only [advance]; omega) (by omega)]
    simp

/-! ### Round trip -/

theorem two_le_length_of_mem {l : List Nat} {a b : Nat} (ha : a ∈ l) (hb : b ∈ l)
    (hab : a ≠ b) : 2 ≤ l.length := by
  match l, ha, hb with
  | [], ha, _ => cases ha
  | [x], ha, hb =>
    rw [List.mem_singleton] at ha hb
    exact absurd (ha.trans hb.symm) hab
  | _ :: _ :: _, _, _ => simp

theorem size_le_ser_length (s : HTree) : s.size ≤ s.ser.length := by
  induction s with
  | leaf v => simp [HTree.size, HTree.ser]
  | node l r ihl ihr =>
    simp only [HTree.size, HTree.ser, List.length_cons, List.length_append]
    omega

theorem getBitBuffer_length (bs : BitStream) (hc : Clean bs) :
    bs.getBitBuffer.length = calcByteCount bs.getBitCount := by
  have hb := calcByteCount_bounds bs.m_bufferWrite
  have := hc.bound
  simp only [BitStream.getBitBuffer, BitStream.getByteCount, BitStream.getBitCount, hc.size,
    List.length_take]
  apply Nat.min_eq_left
  unfold calcByteCount at hb ⊢
  split <;> omega

/-- Round trip of `huffmanCompress` and `huffmanDecompress` on the inputs for which the
program is built: bytes in `1..127`, at least two distinct ones, fewer than `2^32`
characters, a tree of depth at most 32 and fewer than `2^32` bits of output. -/
theorem roundtrip_core (pq : PQueue) (text : List Nat) (t : BinaryTree) (root : Nat)
    (bs : BitStream)
    (hbytes : ∀ b, b ∈ text → 1 ≤ b ∧ b ≤ 127)
    (htwo : ∃ a, a ∈ text ∧ ∃ b, b ∈ text ∧ a ≠ b)
    (hlen : text.length < 2 ^ 32)
    (htree : buildTree pq text = Outcome.ok (t, root))
    (hdepth : treeDepth t.m_nodes.length t root ≤ 32)
    (hstream : compressStream pq text = Outcome.ok bs)
    (hbits : bs.getBitCount < 2 ^ 32) :
    ∃ art, huffmanCompress pq text = Outcome.ok art
      ∧ ∀ fuel, bs.getBitCount ≤ fuel → huffmanDecompress fuel art = Outcome.ok text := by
  obtain ⟨table, t', root', bs', h1, h2, h3, h4, h5⟩ :=
    compressStream_spec pq text (fun b hb => by have := hbytes b hb; omega)
  rw [htree] at h3
  rw [hstream] at h4
  simp only [Outcome.ok.injEq, Prod.mk.injEq] at h3 h4
  obtain ⟨rfl, rfl⟩ := h3
  subst h4
  obtain ⟨a, ha, b, hb, hab⟩ := htwo
  have hmem : ∀ c, c ∈ text → c ∈ symbolsOf table := fun c hc =>
    symbolsOf_mem h2 hlen hc (hbytes c hc).1 (by have := (hbytes c hc).2; unfold tableSize; omega)
  have hk : 2 ≤ (symbolsOf table).length := two_le_length_of_mem (hmem a ha) (hmem b hb) hab
  rcases h5 with ⟨hk', _⟩ | ⟨_, sl, sr, he, hd, hby, hl, hc, hw⟩
  · omega
  -- the depth of the tree and the ways of the characters
  have hdep : (HTree.node sl sr).depth ≤ 32 := by
    rw [← treeDepth_eq t 0 _ root t.m_nodes.length he (by have := he.le_length; omega)]
    exact hdepth
  have hpath : ∀ c, c ∈ text → ∃ bits, (HTree.node sl sr).path c = some bits ∧ bits ≠ [] := by
    intro c hc
    obtain ⟨bits, hbits⟩ := path_of_mem_leaves _ c (hl.symm.subset (hmem c hc))
    exact ⟨bits, hbits, path_node_ne_nil hbits⟩
  have hcodes : text.flatMap (fun c => codeBits (HTree.node sl sr) (c % 256))
      = text.flatMap (fun c => ((HTree.node sl sr).path c).getD []) := by
    apply List.flatMap_congr
    intro c hc
    obtain ⟨bits, hbits, _⟩ := hpath c hc
    have hc256 : c % 256 = c := Nat.mod_eq_of_lt (by have := (hbytes c hc).2; omega)
    rw [hc256, codeBits, hbits]
    simp only [Option.getD_some]
    exact writeBits_packPattern bits
      (Nat.le_trans (path_length_le_depth _ c bits hbits) hdep)
  rw [hcodes] at hw
  have hcount : bs.getBitCount = (HTree.node sl sr).ser.length
      + (text.flatMap (fun c => ((HTree.node sl sr).path c).getD [])).length := by
    rw [← List.length_append, ← hw, written_length]; exact hc.size
  refine ⟨_, by simp only [huffmanCompress, hstream, Outcome.bind_ok]; rfl, ?_⟩
  intro fuel hfuel
  obtain ⟨pad, hpad⟩ := unread_fromBytes bs hc
  rw [hw, List.append_assoc] at hpad
  have hmod : bs.getBitCount % 2 ^ 32 = bs.getBitCount := Nat.mod_eq_of_lt hbits
  have hplen := getBitBuffer_length bs hc
  obtain ⟨t2, hd2, he2, _, _⟩ :=
    deserializeNode_spec (HTree.node sl sr) {} 0 fuel
      (BitStream.fromBytes bs.getBitBuffer bs.getBitCount) _ hby
      (by have := depth_lt_ser_length (HTree.node sl sr); omega) hpad
      (by have := size_le_ser_length (HTree.node sl sr); show 0 + _ < _; omega)
  simp only [huffmanDecompress, hmod, hplen, Nat.lt_irrefl, if_false]
  rw [← hplen, List.take_length, hd2]
  simp only [Outcome.bind_ok]
  have := decodeLoop_text bs.getBitCount t2 1 (HTree.node sl sr) text pad fuel
    (advance (BitStream.fromBytes bs.getBitBuffer bs.getBitCount) (HTree.node sl sr).ser.length)
    [] he2 hpath (by rw [unread_advance, hpad, List.drop_left])
    (by simp only [advance, BitStream.fromBytes, BitStream.reserve]; omega)
    (by omega) (by omega)
  simpa using this

/-! ### Codes of different symbols -/

theorem follow_path (s : HTree) (c : Nat) (bits : List Bool) (h : s.path c = some bits) :
    s.follow bits = some (HTree.leaf c) := by
  induction s generalizing bits with
  | leaf v =>
    obtain ⟨hv, hb⟩ := path_leaf_eq h
    subst hv; subst hb
    rfl
  | node l r ihl ihr =>
    simp only [HTree.path] at h
    cases hl : l.path c with
    | some p =>
      rw [hl] at h
      simp only [Option.some.injEq] at h
      subst h
      simpa [HTree.follow] using ihl p hl
    | none =>
      rw [hl] at h
      cases hr : r.path c with
      | some p =>
        rw [hr] at h
        simp only [Option.some.injEq] at h
        subst h
        simpa [HTree.follow] using ihr p hr
      | none => rw [hr] at h; cases h

theorem follow_append_leaf (s : HTree) (p q : List Bool) (a b : Nat)
    (hp : s.follow p = some (HTree.leaf a)) (hq : s.follow (p ++ q) = some (HTree.leaf b)) :
    a = b := by
  induction p generalizing s with
  | nil =>
    cases s with
    | leaf v =>
      cases q with
      | nil => simp only [HTree.follow, Option.some.injEq, HTree.leaf.injEq] at hp hq; omega
      | cons x xs => simp [HTree.follow] at hq
    | node l r => simp [HTree.follow] at hp
  | cons x xs ih =>
    cases s with
    | leaf v => simp [HTree.follow] at hp
    | node l r =>
      simp only [HTree.follow, List.cons_append] at hp hq
      cases x
      · simp only [Bool.false_eq_true, if_false] at hp hq; exact ih l hp hq
      · simp only [if_true] at hp hq; exact ih r hp hq

/-- The ways to two different characters: neither starts with the other. -/
theorem path_not_isPrefix (s : HTree) (a b : Nat) (p q : List Bool) (hab : a ≠ b)
    (hp : s.path a = some p) (hq : s.path b = some q) : ¬ p <+: q := by
  rintro ⟨r, rfl⟩
  exact hab (follow_append_leaf s p r a b (follow_path s a p hp) (follow_path s b _ hq))

theorem depth_lt_leaves_length (s : HTree) : s.depth < s.leaves.length := by
  induction s with
  | leaf v => simp [HTree.depth, HTree.leaves]
  | node l r ihl ihr =>
    simp only [HTree.depth, HTree.leaves, List.length_append]
    omega

/-- What `findpattern` returns at the root of the tree built for a text of bytes below 128,
in terms of one shape `s` for that tree: the way to the character, packed and counted. -/
theorem findpattern_built (pq : PQueue) (text : List Nat) (t : BinaryTree) (root : Nat)
    (hb : ∀ b, b ∈ text → b < 128) (htree : buildTree pq text = Outcome.ok (t, root)) :
    ∃ s : HTree, ∀ c p d,
      findpattern (t.m_nodes.length + 1) t root c 0 0 = Outcome.ok (true, p, d) →
      ∃ bits, s.path c = some bits ∧ p = packPattern bits 0 ∧ d = bits.length
        ∧ bits.length < 255 := by
  obtain ⟨table, t', root', h1, h2, h3, h4⟩ := buildTree_spec pq text hb
  rw [htree] at h3
  simp only [Outcome.ok.injEq, Prod.mk.injEq] at h3
  obtain ⟨rfl, rfl⟩ := h3
  rcases h4 with ⟨_, hroot⟩ | ⟨_, sl, sr, he, hd, _, hl, _⟩
  · subst hroot
    refine ⟨HTree.leaf 0, ?_⟩
    intro c p d hf
    rw [findpattern_invalid] at hf
    simp at hf
  · refine ⟨HTree.node sl sr, ?_⟩
    intro c p d hf
    have hle := he.le_length
    have hfp := findpattern_spec t 0 _ root (t.m_nodes.length + 1) c 0 0 he (by omega) (by decide)
    rw [hf] at hfp
    cases hp : (HTree.node sl sr).path c with
    | none => rw [hp] at hfp; simp at hfp
    | some bits =>
      rw [hp] at hfp
      simp only [Outcome.ok.injEq, Prod.mk.injEq, true_and, Nat.zero_add] at hfp
      have hlen : bits.length < 255 := by
        have h5 := path_length_le_depth _ c bits hp
        have h6 := depth_lt_leaves_length (HTree.node sl sr)
        have h7 := symbolsOf_length_le table
        rw [hl.length_eq] at h6
        rw [h2.1] at h7
        unfold tableSize at h7
        omega
      refine ⟨bits, rfl, hfp.1, ?_, hlen⟩
      rw [hfp.2]
      exact Nat.mod_eq_of_lt (by omega)

/-! ### Texts given by their counts -/

theorem bump_length (n b : Nat) (table : List SCharacter) :
    (bump n b table).length = table.length := by
  unfold bump
  split <;> simp

theorem fillTable_replicate (n b : Nat) (rest : List Nat) (table : List SCharacter)
    (hb : b < 128) (hlen : b < table.length) :
    fillTable (List.replicate n b ++ rest) table = fillTable rest (bump n b table) := by
  induction n generalizing table with
  | zero => simp [bump]
  | succ n ih =>
    rw [List.replicate_succ, List.cons_append, fillTable, charIndex_small b hb, if_pos hlen,
      ih _ (by simpa using hlen)]
    congr 1
    unfold bump
    by_cases hn : n = 0
    · subst hn; simp
    · rw [if_neg hn, if_neg (Nat.succ_ne_zero n), List.set_set]
      congr 1
      simp only [List.getD_eq_getElem?_getD, List.getElem?_set_self hlen, Option.getD_some,
        SCharacter.mk.injEq, and_true, true_and]
      omega

theorem fillTable_blocks (ws : List Nat) (c : Nat) (table : List SCharacter)
    (hc : c + ws.length ≤ 128) (hlen : table.length = tableSize) :
    fillTable (blocks ws c) table = Outcome.ok (bumpAll ws c table) := by
  induction ws generalizing c table with
  | nil => rfl
  | cons w ws ih =>
    simp only [List.length_cons] at hc
    rw [blocks, fillTable_replicate w c _ table (by omega) (by rw [hlen]; unfold tableSize; omega),
      ih (c + 1) _ (by omega) (by rw [bump_length, hlen])]
    rfl

/-! ### The text aaab -/

/-- A queue that holds two entries of different frequency hands them out in ascending
order. -/
theorem two_entries (pq : PQueue) (q : pq.σ) (x y : SCharacter)
    (h : (pq.elems q).Perm [x, y]) (hlt : x.frequency < y.frequency) :
    pq.size q = 2 ∧ pq.top q = x ∧ pq.top (pq.pop q) = y
      ∧ pq.size (pq.push (pq.pop (pq.pop q)) x) = 1 := by
  have hne : pq.elems q ≠ [] := by
    intro h0; rw [h0] at h; exact absurd h.length_eq (by simp)
  have hpop := pq.pop_perm q hne
  have htop : pq.top q = x := by
    have hmem : pq.top q ∈ [x, y] := h.subset (hpop.subset (List.mem_cons_self _ _))
    have hmin := pq.top_min q x (h.symm.subset (List.mem_cons_self _ _))
    simp only [List.mem_cons, List.mem_singleton, List.not_mem_nil, or_false] at hmem
    rcases hmem with h1 | h1
    · exact h1
    · rw [h1] at hmin; omega
  have h1 : pq.elems (pq.pop q) = [y] := by
    rw [htop] at hpop
    exact List.perm_singleton.mp (hpop.trans h).cons_inv
  have hpop1 := pq.pop_perm (pq.pop q) (by rw [h1]; simp)
  have htop1 : pq.top (pq.pop q) = y := by
    have hmem : pq.top (pq.pop q) ∈ pq.elems (pq.pop q) := hpop1.subset (List.mem_cons_self _ _)
    rw [h1] at hmem
    exact List.mem_singleton.mp hmem
  have h2 : pq.elems (pq.pop (pq.pop q)) = [] := by
    rw [htop1, h1] at hpop1
    exact List.perm_nil.mp hpop1.cons_inv
  refine ⟨by rw [pq.size_eq, h.length_eq]; rfl, htop, htop1, ?_⟩
  rw [pq.size_eq, (pq.push_perm _ _).length_eq, h2]
  rfl

set_option maxRecDepth 100000 in
/-- The tree of the text `aaab`, for every priority queue. -/

theorem buildTree_aaab (pq : PQueue) :
    buildTree pq [97, 97, 97, 98]
      = Outcome.ok (⟨[⟨97, 0, 0⟩, ⟨98, 0, 0⟩, ⟨0, 2, 1⟩]⟩, 3) := by
  have hT : fillTable [97, 97, 97, 98] (List.replicate tableSize {})
      = Outcome.ok (bumpAll [3, 1] 97 (List.replicate tableSize {})) := by decide
  have hQ : fillQueue pq (bumpAll [3, 1] 97 (List.replicate tableSize {})) {} pq.empty
      = (⟨[⟨97, 0, 0⟩, ⟨98, 0, 0⟩]⟩, pq.push (pq.push pq.empty ⟨3, 97, 1⟩) ⟨1, 98, 2⟩) := rfl
  have hperm : (pq.elems (pq.push (pq.push pq.empty ⟨3, 97, 1⟩) ⟨1, 98, 2⟩)).Perm
      [⟨1, 98, 2⟩, ⟨3, 97, 1⟩] := by
    refine (pq.push_perm _ _).trans (List.Perm.cons _ ?_)
    have := pq.push_perm pq.empty ⟨3, 97, 1⟩
    rwa [pq.elems_empty] at this
  obtain ⟨h1, h2, h3, h4⟩ := two_entries pq _ _ _ hperm (by decide)
  simp only [buildTree, hT, Outcome.bind_ok, hQ, h1]
  have hstep : mergeStep pq ⟨[⟨97, 0, 0⟩, ⟨98, 0, 0⟩]⟩
      (pq.push (pq.push pq.empty ⟨3, 97, 1⟩) ⟨1, 98, 2⟩)
      = (⟨[⟨97, 0, 0⟩, ⟨98, 0, 0⟩, ⟨0, 2, 1⟩]⟩,
          pq.push (pq.pop (pq.pop (pq.push (pq.push pq.empty ⟨3, 97, 1⟩) ⟨1, 98, 2⟩)))
            ⟨4, 0, 3⟩, 3) := by
    simp only [mergeStep, h2, h3]
    rfl
  have hloop : mergeLoop pq 2 ⟨[⟨97, 0, 0⟩, ⟨98, 0, 0⟩]⟩
      (pq.push (pq.push pq.empty ⟨3, 97, 1⟩) ⟨1, 98, 2⟩) 0
      = Outcome.ok (⟨[⟨97, 0, 0⟩, ⟨98, 0, 0⟩, ⟨0, 2, 1⟩]⟩,
          pq.push (pq.pop (pq.pop (pq.push (pq.push pq.empty ⟨3, 97, 1⟩) ⟨1, 98, 2⟩)))
            ⟨4, 0, 3⟩, 3) := by
    have hsz : pq.size (pq.push (pq.pop (pq.pop
        (pq.push (pq.push pq.empty ⟨3, 97, 1⟩) ⟨1, 98, 2⟩))) ⟨4, 0, 3⟩) ≤ 1 := by
      rw [pq.size_eq, (pq.push_perm _ _).length_eq]
      have := (pq.push_perm (pq.pop (pq.pop
        (pq.push (pq.push pq.empty ⟨3, 97, 1⟩) ⟨1, 98, 2⟩))) ⟨1, 98, 2⟩).length_eq
      rw [← pq.size_eq, h4] at this
      simp only [List.length_cons] at this ⊢
      omega
    rw [mergeLoop, if_pos (by rw [h1]; decide), hstep]
    exact mergeLoop_done pq 1 _ _ _ hsz
  rw [hloop]
  rfl

/-! ### Symbols, faults and skipped characters -/

/-- The symbols of a frequency table are the indices above zero with a non-zero 32-bit
count, in ascending order. -/
theorem symbolsOf_eq_filter (cnt : Nat → Nat) (table : List SCharacter) (h : TableOf cnt table) :
    symbolsOf table
      = (List.range tableSize).filter (fun i => decide (cnt i % 2 ^ 32 ≠ 0 ∧ 0 < i)) := by
  have ht : table = (List.range tableSize).map
      (fun i => ({ frequency := cnt i % 2 ^ 32, charCode := if cnt i = 0 then 0 else i }
        : SCharacter)) := by
    apply List.ext_getElem
    · simp [h.1]
    · intro i h1 h2
      have hi : i < tableSize := by rw [← h.1]; exact h1
      have := h.2 i hi
      rw [List.getD_eq_getElem _ _ h1] at this
      simp [this]
  rw [symbolsOf, ht, List.filter_map, List.map_map]
  have hf : ∀ i, ((fun e : SCharacter => decide (e.frequency ≠ 0 ∧ e.charCode > 0)) ∘
      (fun i => ({ frequency := cnt i % 2 ^ 32, charCode := if cnt i = 0 then 0 else i }
        : SCharacter))) i = decide (cnt i % 2 ^ 32 ≠ 0 ∧ 0 < i) := by
    intro i
    simp only [Function.comp_apply, decide_eq_decide]
    constructor
    · rintro ⟨h1, h2⟩
      refine ⟨h1, ?_⟩
      split at h2 <;> omega
    · rintro ⟨h1, h2⟩
      refine ⟨h1, ?_⟩
      have : cnt i ≠ 0 := by intro h0; rw [h0] at h1; exact h1 rfl
      rw [if_neg this]; exact h2
  rw [List.filter_congr (fun i _ => hf i)]
  conv_rhs => rw [← List.map_id (List.filter _ _)]
  apply List.map_congr_left
  intro i hi
  simp only [List.mem_filter, decide_eq_true_eq] at hi
  have : cnt i ≠ 0 := by intro h0; rw [h0] at hi; exact hi.2.1 rfl
  simp [this]

theorem symbolsOf_nodup (cnt : Nat → Nat) (table : List SCharacter) (h : TableOf cnt table) :
    (symbolsOf table).Nodup := by
  rw [symbolsOf_eq_filter cnt table h]
  exact List.Nodup.filter _ (List.nodup_range _)

/-- On a stream without unread bits `deserializeNode` never returns: the failed `readbit`
leaves the marker at `0`, a node is allocated and the function calls itself again. -/
theorem deserializeNode_starved (fuel : Nat) (t : BinaryTree) (node : Nat) (s : BitStream)
    (h : unread s = []) : deserializeNode fuel t node s = Outcome.outOfFuel := by
  induction fuel generalizing t with
  | zero => rfl
  | succ fuel ih =>
    simp only [deserializeNode, readbit_nil s false h, ih, Outcome.bind_outOfFuel]

/-- A text that holds a byte of 128 or more makes the table fill fault: the index taken
through the signed `char` lies outside the table. -/
theorem fillTable_fault (text : List Nat) (table : List SCharacter) (hlen : table.length = tableSize)
    (h : ∃ b, b ∈ text ∧ 128 ≤ b) : fillTable text table = Outcome.fault := by
  induction text generalizing table with
  | nil => obtain ⟨b, hb, _⟩ := h; cases hb
  | cons c rest ih =>
    by_cases hc : c < 128
    · have hrest : ∃ b, b ∈ rest ∧ 128 ≤ b := by
        obtain ⟨b, hb, h128⟩ := h
        rcases List.mem_cons.mp hb with rfl | hb
        · omega
        · exact ⟨b, hb, h128⟩
      rw [fillTable, charIndex_small c hc, if_pos (by rw [hlen]; unfold tableSize; omega)]
      exact ih _ (by simpa using hlen) hrest
    · have hidx : ¬ charIndex c < table.length := by
        rw [hlen]
        unfold charIndex tableSize
        rw [if_neg hc]
        omega
      rw [fillTable, if_neg hidx]

theorem encodeLoop_append (fuel : Nat) (t : BinaryTree) (root : Nat) (pre post : List Nat)
    (s : BitStream) :
    encodeLoop fuel t root (pre ++ post) s
      = (encodeLoop fuel t root pre s).bind (encodeLoop fuel t root post) := by
  induction pre generalizing s with
  | nil => rfl
  | cons c cs ih =>
    simp only [List.cons_append, encodeLoop]
    cases hf : findpattern fuel t root (c % 256) 0 0 with
    | ok r =>
      simp only [Outcome.bind_ok]
      split
      · exact ih s
      · cases hw : s.write 32 r.2.1 0 r.2.2 with
        | ok s1 => simp only [Outcome.bind_ok]; exact ih s1
        | fault => rfl
        | outOfFuel => rfl
    | fault => rfl
    | outOfFuel => rfl

/-- A character for which `findpattern` fails leaves no trace in the stream. -/
theorem encodeLoop_skip (fuel : Nat) (t : BinaryTree) (root c p d : Nat) (pre post : List Nat)
    (s : BitStream) (h : findpattern fuel t root (c % 256) 0 0 = Outcome.ok (false, p, d)) :
    encodeLoop fuel t root (pre ++ c :: post) s = encodeLoop fuel t root (pre ++ post) s := by
  rw [encodeLoop_append, encodeLoop_append]
  congr 1
  funext s1
  simp only [encodeLoop, h, Outcome.bind_ok, Bool.not_false, if_true]

/-! ### Inputs without a tree -/

theorem decompress_empty_diverges (fuel : Nat) :
    huffmanDecompress fuel ⟨0, []⟩ = Outcome.outOfFuel := by
  have h : unread (BitStream.fromBytes (List.take (calcByteCount 0) []) 0) = [] := rfl
  simp only [huffmanDecompress, List.length_nil]
  rw [if_neg (by decide), deserializeNode_starved fuel _ 0 _ h]
  rfl

/-- A text that repeats one byte puts at most one symbol in the table. -/
theorem symbolsOf_replicate_le (k b : Nat) (table : List SCharacter)
    (h : TableOf (fun i => (List.replicate k b).count i) table) :
    (symbolsOf table).length ≤ 1 := by
  have hn := symbolsOf_nodup _ table h
  have hall : ∀ c, c ∈ symbolsOf table → c = b := by
    intro c hc
    exact List.eq_of_mem_replicate (mem_symbolsOf h hc).1
  match hs : symbolsOf table with
  | [] => simp
  | [_] => simp
  | x :: y :: rest =>
    rw [hs] at hn hall
    have hx := hall x (List.mem_cons_self _ _)
    have hy := hall y (List.mem_cons_of_mem _ (List.mem_cons_self _ _))
    have := (List.nodup_cons.mp hn).1
    rw [hx, hy] at this
    exact absurd (List.mem_cons_self _ _) this

/-- With fewer than two symbols no tree is written: the artifact holds no bits and no
bytes. -/
theorem compress_no_tree (pq : PQueue) (text : List Nat) (hb : ∀ b, b ∈ text → b < 128)
    (hk : ∀ table, TableOf (fun i => text.count i) table → (symbolsOf table).length ≤ 1) :
    huffmanCompress pq text = Outcome.ok ⟨0, []⟩ := by
  obtain ⟨table, t, root, bs, _, h2, _, h4, h5⟩ := compressStream_spec pq text hb
  rcases h5 with ⟨_, _, hbs⟩ | ⟨h2', _⟩
  · subst hbs
    simp only [huffmanCompress, h4, Outcome.bind_ok]
    simp [BitStream.getBitCount, BitStream.getBitBuffer, BitStream.getByteCount,
      BitStream.reserve, calcByteCount]
  · have := hk table h2
    omega

/-! ### The artifact -/

theorem calcByteCount_eq_ceil (n : Nat) : calcByteCount n = (n + 7) / 8 := by
  unfold calcByteCount
  split <;> omega

theorem Embeds.unique {t : BinaryTree} {lo : Nat} {s s' : HTree} {id : Nat}
    (h : Embeds t lo s id) (h' : Embeds t lo s' id) : s = s' := by
  induction s generalizing s' id with
  | leaf v =>
    cases s' with
    | leaf v' =>
      have := h.2.symm.trans h'.2
      simp only [Option.some.injEq, Node.mk.injEq, and_true] at this
      rw [this]
    | node l' r' =>
      obtain ⟨_, n, hn, hl, _⟩ := h'
      have e := h.2.symm.trans hn
      simp only [Option.some.injEq] at e
      have := hl.lo_lt
      rw [← e] at this
      simp at this
  | node l r ihl ihr =>
    cases s' with
    | leaf v' =>
      obtain ⟨_, n, hn, hl, _⟩ := h
      have e := h'.2.symm.trans hn
      simp only [Option.some.injEq] at e
      have := hl.lo_lt
      rw [← e] at this
      simp at this
    | node l' r' =>
      obtain ⟨_, n, hn, hl, hr⟩ := h
      obtain ⟨_, n', hn', hl', hr'⟩ := h'
      have e := hn.symm.trans hn'
      simp only [Option.some.injEq] at e
      subst e
      rw [ihl hl hl', ihr hr hr']

theorem length_flatMap_ones {α β : Type} (f : α → List β) (l : List α)
    (h : ∀ a, a ∈ l → (f a).length = 1) : (l.flatMap f).length = l.length := by
  induction l with
  | nil => rfl
  | cons a as ih =>
    rw [List.flatMap_cons, List.length_append, h a (List.mem_cons_self _ _),
      ih (fun x hx => h x (List.mem_cons_of_mem _ hx)), List.length_cons]
    omega

/-- What `huffmanCompress` writes for a text of bytes below 128: the stream holds the
serialized tree followed by the codes of the characters (nothing without a tree), the
header is the bit count of the stream modulo `2^32`, and the payload has as many bytes as
that bit count needs. -/
theorem artifact_spec (pq : PQueue) (text : List Nat) (hb : ∀ b, b ∈ text → b < 128) :
    ∃ t root bs art, buildTree pq text = Outcome.ok (t, root)
      ∧ compressStream pq text = Outcome.ok bs
      ∧ huffmanCompress pq text = Outcome.ok art
      ∧ ((root = 0 ∧ written bs = [])
        ∨ ∃ s, Embeds t 0 s root
            ∧ written bs = s.ser ++ text.flatMap (fun c => codeBits s (c % 256)))
      ∧ bs.getBitCount = (written bs).length
      ∧ art.bitcount = bs.getBitCount % 2 ^ 32
      ∧ art.payload.length = (bs.getBitCount + 7) / 8 := by
  obtain ⟨table, t, root, bs, _, _, h3, h4, h5⟩ := compressStream_spec pq text hb
  refine ⟨t, root, bs, ⟨bs.getBitCount % 2 ^ 32, bs.getBitBuffer⟩, h3, h4,
    by simp only [huffmanCompress, h4, Outcome.bind_ok], ?_, ?_, rfl, ?_⟩
  · rcases h5 with ⟨_, h0, hbs⟩ | ⟨_, sl, sr, he, _, _, _, _, hw⟩
    · subst hbs; exact Or.inl ⟨h0, rfl⟩
    · exact Or.inr ⟨_, he, hw⟩
  · rcases h5 with ⟨_, _, hbs⟩ | ⟨_, _, _, _, _, _, _, hc, _⟩
    · subst hbs; rfl
    · rw [written_length]; exact hc.size
  · rw [← calcByteCount_eq_ceil]
    rcases h5 with ⟨_, _, hbs⟩ | ⟨_, _, _, _, _, _, _, hc, _⟩
    · subst hbs
      simp [BitStream.getBitCount, BitStream.getBitBuffer, BitStream.getByteCount,
        BitStream.reserve, calcByteCount]
    · exact getBitBuffer_length bs hc

set_option maxRecDepth 100000 in
theorem buildTree_hugeText :
    buildTree listQueue hugeText = Outcome.ok (⟨[⟨97, 0, 0⟩, ⟨98, 0, 0⟩, ⟨0, 2, 1⟩]⟩, 3) := by
  have h : fillTable hugeText (List.replicate tableSize {})
      = Outcome.ok (bumpAll [2 ^ 32 - 1, 1] 97 (List.replicate tableSize {})) :=
    fillTable_blocks [2 ^ 32 - 1, 1] 97 _ (by decide) (by simp)
  unfold buildTree
  rw [h]
  decide

theorem hugeText_length : hugeText.length = 2 ^ 32 := by
  simp only [hugeText, blocks, List.length_append, List.length_replicate, List.length_nil]
  decide

theorem hugeText_mem (c : Nat) (h : c ∈ hugeText) : c = 97 ∨ c = 98 := by
  simp only [hugeText, blocks, List.append_nil, List.mem_append, List.mem_replicate] at h
  rcases h with h | h
  · exact Or.inl h.2
  · exact Or.inr h.2

/-! ### Defined runs and starved streams -/

/-- A tree is only built for a text of bytes below 128. -/
theorem bytes_of_buildTree (pq : PQueue) (text : List Nat) (r : BinaryTree × Nat)
    (h : buildTree pq text = Outcome.ok r) : ∀ b, b ∈ text → b < 128 := by
  intro b hb
  by_contra hge
  have hf : fillTable text (List.replicate tableSize {}) = Outcome.fault :=
    fillTable_fault text _ (by simp) ⟨b, hb, Nat.le_of_not_lt hge⟩
  simp only [buildTree, hf, Outcome.bind_fault] at h
  cases h

/-- On a stream whose unread bits are all zero `deserializeNode` never returns: every
marker read is `0`, whether `readbit` succeeds or not. -/
theorem deserializeNode_zeros (fuel : Nat) (t : BinaryTree) (node : Nat) (s : BitStream)
    (h : ∀ b, b ∈ unread s → b = false) : deserializeNode fuel t node s = Outcome.outOfFuel := by
  induction fuel generalizing t s with
  | zero => rfl
  | succ fuel ih =>
    cases hu : unread s with
    | nil => exact deserializeNode_starved _ t node s hu
    | cons b rest =>
      have hb : b = false := h b (by rw [hu]; exact List.mem_cons_self _ _)
      subst hb
      obtain ⟨h1, h2⟩ := readbit_cons s false false rest hu
      have hrest : ∀ x, x ∈ unread (advance s 1) → x = false := by
        intro x hx
        rw [h2] at hx
        exact h x (by rw [hu]; exact List.mem_cons_of_mem _ hx)
      simp only [deserializeNode, h1, ih _ _ hrest, Outcome.bind_outOfFuel]

/-- The fuel that `compressStream` hands to the recursions over the tree is always
enough: `huffmanCompress` either returns an artifact or faults in the table fill. -/
theorem huffmanCompress_terminates (pq : PQueue) (text : List Nat) :
    huffmanCompress pq text ≠ Outcome.outOfFuel := by
  by_cases h : ∀ b, b ∈ text → b < 128
  · obtain ⟨_, _, _, art, _, _, h2, _⟩ := artifact_spec pq text h
    rw [h2]
    intro h'
    cases h'
  · have hex : ∃ b, b ∈ text ∧ 128 ≤ b := by
      by_contra hne
      apply h
      intro b hb
      by_contra hge
      exact hne ⟨b, hb, Nat.le_of_not_lt hge⟩
    have hf : fillTable text (List.replicate tableSize {}) = Outcome.fault :=
      fillTable_fault text _ (by simp) hex
    simp only [huffmanCompress, compressStream, buildTree, hf, Outcome.bind_fault]
    intro h'
    cases h'

/-! ### Bit by bit writing and reading -/

theorem msbBits_eq_map_testBit (w v n j : Nat) (h : j + n ≤ w) :
    msbBits w v n j = (List.range' j n).map (fun i => v.testBit (w - 1 - i)) := by
  induction n generalizing j with
  | zero => rfl
  | succ n ih =>
    have h1 : w - (j + 1) = w - 1 - j := by omega
    simp only [msbBits, List.range'_succ, List.map_cons]
    rw [ih (j + 1) (by omega), h1, Nat.one_shiftLeft,
      Nat.mod_eq_of_lt (Nat.pow_lt_pow_right (by decide) (by omega)), ← Nat.one_shiftLeft,
      and_two_pow_ne_zero]

theorem writeBits_eq_map_testBit (w v o n : Nat) (h : o + n ≤ w) :
    writeBits w v o n = (List.range' o (n - o)).map (fun i => v.testBit (w - 1 - i)) := by
  unfold writeBits
  have hn : ¬ n > w := by omega
  by_cases ho : o ≥ w
  · have hn0 : n = 0 := by omega
    subst hn0
    simp [ho, msbBits]
  · simp only [hn, ho, if_false]
    exact msbBits_eq_map_testBit w v (n - o) o (by omega)

theorem writebit_buffer_length (s s' : BitStream) (b : Bool) (h : s.writebit b = Outcome.ok s') :
    s'.m_buffer.length
      = if s.m_bufferWrite + 1 > s.m_buffer.length * 8 then 2 * s.m_buffer.length
        else s.m_buffer.length := by
  unfold BitStream.writebit at h
  by_cases hfull : s.m_bufferWrite + 1 > s.m_buffer.length * 8
  · simp only [if_pos hfull] at h ⊢
    split at h
    · simp only [Outcome.ok.injEq] at h
      subst h
      simp only [List.length_set, BitStream.realloc, List.length_append, List.length_replicate]
      omega
    · cases h
  · simp only [if_neg hfull] at h ⊢
    split at h
    · simp only [Outcome.ok.injEq] at h
      subst h
      simp only [List.length_set]
    · cases h

theorem writeEach_spec (bits : List Bool) (s : BitStream) (h : Clean s) :
    ∃ s' k, writeEach bits s = Outcome.ok s' ∧ Clean s' ∧ written s' = written s ++ bits
      ∧ s'.m_bufferRead = s.m_bufferRead ∧ s'.m_buffer.length = s.m_buffer.length * 2 ^ k := by
  induction bits generalizing s with
  | nil => exact ⟨s, 0, rfl, h, by simp, rfl, by simp⟩
  | cons b bs ih =>
    obtain ⟨s1, h1, hc1, hw1, hr1⟩ := writebit_spec s b h
    have hl1 := writebit_buffer_length s s1 b h1
    obtain ⟨s2, k, h2, hc2, hw2, hr2, hl2⟩ := ih s1 hc1
    by_cases hfull : s.m_bufferWrite + 1 > s.m_buffer.length * 8
    · refine ⟨s2, k + 1, ?_, hc2, ?_, by rw [hr2, hr1], ?_⟩
      · simp only [writeEach, h1, Outcome.bind_ok, h2]
      · rw [hw2, hw1, List.append_assoc]; rfl
      · rw [hl2, hl1, if_pos hfull, Nat.pow_succ, Nat.mul_comm (2 ^ k) 2, ← Nat.mul_assoc,
          Nat.mul_comm 2]
    · refine ⟨s2, k, ?_, hc2, ?_, by rw [hr2, hr1], ?_⟩
      · simp only [writeEach, h1, Outcome.bind_ok, h2]
      · rw [hw2, hw1, List.append_assoc]; rfl
      · rw [hl2, hl1, if_neg hfull]

theorem readEach_spec (bits rest : List Bool) (s : BitStream) (h : unread s = bits ++ rest) :
    readEach bits.length s = bits := by
  induction bits generalizing s with
  | nil => rfl
  | cons b bs ih =>
    obtain ⟨h1, h2⟩ := readbit_cons s false b (bs ++ rest) h
    simp only [List.length_cons, readEach, h1]
    rw [ih (advance s 1) h2]

/-! ### Allocation in sequence and the reference encoding -/

theorem ser_eq_specSer (s : HTree) : s.ser = specSer s := by
  induction s with
  | leaf v =>
    simp only [HTree.ser, specSer]
    rw [msbBits_eq_map_testBit 8 v 8 0 (by decide), List.range_eq_range']
  | node l r ihl ihr => simp only [HTree.ser, specSer, ihl, ihr]

theorem allocEach_spec (vs : List Nat) (t : BinaryTree)
    (hsz : t.m_nodes.length + vs.length < 2 ^ 32) :
    (allocEach vs t).2 = List.range' (t.m_nodes.length + 1) vs.length
      ∧ (allocEach vs t).1.m_nodes = t.m_nodes ++ vs.map (fun v => Node.mk v 0 0) := by
  induction vs generalizing t with
  | nil => simp [allocEach]
  | cons v vs ih =>
    simp only [List.length_cons] at hsz
    obtain ⟨h1, h2⟩ := ih (t.allocNode v).1 (by rw [allocNode_length]; omega)
    rw [allocNode_length] at h1
    refine ⟨?_, ?_⟩
    · simp only [allocEach, h1, allocNode_id t v (by omega), List.length_cons,
        List.range'_succ]
    · simp only [allocEach, h2, List.map_cons]
      simp [BinaryTree.allocNode]

theorem allocEach_frame (vs : List Nat) (t : BinaryTree) (id : Nat) (d : Node)
    (h : t.validateId id = true) :
    (allocEach vs t).1.validateId id = true ∧ (allocEach vs t).1.getNode id d = t.getNode id d := by
  induction vs generalizing t with
  | nil => exact ⟨h, rfl⟩
  | cons v vs ih =>
    have hv : nodeAt (t.allocNode v).1 id = nodeAt t id := by
      rw [validateId_eq] at h
      obtain ⟨n, hn⟩ := Option.isSome_iff_exists.mp h
      rw [nodeAt_allocNode, if_neg]
      have := (nodeAt_some_bound hn).2
      omega
    have h' : (t.allocNode v).1.validateId id = true := by
      rw [validateId_eq, hv, ← validateId_eq]; exact h
    obtain ⟨h1, h2⟩ := ih (t.allocNode v).1 h'
    refine ⟨h1, ?_⟩
    show (allocEach vs (t.allocNode v).1).1.getNode id d = t.getNode id d
    rw [h2, getNode_eq, getNode_eq, hv]

theorem allocNode_id_replicate (n v : Nat) (d : Node) :
    (BinaryTree.allocNode ⟨List.replicate n d⟩ v).2 = (n + 1) % 2 ^ 32 := by
  simp only [BinaryTree.allocNode, List.length_replicate]

theorem nodeAt_allocNode_replicate (n v id : Nat) (d : Node) (h0 : 0 < id) (hn : id ≤ n) :
    nodeAt (BinaryTree.allocNode ⟨List.replicate n d⟩ v).1 id = some d := by
  rw [nodeAt_allocNode, if_neg (by simp only [List.length_replicate]; omega)]
  simp only [nodeAt, List.getElem?_replicate]
  rw [if_neg (by omega), if_pos (by omega)]

/-! ### A payload that ends inside a code -/

theorem follow_node_of_some {s : HTree} {p : List Bool} {l r : HTree}
    (h : s.follow p = some (HTree.node l r)) : ∃ l' r', s = HTree.node l' r' := by
  cases s with
  | leaf v =>
    cases p with
    | nil => simp [HTree.follow] at h
    | cons b p => simp [HTree.follow] at h
  | node l' r' => exact ⟨l', r', rfl⟩

/-- Reading steps that end at an inner node moves the decode cursor there and emits
nothing. -/
theorem decodeLoop_partial (bitcount : Nat) (t : BinaryTree) (root : Nat) (s : HTree)
    (cur fuel : Nat) (p rest : List Bool) (l r : HTree) (bs : BitStream) (out : List Nat)
    (he : Embeds t 0 s cur) (hf : s.follow p = some (HTree.node l r))
    (hu : unread bs = p ++ rest) (hr : bs.m_bufferRead + p.length ≤ bitcount)
    (hb : bitcount < 2 ^ 64) :
    ∃ cur', Embeds t 0 (HTree.node l r) cur'
      ∧ decodeLoop bitcount t root (fuel + p.length) cur bs out
        = decodeLoop bitcount t root fuel cur' (advance bs p.length) out := by
  induction p generalizing s cur bs with
  | nil =>
    simp only [HTree.follow, Option.some.injEq] at hf
    subst hf
    exact ⟨cur, he, rfl⟩
  | cons b p ih =>
    obtain ⟨l0, r0, rfl⟩ := follow_node_of_some hf
    obtain ⟨_, n, hn, hl, hr'⟩ := he
    simp only [List.length_cons, List.cons_append] at hr hu ⊢
    have hu' := (readbit_cons bs false b (p ++ rest) hu).2
    have hsub : Embeds t 0 (if b then r0 else l0) (if b then n.right else n.left) := by
      cases b
      · exact hl
      · exact hr'
    have hf' : (if b then r0 else l0).follow p = some (HTree.node l r) := by
      cases b <;> simpa [HTree.follow] using hf
    obtain ⟨l1, r1, h1⟩ := follow_node_of_some hf'
    rw [h1] at hsub hf'
    obtain ⟨cur', he', hd'⟩ := ih (HTree.node l1 r1) (if b then n.right else n.left)
      (advance bs 1) hsub hf' hu' (by simp only [advance]; omega)
    refine ⟨cur', he', ?_⟩
    rw [← Nat.add_assoc,
      decodeLoop_step bitcount t root _ cur bs out b (p ++ rest) (by omega) hb hu,
      getChildNode_eq t cur b n hn, isNodeLeaf_node hsub, if_neg (by simp), hd',
      advance_advance, Nat.add_comm 1]

/-- Reading the ways of the characters of a text from the root emits the text and leaves
the decode cursor at the root. -/
theorem decodeLoop_text_then (bitcount : Nat) (t : BinaryTree) (root : Nat) (s : HTree)
    (text : List Nat) (rest : List Bool) (fuel : Nat) (bs : BitStream) (out : List Nat)
    (he : Embeds t 0 s root)
    (hp : ∀ c, c ∈ text → ∃ bits, s.path c = some bits ∧ bits ≠ [])
    (hu : unread bs = text.flatMap (fun c => (s.path c).getD []) ++ rest)
    (hr : bs.m_bufferRead + (text.flatMap (fun c => (s.path c).getD [])).length ≤ bitcount)
    (hb : bitcount < 2 ^ 64) :
    decodeLoop bitcount t root
        (fuel + (text.flatMap (fun c => (s.path c).getD [])).length) root bs out
      = decodeLoop bitcount t root fuel root
          (advance bs (text.flatMap (fun c => (s.path c).getD [])).length) (out ++ text) := by
  induction text generalizing bs out with
  | nil => simp
  | cons c cs ih =>
    obtain ⟨bits, hbits, hne⟩ := hp c (List.mem_cons_self _ _)
    simp only [List.flatMap_cons, hbits, Option.getD_some, List.length_append,
      List.append_assoc] at hu hr ⊢
    rw [Nat.add_comm bits.length, ← Nat.add_assoc,
      decodeLoop_walk bitcount t root s root _ c bits _ bs out he hbits hne hu (by omega) hb,
      ih (advance bs bits.length) (out ++ [c]) (fun x hx => hp x (List.mem_cons_of_mem _ hx))
        (by rw [unread_advance, hu, List.drop_left]) (by simp only [advance]; omega),
      advance_advance, Nat.add_comm bits.length]
    simp

/-- A payload that holds a serialized tree, the codes of a text and then steps that end
at an inner node of the tree: `huffmanDecompress` returns the text. -/
theorem decompress_incomplete (s : HTree) (text : List Nat) (p pad : List Bool) (l r : HTree)
    (art : Artifact) (fuel : Nat)
    (hbytes : s.Bytes) (hsize : s.size < 2 ^ 32)
    (htext : ∀ c, c ∈ text → c ∈ s.leaves)
    (hfollow : s.follow p = some (HTree.node l r))
    (hbits : unread (BitStream.fromBytes art.payload art.bitcount)
      = s.ser ++ text.flatMap (fun c => (s.path c).getD []) ++ p ++ pad)
    (hcount : art.bitcount
      = (s.ser ++ text.flatMap (fun c => (s.path c).getD []) ++ p).length)
    (hlt : art.bitcount < 2 ^ 32) (hfuel : art.bitcount ≤ fuel) :
    huffmanDecompress fuel art = Outcome.ok text := by
  obtain ⟨l0, r0, hs⟩ := follow_node_of_some hfollow
  have hpath : ∀ c, c ∈ text → ∃ bits, s.path c = some bits ∧ bits ≠ [] := by
    intro c hc
    obtain ⟨bits, hb⟩ := path_of_mem_leaves s c (htext c hc)
    refine ⟨bits, hb, ?_⟩
    rw [hs] at hb
    exact path_node_ne_nil hb
  simp only [List.length_append] at hcount
  -- the payload holds all the bytes the header asks for
  have hlen := congrArg List.length hbits
  rw [unread_length] at hlen
  simp only [List.length_append, BitStream.fromBytes, BitStream.reserve, List.length_take,
    Nat.sub_zero] at hlen
  have hcb := calcByteCount_bounds art.bitcount
  have hpl : ¬ art.payload.length < calcByteCount art.bitcount := by
    intro hlt'
    rw [Nat.min_eq_right (Nat.le_of_lt hlt')] at hlen
    omega
  have htake : BitStream.fromBytes (art.payload.take (calcByteCount art.bitcount)) art.bitcount
      = BitStream.fromBytes art.payload art.bitcount := by
    simp only [BitStream.fromBytes, List.take_take, Nat.min_self]
  have hdepth := depth_lt_ser_length s
  rw [List.append_assoc, List.append_assoc] at hbits
  obtain ⟨t2, hd2, he2, _, _⟩ :=
    deserializeNode_spec s {} 0 fuel (BitStream.fromBytes art.payload art.bitcount) _ hbytes
      (by omega) hbits (by show 0 + _ < _; omega)
  simp only [huffmanDecompress, if_neg hpl, htake, hd2, Outcome.bind_ok]
  have e1 : ({} : BinaryTree).m_nodes.length + 1 = 1 := rfl
  have e0 : ({} : BinaryTree).m_nodes.length = 0 := rfl
  rw [e0] at he2
  obtain ⟨fuel', hfuel'⟩ : ∃ f, fuel
      = f + p.length + (text.flatMap (fun c => (s.path c).getD [])).length :=
    ⟨fuel - p.length - (text.flatMap (fun c => (s.path c).getD [])).length, by omega⟩
  have hr0 : (BitStream.fromBytes art.payload art.bitcount).m_bufferRead = 0 := rfl
  rw [hfuel', decodeLoop_text_then art.bitcount t2 1 s text (p ++ pad) _ _ [] he2 hpath
    (by rw [unread_advance, hbits, List.drop_left])
    (by simp only [advance, hr0]; omega) (by omega)]
  obtain ⟨cur', _, hd'⟩ := decodeLoop_partial art.bitcount t2 1 s 1 fuel' p pad l r
    (advance (advance (BitStream.fromBytes art.payload art.bitcount) s.ser.length)
      (text.flatMap (fun c => (s.path c).getD [])).length) ([] ++ text) he2 hfollow
    (by rw [unread_advance, unread_advance, hbits, List.drop_left, List.drop_left])
    (by simp only [advance, hr0]; omega) (by omega)
  rw [hd', decodeLoop_stop _ _ _ _ _ _ _ (by simp only [advance, hr0]; omega)]
  rfl

/-! ### The arena of a built tree -/

theorem walk_zero (t : BinaryTree) (p : List Bool) : walk t 0 p = 0 := by
  induction p with
  | nil => rfl
  | cons b p ih =>
    have h0 : t.getChildNode 0 b = 0 := by
      cases b <;> simp [BinaryTree.getChildNode, getChildNodeLeft_eq, getChildNodeRight_eq,
        nodeAt_zero]
    simp only [walk, h0, ih]

theorem embeds_of_mem_ids {t : BinaryTree} {lo : Nat} {s : HTree} {id x : Nat}
    (h : Embeds t lo s id) (hx : x ∈ idsUnder t s id) : ∃ s', Embeds t lo s' x := by
  induction s generalizing id with
  | leaf v =>
    simp only [idsUnder, List.mem_singleton] at hx
    subst hx
    exact ⟨_, h⟩
  | node l r ihl ihr =>
    have h' := h
    obtain ⟨_, n, hn, hl, hr⟩ := h'
    simp only [idsUnder, getChildNodeLeft_eq, getChildNodeRight_eq, hn, List.mem_cons,
      List.mem_append] at hx
    rcases hx with rfl | hx | hx
    · exact ⟨_, h⟩
    · exact ihl hl hx
    · exact ihr hr hx

theorem walk_mem_ids {t : BinaryTree} {lo : Nat} {s : HTree} {id : Nat}
    (h : Embeds t lo s id) (p : List Bool) : walk t id p ∈ idsUnder t s id ∨ walk t id p = 0 := by
  induction s generalizing id p with
  | leaf v =>
    cases p with
    | nil => left; simp [walk, idsUnder]
    | cons b p =>
      right
      have h0 : t.getChildNode id b = 0 := by
        rw [getChildNode_eq t id b _ h.2]; cases b <;> rfl
      simp only [walk, h0, walk_zero]
  | node l r ihl ihr =>
    obtain ⟨_, n, hn, hl, hr⟩ := h
    cases p with
    | nil => left; simp [walk, idsUnder]
    | cons b p =>
      simp only [walk, idsUnder, getChildNodeLeft_eq, getChildNodeRight_eq, hn,
        getChildNode_eq t id b n hn, List.mem_cons, List.mem_append]
      cases b
      · rcases ihl hl p with h1 | h1
        · exact Or.inl (Or.inr (Or.inl h1))
        · exact Or.inr h1
      · rcases ihr hr p with h1 | h1
        · exact Or.inl (Or.inr (Or.inr h1))
        · exact Or.inr h1

/-- In a subtree whose node ids are all different every node is reached from the top
along exactly one way. -/
theorem walk_unique {t : BinaryTree} {lo : Nat} {s : HTree} {id x : Nat}
    (h : Embeds t lo s id) (hnd : (idsUnder t s id).Nodup) (hx : x ∈ idsUnder t s id) :
    ∃ p, walk t id p = x ∧ ∀ q, walk t id q = x → q = p := by
  have hx0 : x ≠ 0 := by
    obtain ⟨s', hs'⟩ := embeds_of_mem_ids h hx
    have := hs'.lo_lt
    omega
  induction s generalizing id x with
  | leaf v =>
    simp only [idsUnder, List.mem_singleton] at hx
    subst hx
    refine ⟨[], rfl, ?_⟩
    intro q hq
    cases q with
    | nil => rfl
    | cons b q =>
      have h0 : t.getChildNode x b = 0 := by
        rw [getChildNode_eq t x b _ h.2]; cases b <;> rfl
      simp only [walk, h0, walk_zero] at hq
      exact absurd hq.symm hx0
  | node l r ihl ihr =>
    obtain ⟨_, n, hn, hl, hr⟩ := h
    simp only [idsUnder, getChildNodeLeft_eq, getChildNodeRight_eq, hn, List.nodup_cons,
      List.mem_append, not_or, List.nodup_append] at hnd
    obtain ⟨⟨hidl, hidr⟩, hndl, hndr, hdisj⟩ := hnd
    simp only [idsUnder, getChildNodeLeft_eq, getChildNodeRight_eq, hn, List.mem_cons,
      List.mem_append] at hx
    rcases hx with rfl | hx | hx
    · refine ⟨[], rfl, ?_⟩
      intro q hq
      cases q with
      | nil => rfl
      | cons b q =>
        simp only [walk, getChildNode_eq t x b n hn] at hq
        cases b
        · have hq' : walk t n.left q = x := hq
          rcases walk_mem_ids hl q with h1 | h1
          · rw [hq'] at h1; exact absurd h1 hidl
          · rw [hq'] at h1; exact absurd h1 hx0
        · have hq' : walk t n.right q = x := hq
          rcases walk_mem_ids hr q with h1 | h1
          · rw [hq'] at h1; exact absurd h1 hidr
          · rw [hq'] at h1; exact absurd h1 hx0
    · obtain ⟨p, hp, hu⟩ := ihl hl hndl hx hx0
      refine ⟨false :: p, by simp only [walk, getChildNode_eq t id false n hn]; exact hp, ?_⟩
      intro q hq
      cases q with
      | nil =>
        simp only [walk] at hq
        rw [hq] at hidl
        exact absurd hx hidl
      | cons b q =>
        simp only [walk, getChildNode_eq t id b n hn] at hq
        cases b
        · rw [hu q hq]
        · have hq' : walk t n.right q = x := hq
          rcases walk_mem_ids hr q with h1 | h1
          · rw [hq'] at h1; exact absurd h1 (fun h2 => hdisj hx h2)
          · rw [hq'] at h1; exact absurd h1 hx0
    · obtain ⟨p, hp, hu⟩ := ihr hr hndr hx hx0
      refine ⟨true :: p, by simp only [walk, getChildNode_eq t id true n hn]; exact hp, ?_⟩
      intro q hq
      cases q with
      | nil =>
        simp only [walk] at hq
        rw [hq] at hidr
        exact absurd hx hidr
      | cons b q =>
        simp only [walk, getChildNode_eq t id b n hn] at hq
        cases b
        · have hq' : walk t n.left q = x := hq
          rcases walk_mem_ids hl q with h1 | h1
          · rw [hq'] at h1; exact absurd hx (fun h2 => hdisj h1 h2)
          · rw [hq'] at h1; exact absurd h1 hx0
        · rw [hu q hq]

theorem leaves_of_ids {t : BinaryTree} {lo : Nat} {s : HTree} {id : Nat}
    (h : Embeds t lo s id) :
    (((idsUnder t s id).filter fun i => t.isNodeLeaf i).map fun i => (t.getNodeValue i 0).2)
      = s.leaves := by
  induction s generalizing id with
  | leaf v =>
    simp only [idsUnder, List.filter_cons, isNodeLeaf_leaf h, if_true, List.filter_nil,
      List.map_cons, List.map_nil, getNodeValue_eq, h.2, HTree.leaves]
  | node l r ihl ihr =>
    have hnode := isNodeLeaf_node h
    obtain ⟨_, n, hn, hl, hr⟩ := h
    simp only [idsUnder, List.filter_cons, hnode, Bool.false_eq_true, if_false,
      List.filter_append, List.map_append, getChildNodeLeft_eq, getChildNodeRight_eq, hn,
      HTree.leaves]
    rw [ihl hl, ihr hr]

theorem leaf_or_two_children {t : BinaryTree} {lo : Nat} {s : HTree} {id : Nat}
    (h : Embeds t lo s id) :
    (t.getChildNodeLeft id = 0 ∧ t.getChildNodeRight id = 0)
      ∨ (t.isNode (t.getChildNodeLeft id) = true ∧ t.isNode (t.getChildNodeRight id) = true) := by
  cases s with
  | leaf v =>
    left
    simp only [getChildNodeLeft_eq, getChildNodeRight_eq, h.2, and_self]
  | node l r =>
    right
    obtain ⟨_, n, hn, hl, hr⟩ := h
    simp only [getChildNodeLeft_eq, getChildNodeRight_eq, hn]
    exact ⟨isNode_of_embeds hl, isNode_of_embeds hr⟩

theorem size_add_one (s : HTree) : s.size + 1 = 2 * s.leaves.length := by
  induction s with
  | leaf v => rfl
  | node l r ihl ihr =>
    simp only [HTree.size, HTree.leaves, List.length_append]
    omega

/-- The arena that the tree part of `huffmanCompress` leaves behind for a text with at
least two counted symbols: a full binary tree under the root that takes up the whole
arena, with one leaf for each counted symbol. -/
theorem buildTree_arena (pq : PQueue) (text : List Nat) (t : BinaryTree) (root : Nat)
    (htree : buildTree pq text = Outcome.ok (t, root))
    (htwo : 2 ≤ (countedSymbols text).length) :
    t.isNode root = true
      ∧ (∀ id, t.isNode id = true →
          (t.getChildNodeLeft id = 0 ∧ t.getChildNodeRight id = 0)
            ∨ (t.isNode (t.getChildNodeLeft id) = true
              ∧ t.isNode (t.getChildNodeRight id) = true))
      ∧ (leafValues t).Perm (countedSymbols text)
      ∧ (countedSymbols text).Nodup
      ∧ t.m_nodes.length + 1 = 2 * (countedSymbols text).length
      ∧ ∀ id, t.isNode id = true →
          ∃ p, walk t root p = id ∧ ∀ q, walk t root q = id → q = p := by
  have hb := bytes_of_buildTree pq text (t, root) htree
  obtain ⟨table, t', root', _, h2, h3, h4⟩ := buildTree_spec pq text hb
  rw [htree] at h3
  simp only [Outcome.ok.injEq, Prod.mk.injEq] at h3
  obtain ⟨rfl, rfl⟩ := h3
  have hsym : symbolsOf table = countedSymbols text :=
    symbolsOf_eq_filter (fun i => text.count i) table h2
  have hnd : (symbolsOf table).Nodup := symbolsOf_nodup _ table h2
  rw [hsym] at h4 hnd
  rcases h4 with ⟨hk, _⟩ | ⟨_, sl, sr, he, _, _, hl, hids, _⟩
  · omega
  have hmem : ∀ id, t.isNode id = true → id ∈ idsUnder t (HTree.node sl sr) root := by
    intro id hid
    apply hids.symm.subset
    simp only [BinaryTree.isNode, BinaryTree.validateId, Bool.and_eq_true,
      decide_eq_true_eq] at hid
    rw [List.mem_range'_1]
    omega
  have hnd' : (idsUnder t (HTree.node sl sr) root).Nodup :=
    hids.nodup_iff.mpr (List.nodup_range' 1 t.m_nodes.length)
  refine ⟨isNode_of_embeds he, ?_, ?_, hnd, ?_, ?_⟩
  · intro id hid
    obtain ⟨s', hs'⟩ := embeds_of_mem_ids he (hmem id hid)
    exact leaf_or_two_children hs'
  · refine List.Perm.trans ?_ hl
    rw [← leaves_of_ids he]
    unfold leafValues
    exact (hids.symm.filter _).map _
  · have h1 := hids.length_eq
    rw [idsUnder_length, List.length_range'] at h1
    rw [← h1, size_add_one, hl.length_eq]
  · intro id hid
    exact walk_unique he hnd' (hmem id hid)

/-! ### Texts in which every byte is counted -/

theorem length_le_length_flatMap {α β : Type} (f : α → List β) (l : List α)
    (h : ∀ a, a ∈ l → 1 ≤ (f a).length) : l.length ≤ (l.flatMap f).length := by
  induction l with
  | nil => simp
  | cons a as ih =>
    have h1 := h a (List.mem_cons_self _ _)
    have h2 := ih (fun x hx => h x (List.mem_cons_of_mem _ hx))
    simp only [List.flatMap_cons, List.length_append, List.length_cons]
    omega

theorem flatMap_replicate_nil {α β : Type} (f : α → List β) (a : α) (n : Nat) (h : f a = []) :
    (List.replicate n a).flatMap f = [] := by
  induction n with
  | zero => rfl
  | succ n ih => rw [List.replicate_succ, List.flatMap_cons, h, ih]; rfl

theorem symbolsOf_mem_of_count {text : List Nat} {table : List SCharacter}
    (h : TableOf (fun i => text.count i) table) {c : Nat}
    (hc : text.count c % 2 ^ 32 ≠ 0) (h0 : 0 < c) (h255 : c < tableSize) :
    c ∈ symbolsOf table := by
  rw [symbolsOf_eq_filter (fun i => text.count i) table h, List.mem_filter, List.mem_range]
  exact ⟨h255, by simpa using ⟨hc, h0⟩⟩

/-- When every byte of the text is counted (its number of occurrences is not a multiple of
`2^32`) and the tree is at most 32 deep, every byte adds at least one bit to the stream,
so the text is not longer than the stream. -/
theorem length_le_bitCount (pq : PQueue) (text : List Nat) (t : BinaryTree) (root : Nat)
    (bs : BitStream)
    (hbytes : ∀ b, b ∈ text → 1 ≤ b ∧ b ≤ 127)
    (htwo : ∃ a, a ∈ text ∧ ∃ b, b ∈ text ∧ a ≠ b)
    (hcount : ∀ b, b ∈ text → text.count b % 2 ^ 32 ≠ 0)
    (htree : buildTree pq text = Outcome.ok (t, root))
    (hdepth : treeDepth t.m_nodes.length t root ≤ 32)
    (hstream : compressStream pq text = Outcome.ok bs) :
    text.length ≤ bs.getBitCount := by
  obtain ⟨table, t', root', bs', h1, h2, h3, h4, h5⟩ :=
    compressStream_spec pq text (fun b hb => by have := hbytes b hb; omega)
  rw [htree] at h3
  rw [hstream] at h4
  simp only [Outcome.ok.injEq, Prod.mk.injEq] at h3 h4
  obtain ⟨rfl, rfl⟩ := h3
  subst h4
  obtain ⟨a, ha, b, hb, hab⟩ := htwo
  have hmem : ∀ c, c ∈ text → c ∈ symbolsOf table := fun c hc =>
    symbolsOf_mem_of_count h2 (hcount c hc) (hbytes c hc).1
      (by have := (hbytes c hc).2; unfold tableSize; omega)
  have hk : 2 ≤ (symbolsOf table).length := two_le_length_of_mem (hmem a ha) (hmem b hb) hab
  rcases h5 with ⟨hk', _⟩ | ⟨_, sl, sr, he, hd, hby, hl, hc, hw⟩
  · omega
  have hdep : (HTree.node sl sr).depth ≤ 32 := by
    rw [← treeDepth_eq t 0 _ root t.m_nodes.length he (by have := he.le_length; omega)]
    exact hdepth
  have hlen := congrArg List.length hw
  rw [written_length, ← hc.size, List.length_append] at hlen
  have hflat := length_le_length_flatMap (fun c => codeBits (HTree.node sl sr) (c % 256)) text
    (by
      intro c hc
      obtain ⟨bits, hbits⟩ := path_of_mem_leaves _ c (hl.symm.subset (hmem c hc))
      have hc256 : c % 256 = c := Nat.mod_eq_of_lt (by have := (hbytes c hc).2; omega)
      simp only [hc256, codeBits, hbits]
      rw [writeBits_packPattern bits
        (Nat.le_trans (path_length_le_depth _ c bits hbits) hdep)]
      exact List.length_pos.mpr (path_node_ne_nil hbits))
  show text.length ≤ bs.m_bufferSize
  omega

/-- Round trip for the texts in which every byte is counted. -/
theorem roundtrip_counted (pq : PQueue) (text : List Nat) (t : BinaryTree) (root : Nat)
    (bs : BitStream)
    (hbytes : ∀ b, b ∈ text → 1 ≤ b ∧ b ≤ 127)
    (htwo : ∃ a, a ∈ text ∧ ∃ b, b ∈ text ∧ a ≠ b)
    (hcount : ∀ b, b ∈ text → text.count b % 2 ^ 32 ≠ 0)
    (htree : buildTree pq text = Outcome.ok (t, root))
    (hdepth : treeDepth t.m_nodes.length t root ≤ 32)
    (hstream : compressStream pq text = Outcome.ok bs)
    (hbits : bs.getBitCount < 2 ^ 32) :
    ∃ art, huffmanCompress pq text = Outcome.ok art
      ∧ ∀ fuel, bs.getBitCount ≤ fuel → huffmanDecompress fuel art = Outcome.ok text :=
  roundtrip_core pq text t root bs hbytes htwo
    (Nat.lt_of_le_of_lt
      (length_le_bitCount pq text t root bs hbytes htwo hcount htree hdepth hstream) hbits)
    htree hdepth hstream hbits

theorem wrapText_mem (c : Nat) : c ∈ wrapText ↔ c = 97 ∨ c = 98 ∨ c = 99 := by
  simp only [wrapText, blocks, List.append_nil, List.mem_append, List.mem_replicate]
  constructor
  · rintro (h | h | h)
    · exact Or.inl h.2
    · exact Or.inr (Or.inl h.2)
    · exact Or.inr (Or.inr h.2)
  · rintro (h | h | h)
    · exact Or.inl ⟨by decide, h⟩
    · exact Or.inr (Or.inl ⟨by decide, h⟩)
    · exact Or.inr (Or.inr ⟨by decide, h⟩)

set_option maxRecDepth 100000 in
theorem buildTree_wrapText :
    buildTree listQueue wrapText = Outcome.ok (⟨[⟨98, 0, 0⟩, ⟨99, 0, 0⟩, ⟨0, 1, 2⟩]⟩, 3) := by
  have h : fillTable wrapText (List.replicate tableSize {})
      = Outcome.ok (bumpAll [2 ^ 32, 1, 2] 97 (List.replicate tableSize {})) :=
    fillTable_blocks [2 ^ 32, 1, 2] 97 _ (by decide) (by simp)
  unfold buildTree
  rw [h]
  decide

set_option maxRecDepth 100000 in
/-- What `huffmanCompress` and `huffmanDecompress` do with `wrapText`: the counter of `a`
has wrapped to zero, so the tree holds `b` and `c` only, the stream has 22 bits and the
decoded text is `b c c`. -/

theorem wrapText_run :
    ∃ bs art, compressStream listQueue wrapText = Outcome.ok bs
      ∧ huffmanCompress listQueue wrapText = Outcome.ok art
      ∧ bs.getBitCount = 22
      ∧ art.bitcount = 22
      ∧ ∀ fuel, 22 ≤ fuel → huffmanDecompress fuel art = Outcome.ok [98, 99, 99] := by
  have hb : ∀ b, b ∈ wrapText → b < 128 := by
    intro b hb
    rcases (wrapText_mem b).mp hb with h | h | h <;> omega
  obtain ⟨_, t, root, bs, _, _, h3, h4, h5⟩ := compressStream_spec listQueue wrapText hb
  rw [buildTree_wrapText] at h3
  simp only [Outcome.ok.injEq, Prod.mk.injEq] at h3
  obtain ⟨rfl, rfl⟩ := h3
  rcases h5 with ⟨_, h0, _⟩ | ⟨_, sl, sr, he, _, _, _, hc, hw⟩
  · cases h0
  have hs : HTree.node sl sr = HTree.node (HTree.leaf 98) (HTree.leaf 99) :=
    he.unique ⟨by decide, ⟨0, 1, 2⟩, rfl, ⟨by decide, rfl⟩, ⟨by decide, rfl⟩⟩
  rw [hs] at hw
  have hcodes : wrapText.flatMap
      (fun c => codeBits (HTree.node (HTree.leaf 98) (HTree.leaf 99)) (c % 256))
      = [false, true, true] := by
    simp only [wrapText, blocks, List.flatMap_append]
    rw [flatMap_replicate_nil _ 97 _ (by decide)]
    decide
  rw [hcodes] at hw
  have hcount : bs.getBitCount = 22 := by
    have hlen := congrArg List.length hw
    rw [written_length, ← hc.size] at hlen
    rw [BitStream.getBitCount, hlen]
    decide
  have hmod : bs.getBitCount % 2 ^ 32 = bs.getBitCount := by rw [hcount]; decide
  refine ⟨bs, ⟨bs.getBitCount % 2 ^ 32, bs.getBitBuffer⟩, h4,
    by simp only [huffmanCompress, h4, Outcome.bind_ok], hcount, by rw [hmod, hcount], ?_⟩
  intro fuel hfuel
  obtain ⟨pad, hpad⟩ := unread_fromBytes bs hc
  rw [hw] at hpad
  have hlen22 : ((HTree.node (HTree.leaf 98) (HTree.leaf 99)).ser
      ++ List.flatMap [98, 99, 99]
        (fun c => ((HTree.node (HTree.leaf 98) (HTree.leaf 99)).path c).getD [])
      ++ ([] : List Bool)).length = 22 := by decide
  have hflat : List.flatMap [98, 99, 99]
      (fun c => ((HTree.node (HTree.leaf 98) (HTree.leaf 99)).path c).getD [])
      = [false, true, true] := by decide
  refine decompress_incomplete (HTree.node (HTree.leaf 98) (HTree.leaf 99)) [98, 99, 99] [] pad
    (HTree.leaf 98) (HTree.leaf 99) ⟨bs.getBitCount % 2 ^ 32, bs.getBitBuffer⟩ fuel
    ⟨(by decide : 98 < 256), (by decide : 99 < 256)⟩ (by decide) (by decide) rfl ?_ ?_ ?_ ?_
  · show unread (BitStream.fromBytes bs.getBitBuffer (bs.getBitCount % 2 ^ 32)) = _
    rw [hmod, hpad, hflat, List.append_nil]
  · show bs.getBitCount % 2 ^ 32 = _
    rw [hmod, hcount, hlen22]
  · show bs.getBitCount % 2 ^ 32 < _
    rw [hmod, hcount]; decide
  · show bs.getBitCount % 2 ^ 32 ≤ _
    rw [hmod, hcount]; exact hfuel

/-! ### Weights under a node -/

theorem weightUnder_eq (cnt : Nat → Nat) (t : BinaryTree) (lo : Nat) (s : HTree) (id fuel : Nat)
    (he : Embeds t lo s id) (hf : s.depth < fuel) :
    weightUnder cnt fuel t id = HTree.weight cnt s := by
  induction s generalizing id fuel with
  | leaf v =>
    cases fuel with
    | zero => cases hf
    | succ fuel =>
      simp [weightUnder, isNodeLeaf_leaf he, isNode_of_embeds he, HTree.weight,
        getNodeValue_eq, he.2]
  | node l r ihl ihr =>
    cases fuel with
    | zero => cases hf
    | succ fuel =>
      have hleaf := isNodeLeaf_node he
      have hnode := isNode_of_embeds he
      obtain ⟨_, n, hn, hl, hr⟩ := he
      simp only [HTree.depth] at hf
      simp only [weightUnder, hnode, hleaf, Bool.not_true, Bool.false_eq_true,
        if_false, getChildNodeLeft_eq, getChildNodeRight_eq, hn, HTree.weight,
        ihl n.left fuel hl (by omega), ihr n.right fuel hr (by omega)]

/-- A node reached inside a right-heavy shape carries a right-heavy shape that is not
deeper. -/
theorem rightHeavy_of_mem_ids {cnt : Nat → Nat} {t : BinaryTree} {lo : Nat} {s : HTree}
    {id x : Nat} (h : Embeds t lo s id) (hr : RightHeavy cnt s) (hx : x ∈ idsUnder t s id) :
    ∃ s', Embeds t lo s' x ∧ RightHeavy cnt s' ∧ s'.depth ≤ s.depth := by
  induction s generalizing id with
  | leaf v =>
    simp only [idsUnder, List.mem_singleton] at hx
    subst hx
    exact ⟨_, h, hr, Nat.le_refl _⟩
  | node l r ihl ihr =>
    have h' := h
    obtain ⟨_, n, hn, hl, hr'⟩ := h'
    simp only [idsUnder, getChildNodeLeft_eq, getChildNodeRight_eq, hn, List.mem_cons,
      List.mem_append] at hx
    rcases hx with rfl | hx | hx
    · exact ⟨_, h, hr, Nat.le_refl _⟩
    · obtain ⟨s', h1, h2, h3⟩ := ihl hl hr.2.1 hx
      refine ⟨s', h1, h2, ?_⟩
      simp only [HTree.depth]
      omega
    · obtain ⟨s', h1, h2, h3⟩ := ihr hr' hr.2.2 hx
      refine ⟨s', h1, h2, ?_⟩
      simp only [HTree.depth]
      omega

/-- The entries of a frequency table listed by index. -/
theorem tableOf_eq_map (cnt : Nat → Nat) (table : List SCharacter) (h : TableOf cnt table) :
    table = (List.range tableSize).map
      (fun i => ({ frequency := cnt i % 2 ^ 32, charCode := if cnt i = 0 then 0 else i }
        : SCharacter)) := by
  apply List.ext_getElem
  · simp [h.1]
  · intro i h1 h2
    have hi : i < tableSize := by rw [← h.1]; exact h1
    have := h.2 i hi
    rw [List.getD_eq_getElem _ _ h1] at this
    simp [this]

/-- The forest that the queue fill builds: a leaf for every index above zero with a
non-zero 32-bit count, weighted with that count. -/
theorem leafForest_eq (cnt : Nat → Nat) (table : List SCharacter) (h : TableOf cnt table) :
    leafForest table
      = ((List.range tableSize).filter (fun i => decide (cnt i % 2 ^ 32 ≠ 0 ∧ 0 < i))).map
          (fun i => (cnt i % 2 ^ 32, HTree.leaf i)) := by
  have ht := tableOf_eq_map cnt table h
  rw [leafForest]
  conv_lhs => rw [ht]
  rw [List.filter_map, List.map_map]
  have hf : ∀ i, ((fun e : SCharacter => decide (e.frequency ≠ 0 ∧ e.charCode > 0)) ∘
      (fun i => ({ frequency := cnt i % 2 ^ 32, charCode := if cnt i = 0 then 0 else i }
        : SCharacter))) i = decide (cnt i % 2 ^ 32 ≠ 0 ∧ 0 < i) := by
    intro i
    simp only [Function.comp_apply, decide_eq_decide]
    constructor
    · rintro ⟨h1, h2⟩
      refine ⟨h1, ?_⟩
      split at h2 <;> omega
    · rintro ⟨h1, h2⟩
      refine ⟨h1, ?_⟩
      have : cnt i ≠ 0 := by intro h0; rw [h0] at h1; exact h1 rfl
      rw [if_neg this]; exact h2
  rw [List.filter_congr (fun i _ => hf i)]
  apply List.map_congr_left
  intro i hi
  simp only [List.mem_filter, decide_eq_true_eq] at hi
  have : cnt i ≠ 0 := by intro h0; rw [h0] at hi; exact hi.2.1 rfl
  simp [this]

theorem count_add_length_filter_ne (a : Nat) (text : List Nat) :
    text.count a + (text.filter fun x => decide (x ≠ a)).length = text.length := by
  induction text with
  | nil => rfl
  | cons x xs ihx =>
    by_cases hx : x = a
    · subst hx
      simp only [List.count_cons_self, List.filter_cons, ne_eq, not_true_eq_false,
        decide_False, Bool.false_eq_true, if_false, List.length_cons]
      simp only [ne_eq] at ihx
      omega
    · rw [List.count_cons_of_ne (Ne.symm hx)]
      simp only [List.filter_cons, ne_eq, hx, not_false_eq_true, decide_True, if_true,
        List.length_cons]
      simp only [ne_eq] at ihx
      omega

/-- The occurrences of different values in a text do not add up to more than its
length. -/
theorem sum_count_le_length (l text : List Nat) (h : l.Nodup) :
    (l.map fun c => text.count c).sum ≤ text.length := by
  induction l generalizing text with
  | nil => simp
  | cons a l ih =>
    have hnd := List.nodup_cons.mp h
    have h1 : (l.map fun c => text.count c).sum
        = (l.map fun c => (text.filter fun x => decide (x ≠ a)).count c).sum := by
      congr 1
      apply List.map_congr_left
      intro c hc
      have hca : c ≠ a := fun e => hnd.1 (e ▸ hc)
      rw [List.count_filter]
      simpa using hca
    have h2 := ih (text.filter fun x => decide (x ≠ a)) hnd.2
    have h3 := count_add_length_filter_ne a text
    rw [List.map_cons, List.sum_cons, h1]
    omega

/-- Along the merge loop, when every entry carries the weight of its tree and the weights
add up to less than `2^32`, the final tree is right-heavy and weighs the total. -/
theorem huffRun_rightHeavy (cnt : Nat → Nat) (g : List (Nat × HTree)) (s : HTree)
    (hrun : HuffRun g s)
    (hw : ∀ p, p ∈ g → p.1 = HTree.weight cnt p.2)
    (hr : ∀ p, p ∈ g → RightHeavy cnt p.2)
    (hsum : (g.map fun p => HTree.weight cnt p.2).sum < 2 ^ 32) :
    RightHeavy cnt s ∧ HTree.weight cnt s = (g.map fun p => HTree.weight cnt p.2).sum := by
  induction hrun with
  | done f s =>
    exact ⟨hr (f, s) (List.mem_singleton.mpr rfl), by simp⟩
  | step g g' s hstep _ ih =>
    obtain ⟨a, b, rest, hp, hmina, _, hp'⟩ := hstep
    have hma : a ∈ g := hp.symm.subset (List.mem_cons_self _ _)
    have hmb : b ∈ g := hp.symm.subset (List.mem_cons_of_mem _ (List.mem_cons_self _ _))
    have hmr : ∀ x, x ∈ rest → x ∈ g := fun x hx =>
      hp.symm.subset (List.mem_cons_of_mem _ (List.mem_cons_of_mem _ hx))
    have hs : (g.map fun p => HTree.weight cnt p.2).sum
        = HTree.weight cnt a.2 + HTree.weight cnt b.2
          + (rest.map fun p => HTree.weight cnt p.2).sum := by
      rw [(hp.map _).sum_eq]
      simp only [List.map_cons, List.sum_cons]
      omega
    have hs' : (g'.map fun p => HTree.weight cnt p.2).sum
        = (g.map fun p => HTree.weight cnt p.2).sum := by
      rw [(hp'.map _).sum_eq, hs]
      simp only [List.map_cons, List.sum_cons, HTree.weight]
    have hab : (a.1 + b.1) % 2 ^ 32 = HTree.weight cnt a.2 + HTree.weight cnt b.2 := by
      rw [hw a hma, hw b hmb]
      apply Nat.mod_eq_of_lt
      omega
    have hle : HTree.weight cnt a.2 ≤ HTree.weight cnt b.2 := by
      rw [← hw a hma, ← hw b hmb]
      exact hmina b (List.mem_cons_self _ _)
    have := ih
      (by
        intro p hp1
        rcases List.mem_cons.mp (hp'.subset hp1) with rfl | hp2
        · exact hab
        · exact hw p (hmr p hp2))
      (by
        intro p hp1
        rcases List.mem_cons.mp (hp'.subset hp1) with rfl | hp2
        · exact ⟨hle, hr a hma, hr b hmb⟩
        · exact hr p (hmr p hp2))
      (by rw [hs']; exact hsum)
    rw [hs'] at this
    exact this

/-! ### The merge step and the order of the two sides -/

/-- One pass of the merge loop, entry by entry: the two entries taken are two of least
frequency, the first becomes the left and the second the right child of the new node,
and the new entry carries the 32-bit sum of their frequencies. -/
theorem mergeStep_detail (pq : PQueue) (t : BinaryTree) (q : pq.σ) (h2 : 2 ≤ pq.size q)
    (hsz : t.m_nodes.length + 1 < 2 ^ 32) :
    (pq.elems q).Perm (pq.top q :: pq.top (pq.pop q) :: pq.elems (pq.pop (pq.pop q)))
      ∧ (∀ x, x ∈ pq.top (pq.pop q) :: pq.elems (pq.pop (pq.pop q)) →
          (pq.top q).frequency ≤ x.frequency)
      ∧ (∀ x, x ∈ pq.elems (pq.pop (pq.pop q)) → (pq.top (pq.pop q)).frequency ≤ x.frequency)
      ∧ (mergeStep pq t q).2.2 = t.m_nodes.length + 1
      ∧ (mergeStep pq t q).1.getChildNodeLeft (t.m_nodes.length + 1) = (pq.top q).treeNode
      ∧ (mergeStep pq t q).1.getChildNodeRight (t.m_nodes.length + 1)
          = (pq.top (pq.pop q)).treeNode
      ∧ (pq.elems (mergeStep pq t q).2.1).Perm
          ({ frequency := ((pq.top (pq.pop q)).frequency + (pq.top q).frequency) % 2 ^ 32,
             charCode := 0, treeNode := t.m_nodes.length + 1 }
            :: pq.elems (pq.pop (pq.pop q))) := by
  have hne : pq.elems q ≠ [] := by
    intro h0
    rw [pq.size_eq, h0] at h2
    cases h2
  have hp1 := pq.pop_perm q hne
  have hne1 : pq.elems (pq.pop q) ≠ [] := by
    intro h0
    have := hp1.length_eq
    rw [h0, ← pq.size_eq] at this
    simp only [List.length_cons, List.length_nil] at this
    omega
  have hp2 := pq.pop_perm (pq.pop q) hne1
  have hperm : (pq.elems q).Perm
      (pq.top q :: pq.top (pq.pop q) :: pq.elems (pq.pop (pq.pop q))) :=
    hp1.symm.trans (List.Perm.cons _ hp2.symm)
  have hmin0 : ∀ x, x ∈ pq.top (pq.pop q) :: pq.elems (pq.pop (pq.pop q)) →
      (pq.top q).frequency ≤ x.frequency := by
    intro x hx
    exact pq.top_min q x (hperm.symm.subset (List.mem_cons_of_mem _ hx))
  have hmin1 : ∀ x, x ∈ pq.elems (pq.pop (pq.pop q)) →
      (pq.top (pq.pop q)).frequency ≤ x.frequency := by
    intro x hx
    exact pq.top_min (pq.pop q) x (hp2.subset (List.mem_cons_of_mem _ hx))
  have hle : ¬ ((pq.top q).frequency > (pq.top (pq.pop q)).frequency) :=
    Nat.not_lt.mpr (hmin0 _ (List.mem_cons_self _ _))
  have hid := allocNode_id t 0 hsz
  refine ⟨hperm, hmin0, hmin1, ?_, ?_, ?_, ?_⟩
  · simp only [mergeStep, hid]
  · simp only [mergeStep, hid, if_neg hle]
    rw [getChildNodeLeft_eq, nodeAt_newParent, if_pos rfl]
  · simp only [mergeStep, hid, if_neg hle]
    rw [getChildNodeRight_eq, nodeAt_newParent, if_pos rfl]
  · simp only [mergeStep, hid]
    exact pq.push_perm _ _

/-- With at most one counted symbol the merge loop does not run: every node of the tree
is a leaf. -/
theorem buildTree_few_leaves (pq : PQueue) (text : List Nat) (t : BinaryTree) (root : Nat)
    (htree : buildTree pq text = Outcome.ok (t, root))
    (hk : (countedSymbols text).length ≤ 1) :
    ∀ id, t.isNode id = true → t.isNodeLeaf id = true := by
  have hb := bytes_of_buildTree pq text (t, root) htree
  obtain ⟨table, h1, h2⟩ := fillTable_spec text (fun _ => 0) _ tableOf_init hb
  simp only [Nat.zero_add] at h2
  have hsym : symbolsOf table = countedSymbols text :=
    symbolsOf_eq_filter (fun i => text.count i) table h2
  obtain ⟨g, hF, _, hlen, hn, hids, hfr⟩ :=
    fillQueue_spec pq table {} pq.empty [] (forest_empty pq) (tableOf_charCode_lt h2)
      (by rw [h2.1]; decide)
  have e2 : freqForest [] = [] := rfl
  rw [e2, List.nil_append] at hfr
  have e0 : idsOf {} [] = [] := rfl
  have e1 : ({} : BinaryTree).m_nodes.length = 0 := rfl
  rw [e0, e1] at hids
  rw [e1] at hn
  simp only [List.nil_append, List.length_nil, Nat.zero_add] at hlen hn hids
  have hsize : pq.size (fillQueue pq table {} pq.empty).2 ≤ 1 := by
    rw [pq.size_eq, ← hF.length_eq, hlen, hsym]
    exact hk
  simp only [buildTree, h1, Outcome.bind_ok] at htree
  rw [mergeLoop_done pq _ _ _ _ hsize] at htree
  simp only [Outcome.bind_ok, Outcome.ok.injEq, Prod.mk.injEq] at htree
  obtain ⟨rfl, _⟩ := htree
  intro id hid
  have hmem : id ∈ idsOf (fillQueue pq table {} pq.empty).1 g := by
    apply hids.symm.subset
    simp only [BinaryTree.isNode, BinaryTree.validateId, Bool.and_eq_true,
      decide_eq_true_eq] at hid
    rw [List.mem_range'_1, ← hn]
    omega
  simp only [idsOf, List.mem_flatMap] at hmem
  obtain ⟨p, hp, hidp⟩ := hmem
  have hpl : (p.1.frequency, p.2) ∈ leafForest table := by
    apply hfr.subset
    simp only [freqForest, List.mem_map]
    exact ⟨p, hp, rfl⟩
  simp only [leafForest, List.mem_map, Prod.mk.injEq] at hpl
  obtain ⟨e, _, _, hshape⟩ := hpl
  have hemb := hF.embeds p hp
  rw [← hshape] at hemb hidp
  simp only [idsUnder, List.mem_singleton] at hidp
  rw [hidp]
  exact isNodeLeaf_leaf hemb

/-- For a text of fewer than `2^32` bytes the tree of the merge loop is right-heavy in
the true counts of the text. -/
theorem buildTree_rightHeavy (pq : PQueue) (text : List Nat) (t : BinaryTree) (root : Nat)
    (htree : buildTree pq text = Outcome.ok (t, root)) (hlen : text.length < 2 ^ 32) :
    ∀ id, t.isNode id = true → t.isNodeLeaf id = false →
      weightUnder (fun c => text.count c) t.m_nodes.length t (t.getChildNodeLeft id)
        ≤ weightUnder (fun c => text.count c) t.m_nodes.length t (t.getChildNodeRight id) := by
  intro id hid hnl
  by_cases hk : (countedSymbols text).length ≤ 1
  · have := buildTree_few_leaves pq text t root htree hk id hid
    rw [this] at hnl
    cases hnl
  have hb := bytes_of_buildTree pq text (t, root) htree
  obtain ⟨table, t', root', _, h2, h3, h4⟩ := buildTree_spec pq text hb
  rw [htree] at h3
  simp only [Outcome.ok.injEq, Prod.mk.injEq] at h3
  obtain ⟨rfl, rfl⟩ := h3
  have hsym : symbolsOf table = countedSymbols text :=
    symbolsOf_eq_filter (fun i => text.count i) table h2
  rw [hsym] at h4
  rcases h4 with ⟨hk', _⟩ | ⟨_, sl, sr, he, hd, _, _, hids, hrun⟩
  · exact absurd hk' hk
  have hcnt : ∀ i, text.count i % 2 ^ 32 = text.count i := fun i =>
    Nat.mod_eq_of_lt (Nat.lt_of_le_of_lt (List.count_le_length _ _) hlen)
  have hforest := leafForest_eq (fun i => text.count i) table h2
  have hnd : (countedSymbols text).Nodup := List.Nodup.filter _ (List.nodup_range _)
  have hrh := huffRun_rightHeavy (fun c => text.count c) _ _ hrun
    (by
      intro p hp
      rw [hforest, List.mem_map] at hp
      obtain ⟨i, _, rfl⟩ := hp
      exact hcnt i)
    (by
      intro p hp
      rw [hforest, List.mem_map] at hp
      obtain ⟨i, _, rfl⟩ := hp
      exact True.intro)
    (by
      rw [hforest, List.map_map]
      exact Nat.lt_of_le_of_lt (sum_count_le_length _ text hnd) hlen)
  have hmem : id ∈ idsUnder t (HTree.node sl sr) root := by
    apply hids.symm.subset
    simp only [BinaryTree.isNode, BinaryTree.validateId, Bool.and_eq_true,
      decide_eq_true_eq] at hid
    rw [List.mem_range'_1]
    omega
  obtain ⟨s', hs', hr', hd'⟩ := rightHeavy_of_mem_ids he hrh.1 hmem
  have hroot := he.le_length
  cases s' with
  | leaf v =>
    rw [isNodeLeaf_leaf hs'] at hnl
    cases hnl
  | node l r =>
    obtain ⟨_, n, hn, hl, hr⟩ := hs'
    simp only [HTree.depth] at hd' hd
    rw [getChildNodeLeft_eq, getChildNodeRight_eq, hn]
    simp only
    rw [weightUnder_eq _ t 0 l n.left _ hl (by omega),
      weightUnder_eq _ t 0 r n.right _ hr (by omega)]
    exact hr'.1

/-- The number of occurrences of a byte in a text given by its counts. -/
theorem count_blocks (ws : List Nat) (c0 c : Nat) :
    (blocks ws c0).count c = if c0 ≤ c then ws.getD (c - c0) 0 else 0 := by
  induction ws generalizing c0 with
  | nil => simp [blocks]
  | cons w ws ih =>
    rw [blocks, List.count_append, List.count_replicate, ih]
    by_cases h1 : c0 = c
    · subst h1
      simp
    · by_cases h2 : c0 ≤ c
      · have h3 : c0 + 1 ≤ c := by omega
        have h4 : c - c0 = (c - (c0 + 1)) + 1 := by omega
        have h5 : ¬ ((c0 == c) = true) := by simpa using h1
        rw [if_neg h5, if_pos h3, if_pos h2, h4, List.getD_cons_succ, Nat.zero_add]
      · have h3 : ¬ (c0 + 1 ≤ c) := by omega
        have h5 : ¬ ((c0 == c) = true) := by simpa using h1
        rw [if_neg h5, if_neg h3, if_neg h2]

set_option maxRecDepth 100000 in
theorem buildTree_heavyText :
    buildTree listQueue heavyText
      = Outcome.ok (⟨[⟨97, 0, 0⟩, ⟨98, 0, 0⟩, ⟨99, 0, 0⟩, ⟨0, 1, 2⟩, ⟨0, 4, 3⟩]⟩, 5) := by
  have h : fillTable heavyText (List.replicate tableSize {})
      = Outcome.ok (bumpAll [2 ^ 31, 2 ^ 31, 2 ^ 31 + 5] 97 (List.replicate tableSize {})) :=
    fillTable_blocks [2 ^ 31, 2 ^ 31, 2 ^ 31 + 5] 97 _ (by decide) (by simp)
  unfold buildTree
  rw [h]
  decide

/-! ### Depth assignments and the Kraft sum -/

theorem pairCost_cons (p : Nat × Nat) (P : List (Nat × Nat)) :
    pairCost (p :: P) = p.1 * p.2 + pairCost P := by
  simp [pairCost]

theorem kraftSum_cons (N : Nat) (p : Nat × Nat) (P : List (Nat × Nat)) :
    kraftSum N (p :: P) = 2 ^ (N - p.2) + kraftSum N P := by
  simp [kraftSum]

theorem pairCost_perm {P Q : List (Nat × Nat)} (h : P.Perm Q) : pairCost P = pairCost Q :=
  (h.map _).sum_eq

theorem kraftSum_eq_of_depths (N : Nat) {P Q : List (Nat × Nat)}
    (h : (P.map Prod.snd).Perm (Q.map Prod.snd)) : kraftSum N P = kraftSum N Q := by
  have e : ∀ R : List (Nat × Nat),
      kraftSum N R = ((R.map Prod.snd).map fun d => 2 ^ (N - d)).sum := by
    intro R
    simp [kraftSum, List.map_map, Function.comp_def]
  rw [e P, e Q]
  exact (h.map _).sum_eq

theorem depths_le_of_perm (N : Nat) {P Q : List (Nat × Nat)}
    (h : (P.map Prod.snd).Perm (Q.map Prod.snd)) (hQ : ∀ p, p ∈ Q → p.2 ≤ N) :
    ∀ p, p ∈ P → p.2 ≤ N := by
  intro p hp
  have h1 : p.2 ∈ P.map Prod.snd := List.mem_map.mpr ⟨p, hp, rfl⟩
  obtain ⟨q, hq, hq2⟩ := List.mem_map.mp (h.subset h1)
  rw [← hq2]
  exact hQ q hq

/-- A least weight can be moved to a greatest depth without raising the cost: the depths
stay the same as a whole, the other weights stay in place. -/
theorem swap_to_deepest (a da : Nat) (Q : List (Nat × Nat)) (h : ∀ p, p ∈ Q → a ≤ p.1) :
    ∃ D Q', Q'.map Prod.fst = Q.map Prod.fst
      ∧ (D :: Q'.map Prod.snd).Perm (da :: Q.map Prod.snd)
      ∧ (∀ p, p ∈ Q' → p.2 ≤ D)
      ∧ a * D + pairCost Q' ≤ a * da + pairCost Q := by
  induction Q with
  | nil =>
    exact ⟨da, [], rfl, List.Perm.refl _, fun p hp => absurd hp (List.not_mem_nil _),
      Nat.le_refl _⟩
  | cons x Q ih =>
    obtain ⟨w, d⟩ := x
    obtain ⟨D0, Q0, h1, h2, h3, h4⟩ := ih (fun p hp => h p (List.mem_cons_of_mem _ hp))
    have haw : a ≤ w := h (w, d) (List.mem_cons_self _ _)
    by_cases hd : d ≤ D0
    · refine ⟨D0, (w, d) :: Q0, ?_, ?_, ?_, ?_⟩
      · simp only [List.map_cons, h1]
      · simp only [List.map_cons]
        exact (List.Perm.swap d D0 _).trans ((List.Perm.cons d h2).trans (List.Perm.swap da d _))
      · intro p hp
        rcases List.mem_cons.mp hp with rfl | hp
        · exact hd
        · exact h3 p hp
      · rw [pairCost_cons, pairCost_cons]
        simp only
        omega
    · refine ⟨d, (w, D0) :: Q0, ?_, ?_, ?_, ?_⟩
      · simp only [List.map_cons, h1]
      · simp only [List.map_cons]
        exact (List.Perm.cons d h2).trans (List.Perm.swap da d _)
      · intro p hp
        rcases List.mem_cons.mp hp with rfl | hp
        · simp only; omega
        · have := h3 p hp
          omega
      · rw [pairCost_cons, pairCost_cons]
        simp only
        obtain ⟨k, rfl⟩ := Nat.exists_eq_add_of_le (Nat.le_of_lt (Nat.lt_of_not_le hd))
        have hk := Nat.mul_le_mul_right k haw
        rw [Nat.mul_add, Nat.mul_add]
        omega

/-- Every term of the Kraft sum is a multiple of the term of the greatest depth. -/
theorem kraftSum_dvd (N D : Nat) (R : List (Nat × Nat)) (hR : ∀ p, p ∈ R → p.2 ≤ D) :
    2 ^ (N - D) ∣ kraftSum N R := by
  unfold kraftSum
  apply List.dvd_sum
  intro x hx
  obtain ⟨p, hp, rfl⟩ := List.mem_map.mp hx
  have := hR p hp
  exact Nat.pow_dvd_pow 2 (by omega)

/-- Two pairs at the two greatest depths can share the lower of the two depths: then
their common parent, one level up, keeps the Kraft sum within `2^N`. -/
theorem kraft_lower (N D1 D2 a b : Nat) (R : List (Nat × Nat))
    (hR : ∀ p, p ∈ R → p.2 ≤ D2) (h21 : D2 ≤ D1) (h1N : D1 ≤ N)
    (hk : kraftSum N ((a, D1) :: (b, D2) :: R) ≤ 2 ^ N) :
    1 ≤ D2 ∧ kraftSum N ((a + b, D2 - 1) :: R) ≤ 2 ^ N := by
  obtain ⟨s, hs⟩ := kraftSum_dvd N D2 R hR
  rw [kraftSum_cons, kraftSum_cons] at hk
  simp only at hk
  have hpos : 1 ≤ 2 ^ (N - D1) := Nat.one_le_two_pow
  have hN : 2 ^ N = 2 ^ (N - D2) * 2 ^ D2 := by
    rw [← Nat.pow_add]
    congr 1
    omega
  have hm : 0 < 2 ^ (N - D2) := Nat.two_pow_pos _
  have hlt : 2 ^ (N - D2) * (1 + s) < 2 ^ (N - D2) * 2 ^ D2 := by
    rw [Nat.mul_add, Nat.mul_one, ← hs, ← hN]
    omega
  have hlt' : 1 + s < 2 ^ D2 := Nat.lt_of_mul_lt_mul_left hlt
  have hD2 : 1 ≤ D2 := by
    by_contra h0
    have : D2 = 0 := by omega
    rw [this] at hlt'
    simp at hlt'
  refine ⟨hD2, ?_⟩
  rw [kraftSum_cons]
  simp only
  have e : N - (D2 - 1) = (N - D2) + 1 := by omega
  have hle : 2 ^ (N - D2) * (2 + s) ≤ 2 ^ (N - D2) * 2 ^ D2 :=
    Nat.mul_le_mul_left _ (by omega)
  rw [e, Nat.pow_succ, hs, hN]
  rw [Nat.mul_add] at hle
  omega

/-- A pair list whose weights hold `a` has a pair of weight `a`. -/
theorem extract_weight (a : Nat) (ws : List Nat) (P : List (Nat × Nat))
    (h : (P.map Prod.fst).Perm (a :: ws)) :
    ∃ d P0, P.Perm ((a, d) :: P0) ∧ (P0.map Prod.fst).Perm ws := by
  have ha : a ∈ P.map Prod.fst := h.symm.subset (List.mem_cons_self _ _)
  obtain ⟨p, hp, hpa⟩ := List.mem_map.mp ha
  obtain ⟨w, d⟩ := p
  simp only at hpa
  subst hpa
  obtain ⟨s, t, rfl⟩ := List.append_of_mem hp
  have h1 : (s ++ (w, d) :: t).Perm ((w, d) :: (s ++ t)) := List.perm_middle
  refine ⟨d, s ++ t, h1, ?_⟩
  have h2 := (h1.map Prod.fst).symm.trans h
  simp only [List.map_cons] at h2
  exact h2.cons_inv

/-- The exchange step of the optimality proof, on pair lists: for two least weights `a`
and `b`, every admissible assignment of depths is matched, at a cost lower by `a + b`, by
an admissible assignment for the weights in which `a` and `b` are replaced by `a + b`. -/
theorem merge_two_least (N a b : Nat) (ws : List Nat) (P : List (Nat × Nat))
    (hP : (P.map Prod.fst).Perm (a :: b :: ws))
    (ha : ∀ w, w ∈ b :: ws → a ≤ w) (hb : ∀ w, w ∈ ws → b ≤ w)
    (hd : ∀ p, p ∈ P → p.2 ≤ N) (hk : kraftSum N P ≤ 2 ^ N) :
    ∃ P', (P'.map Prod.fst).Perm ((a + b) :: ws)
      ∧ (∀ p, p ∈ P' → p.2 ≤ N) ∧ kraftSum N P' ≤ 2 ^ N
      ∧ pairCost P' + a + b ≤ pairCost P := by
  obtain ⟨da, P0, hP0, hw0⟩ := extract_weight a (b :: ws) P hP
  obtain ⟨db, R, hR, hwR⟩ := extract_weight b ws P0 hw0
  have hPR : P.Perm ((a, da) :: (b, db) :: R) := hP0.trans (List.Perm.cons _ hR)
  -- move `a` to a greatest depth
  obtain ⟨D1, Q1, h11, h12, h13, h14⟩ := swap_to_deepest a da ((b, db) :: R) (by
    intro p hp
    rcases List.mem_cons.mp hp with rfl | hp
    · exact ha b (List.mem_cons_self _ _)
    · exact ha p.1 (List.mem_cons_of_mem _ (hwR.subset (List.mem_map.mpr ⟨p, hp, rfl⟩))))
  cases Q1 with
  | nil => simp at h11
  | cons x R1 =>
    obtain ⟨b', db'⟩ := x
    simp only [List.map_cons, List.cons.injEq] at h11
    obtain ⟨hb', h11⟩ := h11
    subst hb'
    -- move `b` to a greatest depth among the others
    obtain ⟨D2, R2, h21, h22, h23, h24⟩ := swap_to_deepest b' db' R1 (by
      intro p hp
      have h1 : p.1 ∈ R1.map Prod.fst := List.mem_map.mpr ⟨p, hp, rfl⟩
      rw [h11] at h1
      exact hb p.1 (hwR.subset h1))
    have hD21 : D2 ≤ D1 := by
      have hmem : D2 ∈ db' :: R1.map Prod.snd := h22.subset (List.mem_cons_self _ _)
      rcases List.mem_cons.mp hmem with h | h
      · rw [h]; exact h13 (b', db') (List.mem_cons_self _ _)
      · obtain ⟨p, hp, hp2⟩ := List.mem_map.mp h
        rw [← hp2]
        exact h13 p (List.mem_cons_of_mem _ hp)
    have hdepths : (((a, D1) :: (b', D2) :: R2).map Prod.snd).Perm (P.map Prod.snd) := by
      simp only [List.map_cons]
      have h1 : (D1 :: D2 :: R2.map Prod.snd).Perm (D1 :: db' :: R1.map Prod.snd) :=
        List.Perm.cons _ h22
      have h2 : (D1 :: db' :: R1.map Prod.snd).Perm (da :: db :: R.map Prod.snd) := by
        simpa only [List.map_cons] using h12
      have h3 := (hPR.map Prod.snd).symm
      simp only [List.map_cons] at h3
      exact (h1.trans h2).trans h3
    have hdep2 := depths_le_of_perm N hdepths hd
    have hk2 : kraftSum N ((a, D1) :: (b', D2) :: R2) ≤ 2 ^ N := by
      rw [kraftSum_eq_of_depths N hdepths]; exact hk
    have hcost2 : pairCost ((a, D1) :: (b', D2) :: R2) ≤ pairCost P := by
      rw [pairCost_perm hPR]
      simp only [pairCost_cons] at h14 h24 ⊢
      omega
    obtain ⟨hD2, hk3⟩ := kraft_lower N D1 D2 a b' R2 h23 hD21
      (hdep2 (a, D1) (List.mem_cons_self _ _)) hk2
    refine ⟨(a + b', D2 - 1) :: R2, ?_, ?_, hk3, ?_⟩
    · simp only [List.map_cons]
      rw [h21, h11]
      exact List.Perm.cons _ hwR
    · intro p hp
      rcases List.mem_cons.mp hp with rfl | hp
      · have := hdep2 (b', D2) (List.mem_cons_of_mem _ (List.mem_cons_self _ _))
        simp only at this ⊢
        omega
      · exact hdep2 p (List.mem_cons_of_mem _ (List.mem_cons_of_mem _ hp))
    · refine Nat.le_trans ?_ hcost2
      rw [pairCost_cons, pairCost_cons, pairCost_cons]
      simp only
      obtain ⟨k, rfl⟩ := Nat.exists_eq_add_of_le hD2
      obtain ⟨j, rfl⟩ := Nat.exists_eq_add_of_le hD21
      have e : 1 + k - 1 = k := by omega
      rw [e]
      simp only [Nat.add_mul, Nat.mul_add, Nat.mul_one]
      omega

/-! ### Code bits of a tree -/

theorem codeLengthUnder_eq (cnt : Nat → Nat) (t : BinaryTree) (lo : Nat) (s : HTree)
    (id fuel d : Nat) (he : Embeds t lo s id) (hf : s.depth < fuel) :
    codeLengthUnder cnt fuel t id d = HTree.codeLength cnt s d := by
  induction s generalizing id fuel d with
  | leaf v =>
    cases fuel with
    | zero => cases hf
    | succ fuel =>
      simp [codeLengthUnder, isNodeLeaf_leaf he, isNode_of_embeds he, HTree.codeLength,
        getNodeValue_eq, he.2]
  | node l r ihl ihr =>
    cases fuel with
    | zero => cases hf
    | succ fuel =>
      have hleaf := isNodeLeaf_node he
      have hnode := isNode_of_embeds he
      obtain ⟨_, n, hn, hl, hr⟩ := he
      simp only [HTree.depth] at hf
      simp only [codeLengthUnder, hnode, hleaf, Bool.not_true, Bool.false_eq_true,
        if_false, getChildNodeLeft_eq, getChildNodeRight_eq, hn, HTree.codeLength,
        ihl n.left fuel (d + 1) hl (by omega), ihr n.right fuel (d + 1) hr (by omega)]

/-- Moving a tree `d` levels down costs its weight `d` times. -/
theorem codeLength_shift (cnt : Nat → Nat) (s : HTree) (d : Nat) :
    HTree.codeLength cnt s d = HTree.codeLength cnt s 0 + d * HTree.weight cnt s := by
  induction s generalizing d with
  | leaf v => simp [HTree.codeLength, HTree.weight, Nat.mul_comm]
  | node l r ihl ihr =>
    simp only [HTree.codeLength, HTree.weight]
    rw [ihl (d + 1), ihr (d + 1), ihl (0 + 1), ihr (0 + 1)]
    simp only [Nat.add_mul, Nat.mul_add, Nat.zero_mul, Nat.one_mul, Nat.zero_add]
    omega

theorem codeLength_node (cnt : Nat → Nat) (l r : HTree) :
    HTree.codeLength cnt (HTree.node l r) 0
      = HTree.codeLength cnt l 0 + HTree.codeLength cnt r 0
        + HTree.weight cnt l + HTree.weight cnt r := by
  simp only [HTree.codeLength]
  rw [codeLength_shift cnt l (0 + 1), codeLength_shift cnt r (0 + 1)]
  omega

theorem leafDepths_weights (cnt : Nat → Nat) (s : HTree) (d : Nat) :
    (leafDepths cnt s d).map Prod.fst = s.leaves.map cnt := by
  induction s generalizing d with
  | leaf v => rfl
  | node l r ihl ihr =>
    simp only [leafDepths, HTree.leaves, List.map_append, ihl, ihr]

theorem leafDepths_cost (cnt : Nat → Nat) (s : HTree) (d : Nat) :
    pairCost (leafDepths cnt s d) = HTree.codeLength cnt s d := by
  induction s generalizing d with
  | leaf v => simp [leafDepths, pairCost, HTree.codeLength]
  | node l r ihl ihr =>
    have := ihl (d + 1)
    have := ihr (d + 1)
    simp only [pairCost] at *
    simp only [leafDepths, HTree.codeLength, List.map_append, List.sum_append]
    omega

theorem leafDepths_le (cnt : Nat → Nat) (s : HTree) (d : Nat) :
    ∀ p, p ∈ leafDepths cnt s d → p.2 ≤ d + s.depth := by
  induction s generalizing d with
  | leaf v =>
    intro p hp
    simp only [leafDepths, List.mem_singleton] at hp
    subst hp
    exact Nat.le_add_right _ _
  | node l r ihl ihr =>
    intro p hp
    simp only [leafDepths, List.mem_append] at hp
    simp only [HTree.depth]
    rcases hp with hp | hp
    · have := ihl (d + 1) p hp
      omega
    · have := ihr (d + 1) p hp
      omega

/-- Kraft's equality for a full binary tree, scaled by `2^N`. -/
theorem leafDepths_kraft (cnt : Nat → Nat) (s : HTree) (d N : Nat) (h : d + s.depth ≤ N) :
    kraftSum N (leafDepths cnt s d) = 2 ^ (N - d) := by
  induction s generalizing d with
  | leaf v => simp [leafDepths, kraftSum]
  | node l r ihl ihr =>
    simp only [HTree.depth] at h
    have h1 := ihl (d + 1) (by omega)
    have h2 := ihr (d + 1) (by omega)
    simp only [kraftSum] at *
    simp only [leafDepths, List.map_append, List.sum_append, h1, h2]
    have e : N - d = (N - (d + 1)) + 1 := by omega
    rw [e, Nat.pow_succ]
    omega

/-- Along the merge loop, when every entry carries the weight of its tree and the weights
add up to less than `2^32`, the final tree costs no more than the trees of the forest
together with any admissible assignment of depths to their weights. -/
theorem huffRun_optimal (cnt : Nat → Nat) (g : List (Nat × HTree)) (s : HTree)
    (hrun : HuffRun g s)
    (hw : ∀ p, p ∈ g → p.1 = HTree.weight cnt p.2)
    (hsum : (g.map fun p => HTree.weight cnt p.2).sum < 2 ^ 32)
    (N : Nat) (P : List (Nat × Nat))
    (hP : (P.map Prod.fst).Perm (g.map Prod.fst))
    (hd : ∀ p, p ∈ P → p.2 ≤ N) (hk : kraftSum N P ≤ 2 ^ N) :
    HTree.codeLength cnt s 0
      ≤ (g.map fun p => HTree.codeLength cnt p.2 0).sum + pairCost P := by
  induction hrun generalizing P with
  | done f s =>
    simp only [List.map_cons, List.map_nil, List.sum_cons, List.sum_nil]
    omega
  | step g g' s hstep _ ih =>
    obtain ⟨a, b, rest, hp, hmina, hminb, hp'⟩ := hstep
    have hma : a ∈ g := hp.symm.subset (List.mem_cons_self _ _)
    have hmb : b ∈ g := hp.symm.subset (List.mem_cons_of_mem _ (List.mem_cons_self _ _))
    have hmr : ∀ x, x ∈ rest → x ∈ g := fun x hx =>
      hp.symm.subset (List.mem_cons_of_mem _ (List.mem_cons_of_mem _ hx))
    have hs : (g.map fun p => HTree.weight cnt p.2).sum
        = HTree.weight cnt a.2 + HTree.weight cnt b.2
          + (rest.map fun p => HTree.weight cnt p.2).sum := by
      rw [(hp.map _).sum_eq]
      simp only [List.map_cons, List.sum_cons]
      omega
    have hs' : (g'.map fun p => HTree.weight cnt p.2).sum
        = (g.map fun p => HTree.weight cnt p.2).sum := by
      rw [(hp'.map _).sum_eq, hs]
      simp only [List.map_cons, List.sum_cons, HTree.weight]
    have hab : (a.1 + b.1) % 2 ^ 32 = a.1 + b.1 := by
      apply Nat.mod_eq_of_lt
      rw [hw a hma, hw b hmb]
      omega
    have hc : (g.map fun p => HTree.codeLength cnt p.2 0).sum
        = HTree.codeLength cnt a.2 0 + HTree.codeLength cnt b.2 0
          + (rest.map fun p => HTree.codeLength cnt p.2 0).sum := by
      rw [(hp.map _).sum_eq]
      simp only [List.map_cons, List.sum_cons]
      omega
    have hc' : (g'.map fun p => HTree.codeLength cnt p.2 0).sum
        = (g.map fun p => HTree.codeLength cnt p.2 0).sum + a.1 + b.1 := by
      rw [(hp'.map _).sum_eq, hc]
      simp only [List.map_cons, List.sum_cons, codeLength_node]
      rw [hw a hma, hw b hmb]
      omega
    obtain ⟨P', h1, h2, h3, h4⟩ := merge_two_least N a.1 b.1 (rest.map Prod.fst) P
      (by
        have := hP.trans (hp.map Prod.fst)
        simpa only [List.map_cons] using this)
      (by
        intro w hw'
        rcases List.mem_cons.mp hw' with rfl | hw'
        · exact hmina b (List.mem_cons_self _ _)
        · obtain ⟨x, hx, rfl⟩ := List.mem_map.mp hw'
          exact hmina x (List.mem_cons_of_mem _ hx))
      (by
        intro w hw'
        obtain ⟨x, hx, rfl⟩ := List.mem_map.mp hw'
        exact hminb x hx)
      hd hk
    have := ih
      (by
        intro p hp1
        rcases List.mem_cons.mp (hp'.subset hp1) with rfl | hp2
        · simp only [HTree.weight]
          rw [hab, hw a hma, hw b hmb]
        · exact hw p (hmr p hp2))
      (by rw [hs']; exact hsum)
      P'
      (by
        refine h1.trans ?_
        have := (hp'.map Prod.fst).symm
        simp only [List.map_cons] at this
        rw [hab] at this
        exact this)
      h2 h3
    rw [hc'] at this
    omega

/-! ### The tree of the merge loop -/

/-- For a text of fewer than `2^32` bytes with at least two counted symbols, the tree of
the merge loop needs no more code bits than any tree shape over the counted symbols. -/
theorem buildTree_optimal (pq : PQueue) (text : List Nat) (t : BinaryTree) (root : Nat)
    (htwo : 2 ≤ (countedSymbols text).length)
    (htree : buildTree pq text = Outcome.ok (t, root)) (hlen : text.length < 2 ^ 32)
    (s' : HTree) (hs' : s'.leaves.Perm (countedSymbols text)) :
    ∃ s, Embeds t 0 s root ∧ s.leaves.Perm (countedSymbols text)
      ∧ codeLengthUnder (fun c => text.count c) t.m_nodes.length t root 0
          = HTree.codeLength (fun c => text.count c) s 0
      ∧ HTree.codeLength (fun c => text.count c) s 0
          ≤ HTree.codeLength (fun c => text.count c) s' 0 := by
  have hb := bytes_of_buildTree pq text (t, root) htree
  obtain ⟨table, t', root', _, h2, h3, h4⟩ := buildTree_spec pq text hb
  rw [htree] at h3
  simp only [Outcome.ok.injEq, Prod.mk.injEq] at h3
  obtain ⟨rfl, rfl⟩ := h3
  have hsym : symbolsOf table = countedSymbols text :=
    symbolsOf_eq_filter (fun i => text.count i) table h2
  rw [hsym] at h4
  rcases h4 with ⟨hk', _⟩ | ⟨_, sl, sr, he, hd, _, hl, _, hrun⟩
  · omega
  have hcnt : ∀ i, text.count i % 2 ^ 32 = text.count i := fun i =>
    Nat.mod_eq_of_lt (Nat.lt_of_le_of_lt (List.count_le_length _ _) hlen)
  have hforest : leafForest table
      = (countedSymbols text).map fun i => (text.count i, HTree.leaf i) := by
    rw [leafForest_eq (fun i => text.count i) table h2]
    apply List.map_congr_left
    intro i _
    simp only [hcnt i]
  have hnd : (countedSymbols text).Nodup := List.Nodup.filter _ (List.nodup_range _)
  have hroot := he.le_length
  refine ⟨HTree.node sl sr, he, hl, codeLengthUnder_eq _ t 0 _ root _ 0 he (by omega), ?_⟩
  have hopt := huffRun_optimal (fun c => text.count c) _ _ hrun
    (by
      intro p hp
      rw [hforest, List.mem_map] at hp
      obtain ⟨i, _, rfl⟩ := hp
      rfl)
    (by
      rw [hforest, List.map_map]
      exact Nat.lt_of_le_of_lt (sum_count_le_length _ text hnd) hlen)
    s'.depth (leafDepths (fun c => text.count c) s' 0)
    (by
      rw [leafDepths_weights, hforest, List.map_map]
      exact hs'.map _)
    (by
      intro p hp
      have := leafDepths_le _ s' 0 p hp
      omega)
    (by
      rw [leafDepths_kraft _ s' 0 s'.depth (by omega)]
      exact Nat.le_refl _)
  have hzero : ((leafForest table).map
      fun p => HTree.codeLength (fun c => text.count c) p.2 0).sum = 0 := by
    rw [hforest, List.map_map]
    apply List.sum_eq_zero
    intro x hx
    obtain ⟨i, _, rfl⟩ := List.mem_map.mp hx
    rfl
  rw [hzero, leafDepths_cost, Nat.zero_add] at hopt
  exact hopt

set_option maxRecDepth 100000 in
theorem buildTree_skewText :
    buildTree listQueue skewText
      = Outcome.ok (⟨[⟨97, 0, 0⟩, ⟨98, 0, 0⟩, ⟨99, 0, 0⟩, ⟨100, 0, 0⟩, ⟨0, 1, 2⟩, ⟨0, 5, 3⟩,
          ⟨0, 6, 4⟩]⟩, 7) := by
  have h : fillTable skewText (List.replicate tableSize {})
      = Outcome.ok (bumpAll [2 ^ 31, 2 ^ 31 + 1, 2 ^ 31 + 2, 2 ^ 31 + 10] 97
          (List.replicate tableSize {})) :=
    fillTable_blocks [2 ^ 31, 2 ^ 31 + 1, 2 ^ 31 + 2, 2 ^ 31 + 10] 97 _ (by decide) (by simp)
  unfold buildTree
  rw [h]
  decide

theorem count_skewText :
    (fun c => skewText.count c)
      = fun c => if 97 ≤ c
          then [2 ^ 31, 2 ^ 31 + 1, 2 ^ 31 + 2, 2 ^ 31 + 10].getD (c - 97) 0 else 0 :=
  funext fun c => count_blocks _ 97 c

set_option maxRecDepth 100000 in
theorem countedSymbols_skewText : countedSymbols skewText = [97, 98, 99, 100] := by
  have h : countedSymbols skewText
      = (List.range tableSize).filter fun i =>
          decide ((fun c => skewText.count c) i % 2 ^ 32 ≠ 0 ∧ 0 < i) := rfl
  rw [h, count_skewText]
  decide

/-! ### Truncated streams and arenas of any size -/

/-- Successive calls of `allocNode` append one leaf per value, in an arena of any size. -/
theorem allocEach_nodes (vs : List Nat) (t : BinaryTree) :
    (allocEach vs t).1.m_nodes = t.m_nodes ++ vs.map (fun v => Node.mk v 0 0) := by
  induction vs generalizing t with
  | nil => simp [allocEach]
  | cons v vs ih =>
    simp only [allocEach, ih, List.map_cons]
    simp [BinaryTree.allocNode]

/-- On a stream that ends inside the eight value bits of a leaf, `read` returns false and
`deserializeNode`, which does not look at that result, returns a new leaf whose value
holds the bits that were read. -/
theorem deserializeNode_short_leaf (fuel : Nat) (t : BinaryTree) (node : Nat) (s : BitStream)
    (rest : List Bool) (hu : unread s = true :: rest) (hshort : rest.length < 8) :
    (advance s 1).read 0 0 8
        = Outcome.ok (false, readBitsVal rest 0 0, advance s (1 + rest.length))
      ∧ deserializeNode (fuel + 1) t node s
        = Outcome.ok ((t.allocNode (readBitsVal rest 0 0)).2,
            (t.allocNode (readBitsVal rest 0 0)).1, advance s (1 + rest.length)) := by
  obtain ⟨h1, h2⟩ := readbit_cons s false true rest hu
  have h3 : (advance s 1).read 0 0 8
      = Outcome.ok (false, readBitsVal rest 0 0, advance s (1 + rest.length)) := by
    have := readLoop_short rest 8 0 0 (advance s 1) h2 hshort (by decide)
    rw [advance_advance] at this
    exact this
  refine ⟨h3, ?_⟩
  simp only [deserializeNode, h1, h3, Outcome.bind_ok]

/-- Once the decode loop stands on the id `0` with no bit left to read and a read cursor
that differs from the bit count, it never ends: the failed `readbit` does not move the
cursor and the child of `0` is `0`. -/
theorem decodeLoop_stuck (bitcount : Nat) (t : BinaryTree) (root fuel : Nat) (s : BitStream)
    (out : List Nat) (hu : unread s = [])
    (hc : (bitcount + 2 ^ 64 - s.getRead % 2 ^ 64) % 2 ^ 64 > 0) :
    decodeLoop bitcount t root fuel 0 s out = Outcome.outOfFuel := by
  induction fuel with
  | zero => simp only [decodeLoop, if_pos hc]
  | succ fuel ih =>
    have h0 : t.getChildNode 0 false = 0 := by
      simp [BinaryTree.getChildNode, getChildNodeLeft_eq, getChildNodeRight_eq, nodeAt_zero]
    have hl : t.isNodeLeaf 0 = false := by
      rw [isNodeLeaf_eq, nodeAt_zero]
    simp only [decodeLoop, if_pos hc, readbit_nil s false hu, h0, hl, Bool.false_eq_true,
      if_false]
    exact ih

/-- The artifact of one `0` bit: the decoder never returns. -/
theorem decompress_marker_only (fuel : Nat) :
    huffmanDecompress fuel ⟨1, [0]⟩ = Outcome.outOfFuel := by
  have h : deserializeNode fuel {} 0 (BitStream.fromBytes (List.take (calcByteCount 1) [0]) 1)
      = Outcome.outOfFuel :=
    deserializeNode_zeros fuel {} 0 _ (by decide)
  simp only [huffmanDecompress]
  rw [if_neg (by decide), h]
  rfl

set_option maxRecDepth 100000 in
/-- The artifact of the five bits `1 0110`: the cut leaf becomes the root, the read cursor
stands at the end of the byte, past the bit count, and the decode loop never ends. -/

theorem decompress_cut_leaf (fuel : Nat) :
    huffmanDecompress fuel ⟨5, [176]⟩ = Outcome.outOfFuel := by
  cases fuel with
  | zero => rfl
  | succ fuel =>
    have h : deserializeNode (fuel + 1) {} 0
        (BitStream.fromBytes (List.take (calcByteCount 5) [176]) 5)
        = Outcome.ok (1, ⟨[⟨96, 0, 0⟩]⟩, ⟨0, 8, 5, [176]⟩) :=
      (deserializeNode_short_leaf fuel {} 0 _ [false, true, true, false, false, false, false]
        (by decide) (by decide)).2.trans (by decide)
    have hu : unread (⟨0, 8, 5, [176]⟩ : BitStream) = [] := by decide
    have hc : (5 + 2 ^ 64 - (⟨0, 8, 5, [176]⟩ : BitStream).getRead % 2 ^ 64) % 2 ^ 64 > 0 := by
      decide
    have h1 : (BinaryTree.mk [⟨96, 0, 0⟩]).getChildNode 1 false = 0 := by decide
    have hl : (BinaryTree.mk [⟨96, 0, 0⟩]).isNodeLeaf 0 = false := by decide
    simp only [huffmanDecompress]
    rw [if_neg (by decide), h]
    simp only [Outcome.bind_ok, decodeLoop, if_pos hc, readbit_nil _ false hu, h1, hl,
      Bool.false_eq_true, if_false]
    exact decodeLoop_stuck 5 _ 1 fuel _ [] hu hc

/-! ### The passes of the merge loop -/

theorem mergeStep_length (pq : PQueue) (t : BinaryTree) (q : pq.σ) :
    (mergeStep pq t q).1.m_nodes.length = t.m_nodes.length + 1 := by
  simp only [mergeStep, linkNodeRight_length, linkNodeLeft_length, allocNode_length]

/-- A pass of the merge loop on a queue whose frequencies add up to less than `2^32`: the
sum of the two least frequencies does not wrap, the queue loses one entry and keeps its
total. -/
theorem mergeStep_total (pq : PQueue) (t : BinaryTree) (q : pq.σ) (h2 : 2 ≤ pq.size q)
    (hsz : t.m_nodes.length + 1 < 2 ^ 32) (hS : freqSum pq q < 2 ^ 32) :
    (pq.top (pq.pop q)).frequency + (pq.top q).frequency < 2 ^ 32
      ∧ pq.size (mergeStep pq t q).2.1 + 1 = pq.size q
      ∧ freqSum pq (mergeStep pq t q).2.1 = freqSum pq q := by
  obtain ⟨hp, _, _, _, _, _, hp'⟩ := mergeStep_detail pq t q h2 hsz
  have hs : freqSum pq q = (pq.top q).frequency + (pq.top (pq.pop q)).frequency
      + ((pq.elems (pq.pop (pq.pop q))).map fun e => e.frequency).sum := by
    unfold freqSum
    rw [(hp.map _).sum_eq]
    simp only [List.map_cons, List.sum_cons]
    omega
  have hlt : (pq.top (pq.pop q)).frequency + (pq.top q).frequency < 2 ^ 32 := by omega
  refine ⟨hlt, ?_, ?_⟩
  · rw [pq.size_eq, pq.size_eq, hp'.length_eq, hp.length_eq]
    simp only [List.length_cons]
  · rw [hs]
    unfold freqSum
    rw [(hp'.map _).sum_eq]
    simp only [List.map_cons, List.sum_cons, Nat.mod_eq_of_lt hlt]
    omega

/-- The passes of the merge loop on a queue whose frequencies add up to less than `2^32`:
in every pass the queue holds at least two entries and no sum wraps, there is one pass
less than entries, and the loop returns what the last pass leaves. -/
theorem mergeStates_spec (pq : PQueue) (fuel : Nat) (t : BinaryTree) (q : pq.σ) (r : Nat)
    (hfuel : pq.size q ≤ fuel + 1) (hsz : t.m_nodes.length + pq.size q ≤ 2 ^ 32)
    (hS : freqSum pq q < 2 ^ 32) :
    (∀ st, st ∈ mergeStates pq fuel t q →
        2 ≤ pq.size st.2 ∧ st.1.m_nodes.length + 1 < 2 ^ 32
          ∧ (pq.top (pq.pop st.2)).frequency + (pq.top st.2).frequency < 2 ^ 32)
      ∧ (mergeStates pq fuel t q).length = pq.size q - 1
      ∧ (mergeStates pq fuel t q = [] → mergeLoop pq fuel t q r = Outcome.ok (t, q, r))
      ∧ ∀ st, (mergeStates pq fuel t q).getLast? = some st →
          mergeLoop pq fuel t q r = Outcome.ok (mergeStep pq st.1 st.2) := by
  induction fuel generalizing t q r with
  | zero =>
    have h1 : ¬ pq.size q > 1 := by omega
    refine ⟨fun st hst => absurd hst (List.not_mem_nil _), ?_, fun _ => ?_, fun st hst => ?_⟩
    · simp only [mergeStates, List.length_nil]
      omega
    · simp only [mergeLoop, if_neg h1]
    · simp only [mergeStates, List.getLast?_nil] at hst
      cases hst
  | succ fuel ih =>
    by_cases h1 : pq.size q > 1
    · have harena : t.m_nodes.length + 1 < 2 ^ 32 := by omega
      obtain ⟨hlt, hsize, htot⟩ := mergeStep_total pq t q h1 harena hS
      obtain ⟨i1, i2, i3, i4⟩ := ih (mergeStep pq t q).1 (mergeStep pq t q).2.1
        (mergeStep pq t q).2.2 (by omega) (by rw [mergeStep_length]; omega)
        (by rw [htot]; exact hS)
      have hm : mergeStates pq (fuel + 1) t q
          = (t, q) :: mergeStates pq fuel (mergeStep pq t q).1 (mergeStep pq t q).2.1 := by
        simp only [mergeStates, if_pos h1]
      have hl : mergeLoop pq (fuel + 1) t q r
          = mergeLoop pq fuel (mergeStep pq t q).1 (mergeStep pq t q).2.1
              (mergeStep pq t q).2.2 := by
        simp only [mergeLoop, if_pos h1]
      rw [hm, hl]
      refine ⟨?_, ?_, fun h => absurd h (List.cons_ne_nil _ _), ?_⟩
      · intro st hst
        rcases List.mem_cons.mp hst with rfl | hst
        · exact ⟨h1, harena, hlt⟩
        · exact i1 st hst
      · rw [List.length_cons, i2]
        omega
      · intro st hst
        cases hrest : mergeStates pq fuel (mergeStep pq t q).1 (mergeStep pq t q).2.1 with
        | nil =>
          rw [hrest] at hst
          simp only [List.getLast?_singleton, Option.some.injEq] at hst
          subst hst
          exact i3 hrest
        | cons y ys =>
          rw [hrest, List.getLast?_cons_cons] at hst
          rw [hrest] at i4
          exact i4 st hst
    · have hm : mergeStates pq (fuel + 1) t q = [] := by
        simp only [mergeStates, if_neg h1]
      rw [hm]
      refine ⟨fun st hst => absurd hst (List.not_mem_nil _), ?_, fun _ => ?_,
        fun st hst => ?_⟩
      · simp only [List.length_nil]
        omega
      · simp only [mergeLoop, if_neg h1]
      · simp only [List.getLast?_nil] at hst
        cases hst

/-- The passes of the merge loop in the build of a text of fewer than `2^32` bytes: one
pass less than counted symbols, none on fewer than two entries, no sum of two frequencies
wraps, and the last pass gives the tree and the root of the build. -/
theorem buildStates_spec (pq : PQueue) (text : List Nat) (t : BinaryTree) (root : Nat)
    (htree : buildTree pq text = Outcome.ok (t, root)) (hlen : text.length < 2 ^ 32) :
    (buildStates pq text).length = (countedSymbols text).length - 1
      ∧ (∀ st, st ∈ buildStates pq text →
          2 ≤ pq.size st.2 ∧ st.1.m_nodes.length + 1 < 2 ^ 32
            ∧ (pq.top (pq.pop st.2)).frequency + (pq.top st.2).frequency < 2 ^ 32)
      ∧ ∀ st, (buildStates pq text).getLast? = some st →
          (mergeStep pq st.1 st.2).1 = t ∧ (mergeStep pq st.1 st.2).2.2 = root := by
  have hb := bytes_of_buildTree pq text (t, root) htree
  obtain ⟨table, h1, h2⟩ := fillTable_spec text (fun _ => 0) _ tableOf_init hb
  simp only [Nat.zero_add] at h2
  have hsym : symbolsOf table = countedSymbols text :=
    symbolsOf_eq_filter (fun i => text.count i) table h2
  have hk255 : (symbolsOf table).length ≤ 255 := by
    have := symbolsOf_length_le table
    rw [h2.1] at this
    exact this
  obtain ⟨g, hF, _, hglen, hn, _, hfr⟩ :=
    fillQueue_spec pq table {} pq.empty [] (forest_empty pq) (tableOf_charCode_lt h2)
      (by rw [h2.1]; decide)
  have e2 : freqForest [] = [] := rfl
  rw [e2, List.nil_append] at hfr
  have e1 : ({} : BinaryTree).m_nodes.length = 0 := rfl
  rw [e1] at hn
  simp only [List.length_nil, Nat.zero_add] at hglen hn
  have hsize : pq.size (fillQueue pq table {} pq.empty).2 = (symbolsOf table).length := by
    rw [pq.size_eq, ← hF.length_eq, hglen]
  have hcnt : ∀ i, text.count i % 2 ^ 32 = text.count i := fun i =>
    Nat.mod_eq_of_lt (Nat.lt_of_le_of_lt (List.count_le_length _ _) hlen)
  have hnd : (countedSymbols text).Nodup := List.Nodup.filter _ (List.nodup_range _)
  have hS : freqSum pq (fillQueue pq table {} pq.empty).2 < 2 ^ 32 := by
    have e : freqSum pq (fillQueue pq table {} pq.empty).2
        = ((leafForest table).map Prod.fst).sum := by
      unfold freqSum
      rw [← (hF.perm.map _).sum_eq, ← (hfr.map _).sum_eq]
      simp only [freqForest, List.map_map]
      rfl
    rw [e, leafForest_eq (fun i => text.count i) table h2, List.map_map]
    have e3 : (Prod.fst ∘ fun i => (text.count i % 2 ^ 32, HTree.leaf i))
        = fun c => text.count c := by
      funext i
      exact hcnt i
    rw [e3]
    exact Nat.lt_of_le_of_lt (sum_count_le_length _ text hnd) hlen
  obtain ⟨i1, i2, i3, i4⟩ := mergeStates_spec pq (pq.size (fillQueue pq table {} pq.empty).2)
    (fillQueue pq table {} pq.empty).1 (fillQueue pq table {} pq.empty).2 0
    (by omega) (by rw [hn, hsize]; omega) hS
  have hbs : buildStates pq text
      = mergeStates pq (pq.size (fillQueue pq table {} pq.empty).2)
          (fillQueue pq table {} pq.empty).1 (fillQueue pq table {} pq.empty).2 := by
    simp only [buildStates, h1]
  simp only [buildTree, h1, Outcome.bind_ok] at htree
  rw [hbs]
  refine ⟨by rw [i2, hsize, hsym], i1, ?_⟩
  intro st hst
  rw [i4 st hst] at htree
  simp only [Outcome.bind_ok, Outcome.ok.injEq, Prod.mk.injEq] at htree
  exact htree

set_option maxRecDepth 100000 in
/-- The two passes of the merge loop for `heavyText`: the two frequencies taken add up to
`2^32` in the first pass and to `2^31 + 5` in the second. -/

theorem buildStates_heavyText :
    (buildStates listQueue heavyText).map
        (fun st => (listQueue.top (listQueue.pop st.2)).frequency
          + (listQueue.top st.2).frequency)
      = [2 ^ 32, 2 ^ 31 + 5] := by
  have h : fillTable heavyText (List.replicate tableSize {})
      = Outcome.ok (bumpAll [2 ^ 31, 2 ^ 31, 2 ^ 31 + 5] 97 (List.replicate tableSize {})) :=
    fillTable_blocks [2 ^ 31, 2 ^ 31, 2 ^ 31 + 5] 97 _ (by decide) (by simp)
  rw [buildStates, h]
  decide

/-! ## The claims -/

/-- C1 (as amended): for every text whose bytes all lie in `1..127`, that holds at least
two distinct bytes and fewer than `2^32` characters, whose tree has depth at most 32 and
whose stream holds fewer than `2^32` bits, `huffmanCompress` writes an artifact and
`huffmanDecompress` (with fuel for at least the bits of the stream) returns exactly the
text, for every priority queue that obeys the contract of `std::priority_queue`. -/
theorem compress_decompress_roundtrip (pq : PQueue) (text : List Nat) (t : BinaryTree)
    (root : Nat) (bs : BitStream)
    (hbytes : ∀ b, b ∈ text → 1 ≤ b ∧ b ≤ 127)
    (htwo : ∃ a, a ∈ text ∧ ∃ b, b ∈ text ∧ a ≠ b)
    (hlen : text.length < 2 ^ 32)
    (htree : buildTree pq text = Outcome.ok (t, root))
    (hdepth : treeDepth t.m_nodes.length t root ≤ 32)
    (hstream : compressStream pq text = Outcome.ok bs)
    (hbits : bs.getBitCount < 2 ^ 32) :
    ∃ art, huffmanCompress pq text = Outcome.ok art
      ∧ ∀ fuel, bs.getBitCount ≤ fuel → huffmanDecompress fuel art = Outcome.ok text :=
  roundtrip_core pq text t root bs hbytes htwo hlen htree hdepth hstream hbits

set_option maxRecDepth 100000 in
/-- The round trip of the text `abracadabra` through the list queue. -/
theorem compress_decompress_roundtrip_witness :
    ∃ art, huffmanCompress listQueue [97, 98, 114, 97, 99, 97, 100, 97, 98, 114, 97]
        = Outcome.ok art
      ∧ ∀ fuel, 72 ≤ fuel →
          huffmanDecompress fuel art
            = Outcome.ok [97, 98, 114, 97, 99, 97, 100, 97, 98, 114, 97] :=
  compress_decompress_roundtrip listQueue [97, 98, 114, 97, 99, 97, 100, 97, 98, 114, 97]
    ⟨[⟨97, 0, 0⟩, ⟨98, 0, 0⟩, ⟨99, 0, 0⟩, ⟨100, 0, 0⟩, ⟨114, 0, 0⟩, ⟨0, 3, 4⟩, ⟨0, 2, 5⟩,
      ⟨0, 6, 7⟩, ⟨0, 1, 8⟩]⟩
    9 ⟨72, 0, 72, [88, 75, 29, 145, 98, 185, 55, 69, 110, 0, 0]⟩
    (by decide) ⟨97, by decide, 98, by decide, by decide⟩ (by decide) (by decide) (by decide)
    (by decide) (by decide)

set_option maxRecDepth 100000 in
/-- C1, counterexample: the text `a a \0 b` is not empty, yet decompressing its artifact
gives `a a b` whatever the fuel: the zero byte is lost. -/
theorem roundtrip_fails_on_zero_byte :
    huffmanCompress listQueue [97, 97, 0, 98] = Outcome.ok ⟨22, [88, 172, 56]⟩
      ∧ (∀ fuel, 22 ≤ fuel →
          huffmanDecompress fuel ⟨22, [88, 172, 56]⟩ = Outcome.ok [97, 97, 98])
      ∧ ([97, 97, 98] : List Nat) ≠ [97, 97, 0, 98] := by
  refine ⟨by decide, ?_, by decide⟩
  obtain ⟨art, h1, h2⟩ := roundtrip_core listQueue [97, 97, 98]
    ⟨[⟨97, 0, 0⟩, ⟨98, 0, 0⟩, ⟨0, 2, 1⟩]⟩ 3 ⟨22, 0, 22, [88, 172, 56]⟩
    (by decide) ⟨97, by decide, 98, by decide, by decide⟩ (by decide) (by decide) (by decide)
    (by decide) (by decide)
  have h3 : huffmanCompress listQueue [97, 97, 98] = Outcome.ok ⟨22, [88, 172, 56]⟩ := by
    decide
  rw [h3] at h1
  cases h1
  exact h2

/-- C2: a well-formed tree (the arena under `root` has a finite shape `s` whose leaves are
bytes; it has fewer than `2^32` nodes, as it must to be stored under 32-bit ids)
serialized into a newly reserved stream and deserialized from the written bytes into an
empty arena gives back a tree of the same shape with the same leaf values, and the read
cursor then stands at the number of bits written. -/
theorem serialize_deserialize_roundtrip (t : BinaryTree) (root : Nat) (s : HTree)
    (reservebits fuel fuel' : Nat) (hwf : Embeds t 0 s root) (hbytes : s.Bytes)
    (hsize : s.size < 2 ^ 32)
    (hres : 0 < reservebits) (hfuel : s.depth < fuel) (hfuel' : s.depth < fuel') :
    ∃ bs, serializeNode fuel t root (BitStream.reserve reservebits) = Outcome.ok bs
      ∧ written bs = s.ser
      ∧ ∃ t' bs', deserializeNode fuel' {} 0 (BitStream.fromBytes bs.getBitBuffer bs.getBitCount)
          = Outcome.ok (1, t', bs')
        ∧ Embeds t' 0 s 1
        ∧ t'.m_nodes.length = s.size
        ∧ bs'.getRead = bs.getBitCount
        ∧ bs.getBitCount = s.ser.length := by
  obtain ⟨bs, h1, hc, hw, _⟩ :=
    serializeNode_spec t 0 s root fuel _ hwf hfuel (clean_reserve reservebits hres)
  rw [written_reserve, List.nil_append] at hw
  obtain ⟨pad, hpad⟩ := unread_fromBytes bs hc
  rw [hw] at hpad
  obtain ⟨t', h2, he, hl, _⟩ :=
    deserializeNode_spec s {} 0 fuel' (BitStream.fromBytes bs.getBitBuffer bs.getBitCount)
      pad hbytes hfuel' hpad (by show 0 + _ < _; omega)
  have hcount : bs.getBitCount = s.ser.length := by
    rw [← hw, written_length]; exact hc.size
  refine ⟨bs, h1, hw, t', _, h2, he, ?_, ?_, hcount⟩
  · simpa using hl
  · rw [hcount]
    simp [BitStream.getRead, advance, BitStream.fromBytes, BitStream.reserve]

set_option maxRecDepth 100000 in
/-- The tree of the text `aaab` through a stream of ten reserved bytes. -/
theorem serialize_deserialize_roundtrip_witness :
    ∃ bs, serializeNode 2 ⟨[⟨97, 0, 0⟩, ⟨98, 0, 0⟩, ⟨0, 2, 1⟩]⟩ 3 (BitStream.reserve 80)
        = Outcome.ok bs
      ∧ written bs = (HTree.node (HTree.leaf 98) (HTree.leaf 97)).ser
      ∧ ∃ t' bs', deserializeNode 2 {} 0 (BitStream.fromBytes bs.getBitBuffer bs.getBitCount)
          = Outcome.ok (1, t', bs')
        ∧ Embeds t' 0 (HTree.node (HTree.leaf 98) (HTree.leaf 97)) 1
        ∧ t'.m_nodes.length = (HTree.node (HTree.leaf 98) (HTree.leaf 97)).size
        ∧ bs'.getRead = bs.getBitCount
        ∧ bs.getBitCount = (HTree.node (HTree.leaf 98) (HTree.leaf 97)).ser.length :=
  serialize_deserialize_roundtrip ⟨[⟨97, 0, 0⟩, ⟨98, 0, 0⟩, ⟨0, 2, 1⟩]⟩ 3
    (HTree.node (HTree.leaf 98) (HTree.leaf 97)) 80 2 2
    ⟨by decide, ⟨0, 2, 1⟩, rfl, ⟨by decide, rfl⟩, ⟨by decide, rfl⟩⟩
    ⟨(by decide : 98 < 256), (by decide : 97 < 256)⟩ (by decide) (by decide) (by decide)
    (by decide)

/-- C3 (as amended): in the tree that `huffmanCompress` builds for a text, two different
symbols for which `findpattern` succeeds with depths of at most 32 (the width of
`pattern`) have codes, the bits that `write(pattern, 0, depth)` appends, neither of which
is a prefix of the other; this holds for every priority queue that obeys the contract of
`std::priority_queue`. -/
theorem codes_prefix_free (pq : PQueue) (text : List Nat) (t : BinaryTree)
    (root a b pa da pb db : Nat)
    (htree : buildTree pq text = Outcome.ok (t, root))
    (hab : a ≠ b)
    (hfa : findpattern (t.m_nodes.length + 1) t root a 0 0 = Outcome.ok (true, pa, da))
    (hfb : findpattern (t.m_nodes.length + 1) t root b 0 0 = Outcome.ok (true, pb, db))
    (hda : da ≤ 32) (hdb : db ≤ 32) :
    ¬ (writeBits 32 pa 0 da <+: writeBits 32 pb 0 db)
      ∧ ¬ (writeBits 32 pb 0 db <+: writeBits 32 pa 0 da) := by
  obtain ⟨s, hs⟩ := findpattern_built pq text t root (bytes_of_buildTree pq text _ htree) htree
  obtain ⟨p, hp, rfl, rfl, _⟩ := hs a pa da hfa
  obtain ⟨q, hq, rfl, rfl, _⟩ := hs b pb db hfb
  have ep := writeBits_packPattern p hda
  have eq := writeBits_packPattern q hdb
  rw [Nat.zero_add, Nat.mod_eq_of_lt (by omega)] at ep eq
  rw [ep, eq]
  exact ⟨path_not_isPrefix s a b p q hab hp hq, path_not_isPrefix s b a q p (Ne.symm hab) hq hp⟩

set_option maxRecDepth 100000 in
/-- The codes `0` of `a` and `110` of `b` in the tree of `abracadabra`. -/
theorem codes_prefix_free_witness :
    ¬ (writeBits 32 0 0 1 <+: writeBits 32 (2 ^ 31 + 2 ^ 30) 0 3)
      ∧ ¬ (writeBits 32 (2 ^ 31 + 2 ^ 30) 0 3 <+: writeBits 32 0 0 1) :=
  codes_prefix_free listQueue [97, 98, 114, 97, 99, 97, 100, 97, 98, 114, 97]
    ⟨[⟨97, 0, 0⟩, ⟨98, 0, 0⟩, ⟨99, 0, 0⟩, ⟨100, 0, 0⟩, ⟨114, 0, 0⟩, ⟨0, 3, 4⟩, ⟨0, 2, 5⟩,
      ⟨0, 6, 7⟩, ⟨0, 1, 8⟩]⟩
    9 97 98 0 1 (2 ^ 31 + 2 ^ 30) 3
    (by decide) (by decide) (by decide) (by decide) (by decide) (by decide)

set_option maxRecDepth 1000000 in
/-- C3, counterexample: in the tree built for `deepText` the symbols `1` and `2` lie 33
levels deep; `findpattern` returns the same 32-bit pattern and the same depth for both, so
both get the same code. -/
theorem deep_codes_collide :
    buildTree listQueue deepText = Outcome.ok (deepTree, 67)
      ∧ findpattern 68 deepTree 67 1 0 0 = Outcome.ok (true, 4294967294, 33)
      ∧ findpattern 68 deepTree 67 2 0 0 = Outcome.ok (true, 4294967294, 33)
      ∧ writeBits 32 4294967294 0 33 <+: writeBits 32 4294967294 0 33 := by
  refine ⟨?_, by decide, by decide, List.prefix_refl _⟩
  have h : fillTable deepText (List.replicate tableSize {})
      = Outcome.ok (bumpAll deepWeights 1 (List.replicate tableSize {})) :=
    fillTable_blocks deepWeights 1 _ (by decide) (by simp)
  unfold buildTree
  rw [h]
  decide

set_option maxRecDepth 100000 in
/-- C4: for the text `aaab` and every priority queue, the built tree has the root `3`
whose left child is the leaf `b` and whose right child is the leaf `a`; `findpattern` gives
`a` the pattern with bit 31 set and depth 1 (code `1`) and `b` the pattern `0` and depth 1
(code `0`); the stream holds the serialized tree followed by the bits `1110`; the artifact
has 23 bits, and decoding it gives `aaab` back. -/
theorem aaab_scenario (pq : PQueue) :
    buildTree pq [97, 97, 97, 98] = Outcome.ok (⟨[⟨97, 0, 0⟩, ⟨98, 0, 0⟩, ⟨0, 2, 1⟩]⟩, 3)
      ∧ Embeds ⟨[⟨97, 0, 0⟩, ⟨98, 0, 0⟩, ⟨0, 2, 1⟩]⟩ 0
          (HTree.node (HTree.leaf 98) (HTree.leaf 97)) 3
      ∧ findpattern 4 ⟨[⟨97, 0, 0⟩, ⟨98, 0, 0⟩, ⟨0, 2, 1⟩]⟩ 3 97 0 0
          = Outcome.ok (true, 2 ^ 31, 1)
      ∧ writeBits 32 (2 ^ 31) 0 1 = [true]
      ∧ findpattern 4 ⟨[⟨97, 0, 0⟩, ⟨98, 0, 0⟩, ⟨0, 2, 1⟩]⟩ 3 98 0 0
          = Outcome.ok (true, 0, 1)
      ∧ writeBits 32 0 0 1 = [false]
      ∧ (∃ bs, compressStream pq [97, 97, 97, 98] = Outcome.ok bs
          ∧ written bs = (HTree.node (HTree.leaf 98) (HTree.leaf 97)).ser
              ++ [true, true, true, false])
      ∧ huffmanCompress pq [97, 97, 97, 98] = Outcome.ok ⟨23, [88, 172, 60]⟩
      ∧ ∀ fuel, 23 ≤ fuel →
          huffmanDecompress fuel ⟨23, [88, 172, 60]⟩ = Outcome.ok [97, 97, 97, 98] := by
  have hb := buildTree_aaab pq
  have hs : compressStream pq [97, 97, 97, 98]
      = Outcome.ok ⟨23, 0, 23, [88, 172, 60, 0]⟩ := by
    simp only [compressStream, hb, Outcome.bind_ok]
    decide
  have hc : huffmanCompress pq [97, 97, 97, 98] = Outcome.ok ⟨23, [88, 172, 60]⟩ := by
    simp only [huffmanCompress, hs, Outcome.bind_ok]
    decide
  refine ⟨hb, ⟨by decide, ⟨0, 2, 1⟩, rfl, ⟨by decide, rfl⟩, ⟨by decide, rfl⟩⟩, by decide,
    by decide, by decide, by decide, ⟨_, hs, by decide⟩, hc, ?_⟩
  obtain ⟨art, h1, h2⟩ := roundtrip_core pq [97, 97, 97, 98] _ 3 _
    (by decide) ⟨97, by decide, 98, by decide, by decide⟩ (by decide) hb (by decide) hs
    (by decide)
  rw [hc] at h1
  cases h1
  exact h2

/-- C5 (the code at the failing inputs): for every byte `b` below 128 and every `k`, the
text of `k` copies of `b` is compressed to the artifact without bits and bytes (the root
stays `0`, so no tree is serialized and every character is skipped), and
`huffmanDecompress` never returns on that artifact, whatever the fuel. -/
theorem single_symbol_lost (pq : PQueue) (b : Fin 128) (k : Nat) :
    huffmanCompress pq (List.replicate k b.val) = Outcome.ok ⟨0, []⟩
      ∧ ∀ fuel, huffmanDecompress fuel ⟨0, []⟩ = Outcome.outOfFuel := by
  refine ⟨?_, decompress_empty_diverges⟩
  apply compress_no_tree
  · intro x hx
    rw [List.eq_of_mem_replicate hx]
    exact b.isLt
  · intro table ht
    exact symbolsOf_replicate_le k b.val table ht

/-- C6 (the code at the failing inputs): a text that uses all 256 byte values makes
`huffmanCompress` fault while it fills the frequency table: the table has 255 entries and
is indexed through the signed `char`, so the bytes from 128 on fall outside it. -/
theorem full_alphabet_faults (pq : PQueue) (text : List Nat)
    (h : ∀ v, v < 256 → v ∈ text) : huffmanCompress pq text = Outcome.fault := by
  have hf : fillTable text (List.replicate tableSize {}) = Outcome.fault :=
    fillTable_fault text _ (by simp) ⟨128, h 128 (by decide), Nat.le_refl _⟩
  simp only [huffmanCompress, compressStream, buildTree, hf, Outcome.bind_fault]

/-- The text `0, 1, ..., 255`. -/
theorem full_alphabet_faults_witness :
    huffmanCompress listQueue (List.range 256) = Outcome.fault :=
  full_alphabet_faults listQueue (List.range 256) (fun _ hv => List.mem_range.mpr hv)

/-- C7 (the code at the failing input): the empty text is compressed to the header `0` and
an empty payload, and `huffmanDecompress` never returns on that artifact: with no bit to
read, `deserializeNode` allocates node after node. -/
theorem empty_input_diverges (pq : PQueue) :
    huffmanCompress pq [] = Outcome.ok ⟨0, []⟩
      ∧ (∀ fuel t node, deserializeNode fuel t node (BitStream.fromBytes [] 0)
          = Outcome.outOfFuel)
      ∧ ∀ fuel, huffmanDecompress fuel ⟨0, []⟩ = Outcome.outOfFuel := by
  refine ⟨?_, fun fuel t node => deserializeNode_starved fuel t node _ rfl,
    decompress_empty_diverges⟩
  apply compress_no_tree
  · intro x hx; cases hx
  · intro table ht
    exact symbolsOf_replicate_le 0 0 table ht

/-- C8 (as amended): for every text of bytes below 128, the stream of `huffmanCompress`
holds the serialized tree followed by the codes of the characters (nothing when no tree
is built); the header holds the bit count of that stream, the number of bits written,
reduced modulo `2^32`, and is followed by exactly `ceil(bit count / 8)` payload bytes,
counted from the stream and not from the header; when the bit count is below `2^32` the
header equals it and the payload has `ceil(header / 8)` bytes. -/
theorem header_and_payload (pq : PQueue) (text : List Nat) (hbytes : ∀ b, b ∈ text → b < 128) :
    ∃ t root bs art, buildTree pq text = Outcome.ok (t, root)
      ∧ compressStream pq text = Outcome.ok bs
      ∧ huffmanCompress pq text = Outcome.ok art
      ∧ ((root = 0 ∧ written bs = [])
        ∨ ∃ s, Embeds t 0 s root
            ∧ written bs = s.ser ++ text.flatMap (fun c => codeBits s (c % 256)))
      ∧ bs.getBitCount = (written bs).length
      ∧ art.bitcount = bs.getBitCount % 2 ^ 32
      ∧ art.payload.length = (bs.getBitCount + 7) / 8
      ∧ (bs.getBitCount < 2 ^ 32 →
          art.bitcount = bs.getBitCount ∧ art.payload.length = (art.bitcount + 7) / 8) := by
  obtain ⟨t, root, bs, art, h0, h1, h2, hw, h3, h4, h5⟩ := artifact_spec pq text hbytes
  refine ⟨t, root, bs, art, h0, h1, h2, hw, h3, h4, h5, ?_⟩
  intro hlt
  have h6 : art.bitcount = bs.getBitCount := by rw [h4]; exact Nat.mod_eq_of_lt hlt
  exact ⟨h6, by rw [h6]; exact h5⟩

set_option maxRecDepth 100000 in
/-- The artifact of the text `abracadabra`. -/
theorem header_and_payload_witness :
    ∃ t root bs art,
      buildTree listQueue [97, 98, 114, 97, 99, 97, 100, 97, 98, 114, 97] = Outcome.ok (t, root)
      ∧ compressStream listQueue [97, 98, 114, 97, 99, 97, 100, 97, 98, 114, 97]
        = Outcome.ok bs
      ∧ huffmanCompress listQueue [97, 98, 114, 97, 99, 97, 100, 97, 98, 114, 97]
        = Outcome.ok art
      ∧ ((root = 0 ∧ written bs = [])
        ∨ ∃ s, Embeds t 0 s root
            ∧ written bs = s.ser
              ++ List.flatMap [97, 98, 114, 97, 99, 97, 100, 97, 98, 114, 97]
                  (fun c => codeBits s (c % 256)))
      ∧ bs.getBitCount = (written bs).length
      ∧ art.bitcount = bs.getBitCount % 2 ^ 32
      ∧ art.payload.length = (bs.getBitCount + 7) / 8
      ∧ (bs.getBitCount < 2 ^ 32 →
          art.bitcount = bs.getBitCount ∧ art.payload.length = (art.bitcount + 7) / 8) :=
  header_and_payload listQueue [97, 98, 114, 97, 99, 97, 100, 97, 98, 114, 97] (by decide)

set_option maxRecDepth 100000 in
/-- C8, counterexample: for the text of `2^32 - 1` bytes `a` and one byte `b` the stream
holds `2^32 + 19` bits (19 for the tree, one per character), the header holds `19`, and
the payload has `2^29 + 3` bytes, not the 3 bytes that 19 bits need. -/
theorem header_wraps_around :
    ∃ bs art, compressStream listQueue hugeText = Outcome.ok bs
      ∧ huffmanCompress listQueue hugeText = Outcome.ok art
      ∧ bs.getBitCount = 2 ^ 32 + 19
      ∧ art.bitcount = 19
      ∧ art.payload.length = 2 ^ 29 + 3 := by
  have hb : ∀ b, b ∈ hugeText → b < 128 := by
    intro b hb
    rcases hugeText_mem b hb with h | h <;> omega
  obtain ⟨_, t, root, bs, _, _, h3, h4, h5⟩ := compressStream_spec listQueue hugeText hb
  rw [buildTree_hugeText] at h3
  simp only [Outcome.ok.injEq, Prod.mk.injEq] at h3
  obtain ⟨rfl, rfl⟩ := h3
  rcases h5 with ⟨_, h0, _⟩ | ⟨_, sl, sr, he, _, _, _, hc, hw⟩
  · cases h0
  have hs : HTree.node sl sr = HTree.node (HTree.leaf 98) (HTree.leaf 97) :=
    he.unique ⟨by decide, ⟨0, 2, 1⟩, rfl, ⟨by decide, rfl⟩, ⟨by decide, rfl⟩⟩
  rw [hs] at hw
  have hcount : bs.getBitCount = 2 ^ 32 + 19 := by
    have hlen := congrArg List.length hw
    rw [written_length, ← hc.size, List.length_append, length_flatMap_ones, hugeText_length]
      at hlen
    · rw [BitStream.getBitCount, hlen]; decide
    · intro c hc
      rcases hugeText_mem c hc with h | h <;> subst h <;> decide
  obtain ⟨_, _, bs', art, _, h1, h2, _, _, h6, h7⟩ := artifact_spec listQueue hugeText hb
  rw [h4] at h1
  cases h1
  refine ⟨bs, art, h4, h2, hcount, ?_, ?_⟩
  · rw [h6, hcount]; decide
  · rw [h7, hcount]; decide

/-- C9 (as amended): for every text of bytes below 128, `huffmanCompress` builds its tree,
fills its stream and returns an artifact; a character for which `findpattern` fails is
skipped, so the encode loop leaves the same stream as for the text without that
character, and no encoding error is reported. -/
theorem unmatched_byte_is_skipped (pq : PQueue) (text : List Nat)
    (hbytes : ∀ b, b ∈ text → b < 128) :
    ∃ t root bs art, buildTree pq text = Outcome.ok (t, root)
      ∧ compressStream pq text = Outcome.ok bs
      ∧ huffmanCompress pq text = Outcome.ok art
      ∧ ∀ c p d pre post s,
          findpattern (t.m_nodes.length + 1) t root (c % 256) 0 0 = Outcome.ok (false, p, d) →
          encodeLoop (t.m_nodes.length + 1) t root (pre ++ c :: post) s
            = encodeLoop (t.m_nodes.length + 1) t root (pre ++ post) s := by
  obtain ⟨_, t, root, bs, _, _, h3, h4, _⟩ := compressStream_spec pq text hbytes
  refine ⟨t, root, bs, ⟨bs.getBitCount % 2 ^ 32, bs.getBitBuffer⟩, h3, h4,
    by simp only [huffmanCompress, h4, Outcome.bind_ok], ?_⟩
  intro c p d pre post s h
  exact encodeLoop_skip _ t root c p d pre post s h

set_option maxRecDepth 100000 in
/-- The text `a a \\0 b`. -/
theorem unmatched_byte_is_skipped_witness :
    ∃ t root bs art, buildTree listQueue [97, 97, 0, 98] = Outcome.ok (t, root)
      ∧ compressStream listQueue [97, 97, 0, 98] = Outcome.ok bs
      ∧ huffmanCompress listQueue [97, 97, 0, 98] = Outcome.ok art
      ∧ ∀ c p d pre post s,
          findpattern (t.m_nodes.length + 1) t root (c % 256) 0 0 = Outcome.ok (false, p, d) →
          encodeLoop (t.m_nodes.length + 1) t root (pre ++ c :: post) s
            = encodeLoop (t.m_nodes.length + 1) t root (pre ++ post) s :=
  unmatched_byte_is_skipped listQueue [97, 97, 0, 98] (by decide)

set_option maxRecDepth 100000 in
/-- C9, counterexample: in the text `a a \0 b` the zero byte has no leaf in the built tree
and `findpattern` fails for it, yet `huffmanCompress` returns an artifact, the same one as
for the text `a a b`. -/
theorem zero_byte_silently_omitted :
    buildTree listQueue [97, 97, 0, 98]
        = Outcome.ok (⟨[⟨97, 0, 0⟩, ⟨98, 0, 0⟩, ⟨0, 2, 1⟩]⟩, 3)
      ∧ findpattern 4 ⟨[⟨97, 0, 0⟩, ⟨98, 0, 0⟩, ⟨0, 2, 1⟩]⟩ 3 0 0 0 = Outcome.ok (false, 0, 0)
      ∧ huffmanCompress listQueue [97, 97, 0, 98] = Outcome.ok ⟨22, [88, 172, 56]⟩
      ∧ huffmanCompress listQueue [97, 97, 98] = Outcome.ok ⟨22, [88, 172, 56]⟩ := by
  decide

set_option maxRecDepth 100000 in
/-- C10 (the code at the failing inputs): the decoder reports no format error on a stream
that ends before the serialized tree is complete. On the stream that holds only the marker
bit `0`, `deserializeNode` never returns, whatever the fuel, and so `huffmanDecompress`
never returns on the artifact of that one bit. On the stream of the five bits `1 0110` (a
leaf marker followed by four bits) `deserializeNode` returns the leaf `96` as node `1`,
the read cursor at the end of the byte, past the bit count; the decode loop of
`huffmanDecompress` then never ends. -/
theorem truncated_stream_is_not_rejected :
    (∀ fuel t node, deserializeNode fuel t node (BitStream.fromBytes [0] 1)
        = Outcome.outOfFuel)
      ∧ (∀ fuel, huffmanDecompress fuel ⟨1, [0]⟩ = Outcome.outOfFuel)
      ∧ (∀ fuel, deserializeNode (fuel + 1) {} 0 (BitStream.fromBytes [176] 5)
          = Outcome.ok (1, ⟨[⟨96, 0, 0⟩]⟩, ⟨0, 8, 5, [176]⟩))
      ∧ ∀ fuel, huffmanDecompress fuel ⟨5, [176]⟩ = Outcome.outOfFuel := by
  refine ⟨fun fuel t node => deserializeNode_zeros fuel t node _ (by decide),
    decompress_marker_only, fun fuel => ?_, decompress_cut_leaf⟩
  exact (deserializeNode_short_leaf fuel {} 0 _ [false, true, true, false, false, false, false]
    (by decide) (by decide)).2.trans (by decide)

/-- C11 (as amended): when the payload holds a serialized tree, the codes of a text and
then steps `p` that lead from the root to an inner node (for `p ≠ []` an incomplete last
code: the declared bit count runs out while the decode cursor stands on an inner node
other than the root), `huffmanDecompress` reports no error: it returns the text decoded
so far and drops the bits of the incomplete code. Fuel of the bit count suffices. -/
theorem incomplete_code_is_dropped (s : HTree) (text : List Nat) (p pad : List Bool)
    (l r : HTree) (art : Artifact) (fuel : Nat)
    (hbytes : s.Bytes) (hsize : s.size < 2 ^ 32)
    (htext : ∀ c, c ∈ text → c ∈ s.leaves)
    (hfollow : s.follow p = some (HTree.node l r))
    (hbits : unread (BitStream.fromBytes art.payload art.bitcount)
      = s.ser ++ text.flatMap (fun c => (s.path c).getD []) ++ p ++ pad)
    (hcount : art.bitcount
      = (s.ser ++ text.flatMap (fun c => (s.path c).getD []) ++ p).length)
    (hlt : art.bitcount < 2 ^ 32) (hfuel : art.bitcount ≤ fuel) :
    huffmanDecompress fuel art = Outcome.ok text :=
  decompress_incomplete s text p pad l r art fuel hbytes hsize htext hfollow hbits hcount hlt
    hfuel

set_option maxRecDepth 100000 in
/-- The tree with `a` to the left and `b`, `c` under an inner node to the right, the code
`0` of `a` and then the single step `1`. -/
theorem incomplete_code_is_dropped_witness :
    huffmanDecompress 31 ⟨31, [88, 86, 43, 26]⟩ = Outcome.ok [97] :=
  incomplete_code_is_dropped
    (HTree.node (HTree.leaf 97) (HTree.node (HTree.leaf 98) (HTree.leaf 99)))
    [97] [true] [false] (HTree.leaf 98) (HTree.leaf 99) ⟨31, [88, 86, 43, 26]⟩ 31
    ⟨(by decide : 97 < 256), (by decide : 98 < 256), (by decide : 99 < 256)⟩
    (by decide) (by decide) rfl (by decide) (by decide) (by decide) (by decide)

set_option maxRecDepth 100000 in
/-- C11, counterexample: the artifact of 31 bits `58 56 2B 1A` holds the tree with `a` to
the left and `b`, `c` under the inner node 3 to the right (29 bits), the code `0` of `a`
and one more bit `1`. That bit leads from the root to the inner node 3, where the bit
count is exhausted; `huffmanDecompress` returns the text `a` as a success. -/
theorem incomplete_last_code_accepted :
    deserializeNode 3 {} 0 (BitStream.fromBytes [88, 86, 43, 26] 31)
        = Outcome.ok (1,
            ⟨[⟨0, 2, 3⟩, ⟨97, 0, 0⟩, ⟨0, 4, 5⟩, ⟨98, 0, 0⟩, ⟨99, 0, 0⟩]⟩, ⟨0, 29, 31, [88, 86, 43, 26]⟩)
      ∧ BitStream.readbit ⟨0, 30, 31, [88, 86, 43, 26]⟩ false
        = (true, true, ⟨0, 31, 31, [88, 86, 43, 26]⟩)
      ∧ BinaryTree.getChildNode ⟨[⟨0, 2, 3⟩, ⟨97, 0, 0⟩, ⟨0, 4, 5⟩, ⟨98, 0, 0⟩, ⟨99, 0, 0⟩]⟩ 1 true
        = 3
      ∧ BinaryTree.isNodeLeaf ⟨[⟨0, 2, 3⟩, ⟨97, 0, 0⟩, ⟨0, 4, 5⟩, ⟨98, 0, 0⟩, ⟨99, 0, 0⟩]⟩ 3
        = false
      ∧ ∀ fuel, 31 ≤ fuel → huffmanDecompress fuel ⟨31, [88, 86, 43, 26]⟩ = Outcome.ok [97] := by
  refine ⟨by decide, by decide, by decide, by decide, fun fuel hfuel => ?_⟩
  exact decompress_incomplete
    (HTree.node (HTree.leaf 97) (HTree.node (HTree.leaf 98) (HTree.leaf 99)))
    [97] [true] [false] (HTree.leaf 98) (HTree.leaf 99) ⟨31, [88, 86, 43, 26]⟩ fuel
    ⟨(by decide : 97 < 256), (by decide : 98 < 256), (by decide : 99 < 256)⟩
    (by decide) (by decide) rfl (by decide) (by decide) (by decide) hfuel

/-- C12 (as amended): `readbit` fails exactly when the read cursor has reached the end of
the byte buffer (eight times the number of buffer bytes), whatever `getBitCount()` says.
A failed call leaves the stream and the out-parameter alone, a successful one returns the
bit under the cursor and moves the cursor on by one, so the read cursor never passes the
end of the buffer. -/
theorem readbit_fails_at_buffer_end (s : BitStream) (bit : Bool) :
    ((s.readbit bit).1 = false ↔ s.m_buffer.length * 8 ≤ s.getRead)
      ∧ (s.m_buffer.length * 8 ≤ s.getRead → s.readbit bit = (false, bit, s))
      ∧ (s.getRead < s.m_buffer.length * 8 →
          s.readbit bit = (true, bitAt s.m_buffer s.getRead, advance s 1))
      ∧ (s.getRead ≤ s.m_buffer.length * 8 →
          (s.readbit bit).2.2.getRead ≤ s.m_buffer.length * 8) := by
  unfold BitStream.readbit BitStream.getRead
  by_cases h : s.m_bufferRead ≥ s.m_buffer.length * 8
  · rw [if_pos h]
    exact ⟨⟨fun _ => h, fun _ => rfl⟩, fun _ => rfl, fun h' => absurd h (Nat.not_le.mpr h'),
      fun h' => h'⟩
  · rw [if_neg h]
    refine ⟨⟨fun h' => Bool.noConfusion h', fun h' => absurd h' h⟩, fun h' => absurd h' h,
      fun _ => rfl, fun _ => ?_⟩
    show s.m_bufferRead + 1 ≤ s.m_buffer.length * 8
    omega

set_option maxRecDepth 100000 in
/-- C12, counterexample: the stream built from the byte `0xB0` with a bit count of 5 has,
after five bits were read, its read cursor at the bit count; `readbit` succeeds all the
same and moves the cursor to 6. A stream that was only reserved (bit count 0) also
delivers a bit. -/
theorem readbit_passes_bit_count :
    (BitStream.fromBytes [176] 5).read 0 0 5 = Outcome.ok (true, 176, ⟨0, 5, 5, [176]⟩)
      ∧ BitStream.getRead ⟨0, 5, 5, [176]⟩ = BitStream.getBitCount ⟨0, 5, 5, [176]⟩
      ∧ BitStream.readbit ⟨0, 5, 5, [176]⟩ false = (true, false, ⟨0, 6, 5, [176]⟩)
      ∧ (BitStream.reserve 8).getBitCount = 0
      ∧ (BitStream.reserve 8).readbit false = (true, false, ⟨0, 1, 0, [0]⟩) := by
  decide

set_option maxRecDepth 100000 in
/-- C13: the stream constructed from `(bytes, n)` has read cursor `0` and bit count `n`,
but its write cursor is `0` for every `n`, not `n`: the constructor sets `m_bufferSize`
and leaves `m_bufferWrite` at its initial value. For the byte `0xB0` and `n = 5` the
write cursor is `0`, and a `writebit(1)` on that stream lands on bit 0 instead of behind
the five bits, while the bit count goes to 6. -/
theorem fromBytes_write_cursor_zero (bytes : List Nat) (n : Nat) :
    (BitStream.fromBytes bytes n).getWrite = 0
      ∧ (BitStream.fromBytes bytes n).getRead = 0
      ∧ (BitStream.fromBytes bytes n).getBitCount = n
      ∧ (BitStream.fromBytes [176] 5).getWrite ≠ 5
      ∧ (BitStream.fromBytes [48] 5).writebit true = Outcome.ok ⟨1, 0, 6, [176]⟩ :=
  ⟨rfl, rfl, rfl, by decide, by decide⟩

/-- C14 (as amended): on a stream that has only been written to since its reserving
constructor, `write(value, o, n)` for a value type of `w ≤ 32` bits and `o + n ≤ w`
appends the bits `o, o + 1, ..., n - 1` of `value`, counted from the most significant bit:
`n - o` bits (none when `n ≤ o`), so `n` plays the part of an end position. With `o = 0`
these are the first `n` bits. -/
theorem write_appends_up_to_end (s : BitStream) (w v o n : Nat) (hc : Clean s) (_hw : w ≤ 32)
    (ho : o + n ≤ w) :
    ∃ s', s.write w v o n = Outcome.ok s'
      ∧ written s' = written s ++ (List.range' o (n - o)).map (fun i => v.testBit (w - 1 - i))
      ∧ s'.getBitCount = s.getBitCount + (n - o)
      ∧ s'.getWrite = s.getWrite + (n - o)
      ∧ Clean s' := by
  obtain ⟨s', h1, hc', hw', _⟩ := write_spec w v o n s hc
  rw [writeBits_eq_map_testBit w v o n ho] at hw'
  have hlen := congrArg List.length hw'
  simp only [written_length, List.length_append, List.length_map, List.length_range'] at hlen
  refine ⟨s', h1, hw', ?_, hlen, hc'⟩
  simp only [BitStream.getBitCount, hc'.size, hc.size, hlen]

set_option maxRecDepth 100000 in
/-- The first three bits of the byte `0xA0` written into a stream of one reserved byte. -/
theorem write_appends_up_to_end_witness :
    ∃ s', (BitStream.reserve 8).write 8 160 0 3 = Outcome.ok s'
      ∧ written s' = written (BitStream.reserve 8)
          ++ (List.range' 0 (3 - 0)).map (fun i => Nat.testBit 160 (8 - 1 - i))
      ∧ s'.getBitCount = (BitStream.reserve 8).getBitCount + (3 - 0)
      ∧ s'.getWrite = (BitStream.reserve 8).getWrite + (3 - 0)
      ∧ Clean s' :=
  write_appends_up_to_end (BitStream.reserve 8) 8 160 0 3 (clean_reserve 8 (by decide))
    (by decide) (by decide)

set_option maxRecDepth 100000 in
/-- C14, counterexample: `write<uint8_t>(0x28, 2, 3)` (`o + n = 5 ≤ 8`) on a stream of one
reserved byte appends the single bit 2 of the value, not the three bits 2, 3, 4 (`1 0 1`);
`write<uint8_t>(0xFF, 3, 3)` appends nothing. -/
theorem write_with_offset_is_short :
    (BitStream.reserve 8).write 8 40 2 3 = Outcome.ok ⟨1, 0, 1, [128]⟩
      ∧ written ⟨1, 0, 1, [128]⟩ = [true]
      ∧ (List.range' 2 3).map (fun i => Nat.testBit 40 (8 - 1 - i)) = [true, false, true]
      ∧ (BitStream.reserve 8).write 8 255 3 3 = Outcome.ok (BitStream.reserve 8) := by
  decide

/-- C15 (as amended): `read` of `count ≤ 8` bits succeeds if and only if at least `count`
bits remain between the read cursor and the end of the byte buffer, whatever
`getBitCount()` says. On success the cursor has moved on by `count` and the bits stand
in the out-parameter from its most significant bit on; on failure `read` returns false
with the cursor at the end of the buffer and the bits read so far in the out-parameter. -/
theorem read_succeeds_iff_buffer_suffices (s : BitStream) (data count : Nat)
    (hcount : count ≤ 8) :
    ∃ flag value s', s.read data 0 count = Outcome.ok (flag, value, s')
      ∧ (flag = true ↔ count ≤ s.m_buffer.length * 8 - s.getRead)
      ∧ (flag = true →
          s' = advance s count ∧ value = readBitsVal ((unread s).take count) 0 data)
      ∧ (flag = false →
          s' = advance s (unread s).length ∧ value = readBitsVal (unread s) 0 data) := by
  have hlen := unread_length s
  unfold BitStream.read BitStream.getRead
  by_cases h : count ≤ (unread s).length
  · have hu : unread s = (unread s).take count ++ (unread s).drop count :=
      (List.take_append_drop _ _).symm
    have htl : ((unread s).take count).length = count := by
      rw [List.length_take]; omega
    have := readLoop_full ((unread s).take count) ((unread s).drop count) 0 data s hu
      (by omega)
    rw [htl] at this
    refine ⟨true, _, _, this, ⟨fun _ => by omega, fun _ => rfl⟩, fun _ => ⟨rfl, rfl⟩,
      fun h' => Bool.noConfusion h'⟩
  · have := readLoop_short (unread s) count 0 data s rfl (by omega) (by omega)
    refine ⟨false, _, _, this, ⟨fun h' => Bool.noConfusion h', fun h' => ?_⟩,
      fun h' => Bool.noConfusion h', fun _ => ⟨rfl, rfl⟩⟩
    omega

set_option maxRecDepth 100000 in
/-- A byte read from the stream built from the bytes `0xB0 0x0F` with 16 bits. -/
theorem read_succeeds_iff_buffer_suffices_witness :
    ∃ flag value s', (BitStream.fromBytes [176, 15] 16).read 0 0 8 = Outcome.ok (flag, value, s')
      ∧ (flag = true ↔ 8 ≤ (BitStream.fromBytes [176, 15] 16).m_buffer.length * 8
          - (BitStream.fromBytes [176, 15] 16).getRead)
      ∧ (flag = true →
          s' = advance (BitStream.fromBytes [176, 15] 16) 8
            ∧ value = readBitsVal ((unread (BitStream.fromBytes [176, 15] 16)).take 8) 0 0)
      ∧ (flag = false →
          s' = advance (BitStream.fromBytes [176, 15] 16)
              (unread (BitStream.fromBytes [176, 15] 16)).length
            ∧ value = readBitsVal (unread (BitStream.fromBytes [176, 15] 16)) 0 0) :=
  read_succeeds_iff_buffer_suffices (BitStream.fromBytes [176, 15] 16) 0 8 (by decide)

set_option maxRecDepth 100000 in
/-- C15, counterexample: a stream of one reserved byte into which nothing was written (bit
count 0) delivers eight bits, and the stream built from the byte `0xB0` with a bit count
of 5 delivers eight bits as well; with its cursor at 1 the same stream fails a read of
eight bits only after it has consumed the seven bits up to the end of the byte. -/
theorem read_passes_bit_count :
    (BitStream.reserve 8).getBitCount = 0
      ∧ (BitStream.reserve 8).read 0 0 8 = Outcome.ok (true, 0, ⟨0, 8, 0, [0]⟩)
      ∧ (BitStream.fromBytes [176] 5).getBitCount = 5
      ∧ (BitStream.fromBytes [176] 5).read 0 0 8 = Outcome.ok (true, 176, ⟨0, 8, 5, [176]⟩)
      ∧ BitStream.read ⟨0, 1, 5, [176]⟩ 0 0 8 = Outcome.ok (false, 96, ⟨0, 8, 5, [176]⟩) := by
  decide

/-- C16: on a stream constructed with a reserve of zero bits the first `writebit` faults:
`realloc` doubles the empty buffer to an empty buffer and the byte access that follows is
outside it. With a reserve of at least one bit everything the claim says holds: writing
any bits one by one succeeds, the buffer has its first size times a power of two, the
written bits are the given ones in order, the bit count is their number, and `readbit`
from cursor 0 returns them in order. -/
theorem writebit_faults_without_reserve (bit : Bool) (reservebits : Nat) (bits : List Bool) :
    (BitStream.reserve 0).writebit bit = Outcome.fault
      ∧ (0 < reservebits →
          ∃ s k, writeEach bits (BitStream.reserve reservebits) = Outcome.ok s
            ∧ s.m_buffer.length = calcByteCount reservebits * 2 ^ k
            ∧ written s = bits
            ∧ s.getBitCount = bits.length
            ∧ s.getRead = 0
            ∧ readEach bits.length s = bits) := by
  refine ⟨by cases bit <;> rfl, fun hres => ?_⟩
  obtain ⟨s, k, h1, hc, hw, hr, hl⟩ :=
    writeEach_spec bits (BitStream.reserve reservebits) (clean_reserve reservebits hres)
  rw [written_reserve, List.nil_append] at hw
  have hr0 : s.m_bufferRead = 0 := hr
  obtain ⟨pad, hpad⟩ := unread_self s hc hr0
  rw [hw] at hpad
  refine ⟨s, k, h1, ?_, hw, ?_, hr0, readEach_spec bits pad s hpad⟩
  · rw [hl]; simp [BitStream.reserve]
  · rw [BitStream.getBitCount, hc.size, ← written_length, hw]

set_option maxRecDepth 100000 in
/-- Twenty bits written into a stream of one reserved byte, which doubles twice. -/
theorem writebit_faults_without_reserve_witness :
    (BitStream.reserve 0).writebit true = Outcome.fault
      ∧ ∃ s k, writeEach ([true, false, true, true, false] ++ List.replicate 15 true)
            (BitStream.reserve 8) = Outcome.ok s
          ∧ s.m_buffer.length = calcByteCount 8 * 2 ^ k
          ∧ written s = [true, false, true, true, false] ++ List.replicate 15 true
          ∧ s.getBitCount = ([true, false, true, true, false] ++ List.replicate 15 true).length
          ∧ s.getRead = 0
          ∧ readEach ([true, false, true, true, false] ++ List.replicate 15 true).length s
              = [true, false, true, true, false] ++ List.replicate 15 true :=
  ⟨(writebit_faults_without_reserve true 8
      ([true, false, true, true, false] ++ List.replicate 15 true)).1,
    (writebit_faults_without_reserve true 8
      ([true, false, true, true, false] ++ List.replicate 15 true)).2 (by decide)⟩

/-- C17 (as amended): as long as the arena holds fewer than `2^32` nodes after the calls,
successive calls of `allocNode` return the ids `size + 1, size + 2, ...` in allocation
order (`1, 2, 3, ...` on an empty arena): each id is greater than the one before, none is
`0`, each is valid afterwards and greater than every id that was valid before. In an arena
of any size the new nodes are appended as leaves with the given values, and ids that were
valid before stay valid and `getNode` returns the same node for them. -/
theorem allocNode_ids_ascend (t : BinaryTree) (vs : List Nat) :
    (t.m_nodes.length + vs.length < 2 ^ 32 →
        (allocEach vs t).2 = List.range' (t.m_nodes.length + 1) vs.length
          ∧ (allocEach vs t).2.Pairwise (fun a b => a < b)
          ∧ ∀ id', id' ∈ (allocEach vs t).2 →
              id' ≠ 0 ∧ (allocEach vs t).1.validateId id' = true
                ∧ ∀ id, t.validateId id = true → id < id')
      ∧ (allocEach vs t).1.m_nodes = t.m_nodes ++ vs.map (fun v => Node.mk v 0 0)
      ∧ ∀ id d, t.validateId id = true →
          (allocEach vs t).1.validateId id = true
            ∧ (allocEach vs t).1.getNode id d = t.getNode id d := by
  have h2 := allocEach_nodes vs t
  refine ⟨fun hsz => ?_, h2, fun id d h => allocEach_frame vs t id d h⟩
  obtain ⟨h1, _⟩ := allocEach_spec vs t hsz
  refine ⟨h1, ?_, ?_⟩
  · rw [h1]
    exact List.pairwise_lt_range' _ _
  · intro id' hid'
    rw [h1, List.mem_range'_1] at hid'
    refine ⟨by omega, ?_, ?_⟩
    · simp only [BinaryTree.validateId, h2, List.length_append, List.length_map,
        Bool.and_eq_true, decide_eq_true_eq]
      omega
    · intro id hid
      simp only [BinaryTree.validateId, Bool.and_eq_true, decide_eq_true_eq] at hid
      omega

set_option maxRecDepth 100000 in
/-- Three leaves allocated in the arena of the tree of `aaab`, which stays far below
`2^32` nodes. -/
theorem allocNode_ids_ascend_witness :
    (allocEach [7, 8, 9] ⟨[⟨97, 0, 0⟩, ⟨98, 0, 0⟩, ⟨0, 2, 1⟩]⟩).2
        = List.range' ((⟨[⟨97, 0, 0⟩, ⟨98, 0, 0⟩, ⟨0, 2, 1⟩]⟩ : BinaryTree).m_nodes.length + 1)
            [7, 8, 9].length
      ∧ (allocEach [7, 8, 9] ⟨[⟨97, 0, 0⟩, ⟨98, 0, 0⟩, ⟨0, 2, 1⟩]⟩).2.Pairwise
          (fun a b => a < b)
      ∧ (∀ id', id' ∈ (allocEach [7, 8, 9] ⟨[⟨97, 0, 0⟩, ⟨98, 0, 0⟩, ⟨0, 2, 1⟩]⟩).2 →
          id' ≠ 0
            ∧ (allocEach [7, 8, 9] ⟨[⟨97, 0, 0⟩, ⟨98, 0, 0⟩, ⟨0, 2, 1⟩]⟩).1.validateId id' = true
            ∧ ∀ id, BinaryTree.validateId ⟨[⟨97, 0, 0⟩, ⟨98, 0, 0⟩, ⟨0, 2, 1⟩]⟩ id = true →
                id < id')
      ∧ (allocEach [7, 8, 9] ⟨[⟨97, 0, 0⟩, ⟨98, 0, 0⟩, ⟨0, 2, 1⟩]⟩).1.m_nodes
          = (⟨[⟨97, 0, 0⟩, ⟨98, 0, 0⟩, ⟨0, 2, 1⟩]⟩ : BinaryTree).m_nodes
              ++ [7, 8, 9].map (fun v => Node.mk v 0 0)
      ∧ ∀ id d, BinaryTree.validateId ⟨[⟨97, 0, 0⟩, ⟨98, 0, 0⟩, ⟨0, 2, 1⟩]⟩ id = true →
          (allocEach [7, 8, 9] ⟨[⟨97, 0, 0⟩, ⟨98, 0, 0⟩, ⟨0, 2, 1⟩]⟩).1.validateId id = true
            ∧ (allocEach [7, 8, 9] ⟨[⟨97, 0, 0⟩, ⟨98, 0, 0⟩, ⟨0, 2, 1⟩]⟩).1.getNode id d
                = BinaryTree.getNode ⟨[⟨97, 0, 0⟩, ⟨98, 0, 0⟩, ⟨0, 2, 1⟩]⟩ id d :=
  ⟨((allocNode_ids_ascend ⟨[⟨97, 0, 0⟩, ⟨98, 0, 0⟩, ⟨0, 2, 1⟩]⟩ [7, 8, 9]).1 (by decide)).1,
    ((allocNode_ids_ascend ⟨[⟨97, 0, 0⟩, ⟨98, 0, 0⟩, ⟨0, 2, 1⟩]⟩ [7, 8, 9]).1 (by decide)).2.1,
    ((allocNode_ids_ascend ⟨[⟨97, 0, 0⟩, ⟨98, 0, 0⟩, ⟨0, 2, 1⟩]⟩ [7, 8, 9]).1 (by decide)).2.2,
    (allocNode_ids_ascend ⟨[⟨97, 0, 0⟩, ⟨98, 0, 0⟩, ⟨0, 2, 1⟩]⟩ [7, 8, 9]).2⟩

/-- C17, counterexample: `NodeId` is a 32-bit type. In an arena of `2^32 - 1` nodes
`allocNode` returns `0`, the id that stands for "no node", and in an arena of `2^32`
nodes it returns `1`, an id handed out long before, which goes on denoting the first
node. -/
theorem allocNode_id_wraps :
    (BinaryTree.allocNode ⟨List.replicate (2 ^ 32 - 1) {}⟩ 5).2 = 0
      ∧ (BinaryTree.allocNode ⟨List.replicate (2 ^ 32) {}⟩ 5).2 = 1
      ∧ nodeAt (BinaryTree.allocNode ⟨List.replicate (2 ^ 32) {}⟩ 5).1 1 = some {} :=
  ⟨(allocNode_id_replicate (2 ^ 32 - 1) 5 {}).trans (by decide),
    (allocNode_id_replicate (2 ^ 32) 5 {}).trans (by decide),
    nodeAt_allocNode_replicate (2 ^ 32) 5 1 {} (by decide) (by decide)⟩

/-- C18: for a well-formed tree (the arena under `node` unfolds to the finite shape `s`)
`serializeNode(tree, node, stream)` appends to a stream that has only been written to
exactly the reference encoding of the shape: for a leaf the bit 1 and the 8 bits of its
value, most significant bit first, for an inner node the bit 0, the encoding of the left
subtree and the encoding of the right subtree. Any fuel above the depth suffices. -/
theorem serializeNode_writes_reference (t : BinaryTree) (node : Nat) (s : HTree) (fuel : Nat)
    (stream : BitStream) (hwf : Embeds t 0 s node) (hfuel : s.depth < fuel)
    (hc : Clean stream) :
    ∃ stream', serializeNode fuel t node stream = Outcome.ok stream'
      ∧ written stream' = written stream ++ specSer s
      ∧ stream'.getBitCount = stream.getBitCount + (specSer s).length := by
  obtain ⟨bs', h1, hc', hw', _⟩ := serializeNode_spec t 0 s node fuel stream hwf hfuel hc
  rw [ser_eq_specSer] at hw'
  refine ⟨bs', h1, hw', ?_⟩
  have hlen := congrArg List.length hw'
  simp only [written_length, List.length_append] at hlen
  simp only [BitStream.getBitCount, hc'.size, hc.size, hlen]

set_option maxRecDepth 100000 in
/-- The tree of the text `aaab` written into a stream of ten reserved bytes. -/
theorem serializeNode_writes_reference_witness :
    ∃ stream',
      serializeNode 2 ⟨[⟨97, 0, 0⟩, ⟨98, 0, 0⟩, ⟨0, 2, 1⟩]⟩ 3 (BitStream.reserve 80)
        = Outcome.ok stream'
      ∧ written stream' = written (BitStream.reserve 80)
          ++ specSer (HTree.node (HTree.leaf 98) (HTree.leaf 97))
      ∧ stream'.getBitCount = (BitStream.reserve 80).getBitCount
          + (specSer (HTree.node (HTree.leaf 98) (HTree.leaf 97))).length :=
  serializeNode_writes_reference ⟨[⟨97, 0, 0⟩, ⟨98, 0, 0⟩, ⟨0, 2, 1⟩]⟩ 3
    (HTree.node (HTree.leaf 98) (HTree.leaf 97)) 2 (BitStream.reserve 80)
    ⟨by decide, ⟨0, 2, 1⟩, rfl, ⟨by decide, rfl⟩, ⟨by decide, rfl⟩⟩
    (by decide) (clean_reserve 80 (by decide))

/-- C19: for a valid parent id `p`, `linkNode(p, c, side)` makes `getChildNode(p, side)`
return `c`, whatever was linked there before (a second link on the same side wins), and
leaves the other child of `p`, the value of `p`, the number of nodes and the stored node
of every other id as they were; for an id `p` that is not valid the tree is unchanged. -/
theorem linkNode_frame (t : BinaryTree) (p c : Nat) (side : Bool) :
    (t.validateId p = true →
        (t.linkNode p c side).getChildNode p side = c
          ∧ (t.linkNode p c side).getChildNode p (!side) = t.getChildNode p (!side)
          ∧ (∀ d, (t.linkNode p c side).getNodeValue p d = t.getNodeValue p d)
          ∧ (t.linkNode p c side).m_nodes.length = t.m_nodes.length
          ∧ (∀ q d, q ≠ p → (t.linkNode p c side).getNode q d = t.getNode q d)
          ∧ ∀ c', ((t.linkNode p c side).linkNode p c' side).getChildNode p side = c')
      ∧ (t.validateId p = false → t.linkNode p c side = t) := by
  refine ⟨fun hp => ?_, fun hp => ?_⟩
  · rw [validateId_eq] at hp
    obtain ⟨n, hn⟩ := Option.isSome_iff_exists.mp hp
    cases side
    · simp only [BinaryTree.linkNode, BinaryTree.getChildNode, Bool.false_eq_true, if_false,
        Bool.not_false, if_true, getChildNodeLeft_eq, getChildNodeRight_eq, getNodeValue_eq,
        getNode_eq, nodeAt_linkNodeLeft, linkNodeLeft_length, hn, Option.map_some']
      refine ⟨trivial, trivial, fun _ => trivial, trivial, fun q d hq => ?_, fun _ => trivial⟩
      rw [if_neg hq]
    · simp only [BinaryTree.linkNode, BinaryTree.getChildNode, Bool.false_eq_true, if_false,
        Bool.not_true, if_true, getChildNodeLeft_eq, getChildNodeRight_eq, getNodeValue_eq,
        getNode_eq, nodeAt_linkNodeRight, linkNodeRight_length, hn, Option.map_some']
      refine ⟨trivial, trivial, fun _ => trivial, trivial, fun q d hq => ?_, fun _ => trivial⟩
      rw [if_neg hq]
  · cases side <;>
      simp [BinaryTree.linkNode, BinaryTree.linkNodeLeft, BinaryTree.linkNodeRight,
        BinaryTree.setNode, hp]

set_option maxRecDepth 100000 in
/-- The left child of the root of `aaabTree` linked anew to node 1, and a link on the id 7,
which is not valid there. -/
theorem linkNode_frame_witness :
    ((aaabTree.linkNode 3 1 false).getChildNode 3 false = 1
        ∧ (aaabTree.linkNode 3 1 false).getChildNode 3 (!false) = aaabTree.getChildNode 3 (!false)
        ∧ (∀ d, (aaabTree.linkNode 3 1 false).getNodeValue 3 d = aaabTree.getNodeValue 3 d)
        ∧ (aaabTree.linkNode 3 1 false).m_nodes.length = aaabTree.m_nodes.length
        ∧ (∀ q d, q ≠ 3 → (aaabTree.linkNode 3 1 false).getNode q d = aaabTree.getNode q d)
        ∧ ∀ c', ((aaabTree.linkNode 3 1 false).linkNode 3 c' false).getChildNode 3 false = c')
      ∧ aaabTree.linkNode 7 1 true = aaabTree :=
  ⟨(linkNode_frame aaabTree 3 1 false).1 (by decide),
    (linkNode_frame aaabTree 7 1 true).2 (by decide)⟩

/-- C20: for a text with at least two counted symbols (byte values from 1 on whose 32-bit
count is not zero), in every tree that `huffmanCompress` builds the root is a node, every
node either has both child ids zero or has two valid children, the values of the leaf
nodes are the counted symbols, each once, the arena holds `2k - 1` nodes for `k` symbols,
and every node of the arena is reached from the root along exactly one way. A tree is
built whenever all bytes of the text are below 128. -/
theorem built_tree_is_full (pq : PQueue) (text : List Nat)
    (htwo : 2 ≤ (countedSymbols text).length) :
    (∀ t root, buildTree pq text = Outcome.ok (t, root) →
        t.isNode root = true
          ∧ (∀ id, t.isNode id = true →
              (t.getChildNodeLeft id = 0 ∧ t.getChildNodeRight id = 0)
                ∨ (t.isNode (t.getChildNodeLeft id) = true
                  ∧ t.isNode (t.getChildNodeRight id) = true))
          ∧ (leafValues t).Perm (countedSymbols text)
          ∧ (countedSymbols text).Nodup
          ∧ t.m_nodes.length + 1 = 2 * (countedSymbols text).length
          ∧ ∀ id, t.isNode id = true →
              ∃ p, walk t root p = id ∧ ∀ q, walk t root q = id → q = p)
      ∧ ((∀ b, b ∈ text → b < 128) → ∃ t root, buildTree pq text = Outcome.ok (t, root)) := by
  refine ⟨fun t root htree => buildTree_arena pq text t root htree htwo, fun hb => ?_⟩
  obtain ⟨_, t, root, _, _, h3, _⟩ := buildTree_spec pq text hb
  exact ⟨t, root, h3⟩

set_option maxRecDepth 100000 in
/-- The text `abracadabra` with the list queue: five counted symbols. -/
theorem built_tree_is_full_witness :
    (∀ t root,
        buildTree listQueue [97, 98, 114, 97, 99, 97, 100, 97, 98, 114, 97]
            = Outcome.ok (t, root) →
        t.isNode root = true
          ∧ (∀ id, t.isNode id = true →
              (t.getChildNodeLeft id = 0 ∧ t.getChildNodeRight id = 0)
                ∨ (t.isNode (t.getChildNodeLeft id) = true
                  ∧ t.isNode (t.getChildNodeRight id) = true))
          ∧ (leafValues t).Perm
              (countedSymbols [97, 98, 114, 97, 99, 97, 100, 97, 98, 114, 97])
          ∧ (countedSymbols [97, 98, 114, 97, 99, 97, 100, 97, 98, 114, 97]).Nodup
          ∧ t.m_nodes.length + 1
              = 2 * (countedSymbols [97, 98, 114, 97, 99, 97, 100, 97, 98, 114, 97]).length
          ∧ ∀ id, t.isNode id = true →
              ∃ p, walk t root p = id ∧ ∀ q, walk t root q = id → q = p)
      ∧ ((∀ b, b ∈ [97, 98, 114, 97, 99, 97, 100, 97, 98, 114, 97] → b < 128) →
          ∃ t root,
            buildTree listQueue [97, 98, 114, 97, 99, 97, 100, 97, 98, 114, 97]
              = Outcome.ok (t, root)) :=
  built_tree_is_full listQueue [97, 98, 114, 97, 99, 97, 100, 97, 98, 114, 97] (by decide)

/-- C21 (as amended): in a merge step of the tree build, on any queue of at least two
entries (and an arena below the 32-bit id range), the two entries removed are two of
least frequency of the queue, the first one, whose frequency is not larger, becomes the
left child and the second one the right child of the new node, so an entry of strictly
larger frequency is always on the right, and the new entry carries the sum of the two
frequencies modulo `2^32`. In the build of a text of fewer than `2^32` bytes the merge
loop runs one pass less than there are counted symbols, each on a queue of at least two
entries; in none of them the sum of the two frequencies wraps, so the new entry carries
the sum itself; the last pass gives the tree and the root of the build; and for every
inner node of the built tree the occurrences counted under its right child are at least
those under its left child. -/
theorem merge_joins_two_least (pq : PQueue) (t0 : BinaryTree) (q : pq.σ) (text : List Nat)
    (t : BinaryTree) (root : Nat)
    (hsize : 2 ≤ pq.size q) (harena : t0.m_nodes.length + 1 < 2 ^ 32)
    (htree : buildTree pq text = Outcome.ok (t, root)) (hlen : text.length < 2 ^ 32) :
    ((pq.elems q).Perm (pq.top q :: pq.top (pq.pop q) :: pq.elems (pq.pop (pq.pop q)))
        ∧ (∀ x, x ∈ pq.top (pq.pop q) :: pq.elems (pq.pop (pq.pop q)) →
            (pq.top q).frequency ≤ x.frequency)
        ∧ (∀ x, x ∈ pq.elems (pq.pop (pq.pop q)) →
            (pq.top (pq.pop q)).frequency ≤ x.frequency)
        ∧ (mergeStep pq t0 q).2.2 = t0.m_nodes.length + 1
        ∧ (mergeStep pq t0 q).1.getChildNodeLeft (t0.m_nodes.length + 1)
            = (pq.top q).treeNode
        ∧ (mergeStep pq t0 q).1.getChildNodeRight (t0.m_nodes.length + 1)
            = (pq.top (pq.pop q)).treeNode
        ∧ (pq.elems (mergeStep pq t0 q).2.1).Perm
            ({ frequency := ((pq.top (pq.pop q)).frequency + (pq.top q).frequency) % 2 ^ 32,
               charCode := 0, treeNode := t0.m_nodes.length + 1 }
              :: pq.elems (pq.pop (pq.pop q))))
      ∧ ((buildStates pq text).length = (countedSymbols text).length - 1
        ∧ (∀ st, st ∈ buildStates pq text →
            2 ≤ pq.size st.2 ∧ st.1.m_nodes.length + 1 < 2 ^ 32
              ∧ (pq.top (pq.pop st.2)).frequency + (pq.top st.2).frequency < 2 ^ 32
              ∧ (pq.elems (mergeStep pq st.1 st.2).2.1).Perm
                  ({ frequency := (pq.top (pq.pop st.2)).frequency + (pq.top st.2).frequency,
                     charCode := 0, treeNode := st.1.m_nodes.length + 1 }
                    :: pq.elems (pq.pop (pq.pop st.2))))
        ∧ ∀ st, (buildStates pq text).getLast? = some st →
            (mergeStep pq st.1 st.2).1 = t ∧ (mergeStep pq st.1 st.2).2.2 = root)
      ∧ ∀ id, t.isNode id = true → t.isNodeLeaf id = false →
          weightUnder (fun c => text.count c) t.m_nodes.length t (t.getChildNodeLeft id)
            ≤ weightUnder (fun c => text.count c) t.m_nodes.length t
                (t.getChildNodeRight id) := by
  obtain ⟨hs1, hs2, hs3⟩ := buildStates_spec pq text t root htree hlen
  refine ⟨mergeStep_detail pq t0 q hsize harena, ⟨hs1, fun st hst => ?_, hs3⟩,
    buildTree_rightHeavy pq text t root htree hlen⟩
  obtain ⟨a, b, c⟩ := hs2 st hst
  have d := (mergeStep_detail pq st.1 st.2 a b).2.2.2.2.2.2
  rw [Nat.mod_eq_of_lt c] at d
  exact ⟨a, b, c, d⟩

set_option maxRecDepth 100000 in
/-- The list queue after the fill for `mississippi` (`m` once, `p` twice, `i` and `s` four
times each, as the leaves 2, 3, 1 and 4), and the tree built for that text. -/
theorem merge_joins_two_least_witness :
    ((listQueue.elems (listQueue.push (listQueue.push (listQueue.push (listQueue.push
        listQueue.empty ⟨4, 105, 1⟩) ⟨1, 109, 2⟩) ⟨2, 112, 3⟩) ⟨4, 115, 4⟩)).Perm (listQueue.top
        (listQueue.push (listQueue.push (listQueue.push (listQueue.push listQueue.empty ⟨4, 105, 1⟩)
        ⟨1, 109, 2⟩) ⟨2, 112, 3⟩) ⟨4, 115, 4⟩) :: listQueue.top (listQueue.pop (listQueue.push
        (listQueue.push (listQueue.push (listQueue.push listQueue.empty ⟨4, 105, 1⟩) ⟨1, 109, 2⟩)
        ⟨2, 112, 3⟩) ⟨4, 115, 4⟩)) :: listQueue.elems (listQueue.pop (listQueue.pop (listQueue.push
        (listQueue.push (listQueue.push (listQueue.push listQueue.empty ⟨4, 105, 1⟩) ⟨1, 109, 2⟩)
        ⟨2, 112, 3⟩) ⟨4, 115, 4⟩))))
        ∧ (∀ x, x ∈ listQueue.top (listQueue.pop (listQueue.push (listQueue.push (listQueue.push
            (listQueue.push listQueue.empty ⟨4, 105, 1⟩) ⟨1, 109, 2⟩) ⟨2, 112, 3⟩) ⟨4, 115, 4⟩)) ::
            listQueue.elems (listQueue.pop (listQueue.pop (listQueue.push (listQueue.push
            (listQueue.push (listQueue.push listQueue.empty ⟨4, 105, 1⟩) ⟨1, 109, 2⟩) ⟨2, 112, 3⟩)
            ⟨4, 115, 4⟩))) →
            (listQueue.top (listQueue.push (listQueue.push (listQueue.push (listQueue.push
                listQueue.empty ⟨4, 105, 1⟩) ⟨1, 109, 2⟩) ⟨2, 112, 3⟩) ⟨4, 115, 4⟩)).frequency ≤
                x.frequency)
        ∧ (∀ x, x ∈ listQueue.elems (listQueue.pop (listQueue.pop (listQueue.push (listQueue.push
            (listQueue.push (listQueue.push listQueue.empty ⟨4, 105, 1⟩) ⟨1, 109, 2⟩) ⟨2, 112, 3⟩)
            ⟨4, 115, 4⟩))) →
            (listQueue.top (listQueue.pop (listQueue.push (listQueue.push (listQueue.push
                (listQueue.push listQueue.empty ⟨4, 105, 1⟩) ⟨1, 109, 2⟩) ⟨2, 112, 3⟩)
                ⟨4, 115, 4⟩))).frequency ≤ x.frequency)
        ∧ (mergeStep listQueue (BinaryTree.mk [⟨105, 0, 0⟩, ⟨109, 0, 0⟩, ⟨112, 0, 0⟩, ⟨115, 0, 0⟩])
            (listQueue.push (listQueue.push (listQueue.push (listQueue.push listQueue.empty
            ⟨4, 105, 1⟩) ⟨1, 109, 2⟩) ⟨2, 112, 3⟩) ⟨4, 115, 4⟩)).2.2 = (BinaryTree.mk
            [⟨105, 0, 0⟩, ⟨109, 0, 0⟩, ⟨112, 0, 0⟩, ⟨115, 0, 0⟩]).m_nodes.length + 1
        ∧ (mergeStep listQueue (BinaryTree.mk [⟨105, 0, 0⟩, ⟨109, 0, 0⟩, ⟨112, 0, 0⟩, ⟨115, 0, 0⟩])
            (listQueue.push (listQueue.push (listQueue.push (listQueue.push listQueue.empty
            ⟨4, 105, 1⟩) ⟨1, 109, 2⟩) ⟨2, 112, 3⟩) ⟨4, 115, 4⟩)).1.getChildNodeLeft ((BinaryTree.mk
            [⟨105, 0, 0⟩, ⟨109, 0, 0⟩, ⟨112, 0, 0⟩, ⟨115, 0, 0⟩]).m_nodes.length + 1)
            = (listQueue.top (listQueue.push (listQueue.push (listQueue.push (listQueue.push
                listQueue.empty ⟨4, 105, 1⟩) ⟨1, 109, 2⟩) ⟨2, 112, 3⟩) ⟨4, 115, 4⟩)).treeNode
        ∧ (mergeStep listQueue (BinaryTree.mk [⟨105, 0, 0⟩, ⟨109, 0, 0⟩, ⟨112, 0, 0⟩, ⟨115, 0, 0⟩])
            (listQueue.push (listQueue.push (listQueue.push (listQueue.push listQueue.empty
            ⟨4, 105, 1⟩) ⟨1, 109, 2⟩) ⟨2, 112, 3⟩) ⟨4, 115, 4⟩)).1.getChildNodeRight ((BinaryTree.mk
            [⟨105, 0, 0⟩, ⟨109, 0, 0⟩, ⟨112, 0, 0⟩, ⟨115, 0, 0⟩]).m_nodes.length + 1)
            = (listQueue.top (listQueue.pop (listQueue.push (listQueue.push (listQueue.push
                (listQueue.push listQueue.empty ⟨4, 105, 1⟩) ⟨1, 109, 2⟩) ⟨2, 112, 3⟩)
                ⟨4, 115, 4⟩))).treeNode
        ∧ (listQueue.elems (mergeStep listQueue (BinaryTree.mk
            [⟨105, 0, 0⟩, ⟨109, 0, 0⟩, ⟨112, 0, 0⟩, ⟨115, 0, 0⟩]) (listQueue.push (listQueue.push
            (listQueue.push (listQueue.push listQueue.empty ⟨4, 105, 1⟩) ⟨1, 109, 2⟩) ⟨2, 112, 3⟩)
            ⟨4, 115, 4⟩)).2.1).Perm
            ({ frequency := ((listQueue.top (listQueue.pop (listQueue.push (listQueue.push
                (listQueue.push (listQueue.push listQueue.empty ⟨4, 105, 1⟩) ⟨1, 109, 2⟩)
                ⟨2, 112, 3⟩) ⟨4, 115, 4⟩))).frequency + (listQueue.top (listQueue.push
                (listQueue.push (listQueue.push (listQueue.push listQueue.empty ⟨4, 105, 1⟩)
                ⟨1, 109, 2⟩) ⟨2, 112, 3⟩) ⟨4, 115, 4⟩)).frequency) % 2 ^ 32,
               charCode := 0, treeNode := (BinaryTree.mk
                   [⟨105, 0, 0⟩, ⟨109, 0, 0⟩, ⟨112, 0, 0⟩, ⟨115, 0, 0⟩]).m_nodes.length + 1 }
              :: listQueue.elems (listQueue.pop (listQueue.pop (listQueue.push (listQueue.push
                  (listQueue.push (listQueue.push listQueue.empty ⟨4, 105, 1⟩) ⟨1, 109, 2⟩)
                  ⟨2, 112, 3⟩) ⟨4, 115, 4⟩)))))
      ∧ ((buildStates listQueue [109, 105, 115, 115, 105, 115, 115, 105, 112, 112, 105]).length =
          (countedSymbols [109, 105, 115, 115, 105, 115, 115, 105, 112, 112, 105]).length - 1
        ∧ (∀ st, st ∈ buildStates listQueue [109, 105, 115, 115, 105, 115, 115, 105, 112, 112, 105]
            →
            2 ≤ listQueue.size st.2 ∧ st.1.m_nodes.length + 1 < 2 ^ 32
              ∧ (listQueue.top (listQueue.pop st.2)).frequency + (listQueue.top st.2).frequency < 2
                  ^ 32
              ∧ (listQueue.elems (mergeStep listQueue st.1 st.2).2.1).Perm
                  ({ frequency := (listQueue.top (listQueue.pop st.2)).frequency + (listQueue.top
                      st.2).frequency,
                     charCode := 0, treeNode := st.1.m_nodes.length + 1 }
                    :: listQueue.elems (listQueue.pop (listQueue.pop st.2))))
        ∧ ∀ st, (buildStates listQueue
            [109, 105, 115, 115, 105, 115, 115, 105, 112, 112, 105]).getLast? = some st →
            (mergeStep listQueue st.1 st.2).1 = (BinaryTree.mk
                [⟨105, 0, 0⟩, ⟨109, 0, 0⟩, ⟨112, 0, 0⟩, ⟨115, 0, 0⟩, ⟨0, 2, 3⟩, ⟨0, 5, 1⟩, ⟨0, 4, 6⟩])
                ∧ (mergeStep listQueue st.1 st.2).2.2 = 7)
      ∧ ∀ id, (BinaryTree.mk
          [⟨105, 0, 0⟩, ⟨109, 0, 0⟩, ⟨112, 0, 0⟩, ⟨115, 0, 0⟩, ⟨0, 2, 3⟩, ⟨0, 5, 1⟩, ⟨0, 4, 6⟩]).isNode
          id = true → (BinaryTree.mk
          [⟨105, 0, 0⟩, ⟨109, 0, 0⟩, ⟨112, 0, 0⟩, ⟨115, 0, 0⟩, ⟨0, 2, 3⟩, ⟨0, 5, 1⟩, ⟨0, 4, 6⟩]).isNodeLeaf
          id = false →
          weightUnder (fun c => [109, 105, 115, 115, 105, 115, 115, 105, 112, 112, 105].count c)
              (BinaryTree.mk
              [⟨105, 0, 0⟩, ⟨109, 0, 0⟩, ⟨112, 0, 0⟩, ⟨115, 0, 0⟩, ⟨0, 2, 3⟩, ⟨0, 5, 1⟩, ⟨0, 4, 6⟩]).m_nodes.length
              (BinaryTree.mk
              [⟨105, 0, 0⟩, ⟨109, 0, 0⟩, ⟨112, 0, 0⟩, ⟨115, 0, 0⟩, ⟨0, 2, 3⟩, ⟨0, 5, 1⟩, ⟨0, 4, 6⟩])
              ((BinaryTree.mk
              [⟨105, 0, 0⟩, ⟨109, 0, 0⟩, ⟨112, 0, 0⟩, ⟨115, 0, 0⟩, ⟨0, 2, 3⟩, ⟨0, 5, 1⟩, ⟨0, 4, 6⟩]).getChildNodeLeft
              id)
            ≤ weightUnder (fun c => [109, 105, 115, 115, 105, 115, 115, 105, 112, 112, 105].count c)
                (BinaryTree.mk
                [⟨105, 0, 0⟩, ⟨109, 0, 0⟩, ⟨112, 0, 0⟩, ⟨115, 0, 0⟩, ⟨0, 2, 3⟩, ⟨0, 5, 1⟩, ⟨0, 4, 6⟩]).m_nodes.length
                (BinaryTree.mk
                [⟨105, 0, 0⟩, ⟨109, 0, 0⟩, ⟨112, 0, 0⟩, ⟨115, 0, 0⟩, ⟨0, 2, 3⟩, ⟨0, 5, 1⟩, ⟨0, 4, 6⟩])
                ((BinaryTree.mk
                    [⟨105, 0, 0⟩, ⟨109, 0, 0⟩, ⟨112, 0, 0⟩, ⟨115, 0, 0⟩, ⟨0, 2, 3⟩, ⟨0, 5, 1⟩, ⟨0, 4, 6⟩]).getChildNodeRight
                    id) :=
  merge_joins_two_least listQueue (BinaryTree.mk [⟨105, 0, 0⟩, ⟨109, 0, 0⟩, ⟨112, 0, 0⟩, ⟨115, 0, 0⟩])
    (listQueue.push (listQueue.push (listQueue.push
      (listQueue.push listQueue.empty ⟨4, 105, 1⟩) ⟨1, 109, 2⟩) ⟨2, 112, 3⟩) ⟨4, 115, 4⟩)
    [109, 105, 115, 115, 105, 115, 115, 105, 112, 112, 105]
    (BinaryTree.mk [⟨105, 0, 0⟩, ⟨109, 0, 0⟩, ⟨112, 0, 0⟩, ⟨115, 0, 0⟩, ⟨0, 2, 3⟩, ⟨0, 5, 1⟩, 
      ⟨0, 4, 6⟩]) 7
    (by decide) (by decide) (by decide) (by decide)

set_option maxRecDepth 100000 in
/-- C21, counterexample: the text of `2^31` bytes `a`, `2^31` bytes `b` and `2^31 + 5`
bytes `c`, with the list queue. The merge loop runs two passes, on frequencies that add up
to `2^32` and to `2^31 + 5`. The queue after the fill holds the three leaves; the first
merge step removes `a` and `b` and enters their parent, node 4, with the frequency `0`,
not `2^32`. The built tree has the root 5 with the left child 4 and the right child 3:
`2^32` occurrences are counted under the left child and `2^31 + 5` under the right
one. -/
theorem wrapped_sum_is_left_heavy :
    (buildStates listQueue heavyText).map
        (fun st => (listQueue.top (listQueue.pop st.2)).frequency
          + (listQueue.top st.2).frequency) = [2 ^ 32, 2 ^ 31 + 5]
      ∧ (∃ table, fillTable heavyText (List.replicate tableSize {}) = Outcome.ok table
        ∧ listQueue.elems (fillQueue listQueue table {} listQueue.empty).2
            = [⟨2 ^ 31, 97, 1⟩, ⟨2 ^ 31, 98, 2⟩, ⟨2 ^ 31 + 5, 99, 3⟩]
        ∧ listQueue.elems
            (mergeStep listQueue (fillQueue listQueue table {} listQueue.empty).1
              (fillQueue listQueue table {} listQueue.empty).2).2.1
            = [⟨0, 0, 4⟩, ⟨2 ^ 31 + 5, 99, 3⟩])
      ∧ buildTree listQueue heavyText
          = Outcome.ok (⟨[⟨97, 0, 0⟩, ⟨98, 0, 0⟩, ⟨99, 0, 0⟩, ⟨0, 1, 2⟩, ⟨0, 4, 3⟩]⟩, 5)
      ∧ BinaryTree.isNode ⟨[⟨97, 0, 0⟩, ⟨98, 0, 0⟩, ⟨99, 0, 0⟩, ⟨0, 1, 2⟩, ⟨0, 4, 3⟩]⟩ 5 = true
      ∧ BinaryTree.isNodeLeaf ⟨[⟨97, 0, 0⟩, ⟨98, 0, 0⟩, ⟨99, 0, 0⟩, ⟨0, 1, 2⟩, ⟨0, 4, 3⟩]⟩ 5
          = false
      ∧ weightUnder (fun c => heavyText.count c) 5
          ⟨[⟨97, 0, 0⟩, ⟨98, 0, 0⟩, ⟨99, 0, 0⟩, ⟨0, 1, 2⟩, ⟨0, 4, 3⟩]⟩
          (BinaryTree.getChildNodeLeft
            ⟨[⟨97, 0, 0⟩, ⟨98, 0, 0⟩, ⟨99, 0, 0⟩, ⟨0, 1, 2⟩, ⟨0, 4, 3⟩]⟩ 5) = 2 ^ 32
      ∧ weightUnder (fun c => heavyText.count c) 5
          ⟨[⟨97, 0, 0⟩, ⟨98, 0, 0⟩, ⟨99, 0, 0⟩, ⟨0, 1, 2⟩, ⟨0, 4, 3⟩]⟩
          (BinaryTree.getChildNodeRight
            ⟨[⟨97, 0, 0⟩, ⟨98, 0, 0⟩, ⟨99, 0, 0⟩, ⟨0, 1, 2⟩, ⟨0, 4, 3⟩]⟩ 5) = 2 ^ 31 + 5 := by
  have hc : (fun c => heavyText.count c)
      = fun c => if 97 ≤ c then [2 ^ 31, 2 ^ 31, 2 ^ 31 + 5].getD (c - 97) 0 else 0 :=
    funext fun c => count_blocks _ 97 c
  refine ⟨buildStates_heavyText, ⟨_, fillTable_blocks [2 ^ 31, 2 ^ 31, 2 ^ 31 + 5] 97 _ (by decide) (by simp),
    by decide, by decide⟩, buildTree_heavyText, by decide, by decide, ?_, ?_⟩
  · rw [hc]; decide
  · rw [hc]; decide

/-- C22 (as amended): for every input whose bytes all lie in `1..127`, that holds at least
two distinct byte values, in which no byte value occurs a multiple of `2^32` times (so
every byte of the input is counted; inputs of fewer than `2^32` bytes are of this kind),
whose built tree has depth at most 32 and whose stream holds fewer than `2^32` bits,
`huffmanDecompress` applied to the artifact written by `huffmanCompress` returns exactly
the input, for every lawful priority queue and every fuel from the bit count on. -/
theorem roundtrip_of_counted_bytes (pq : PQueue) (text : List Nat) (t : BinaryTree)
    (root : Nat) (bs : BitStream)
    (hbytes : ∀ b, b ∈ text → 1 ≤ b ∧ b ≤ 127)
    (htwo : ∃ a, a ∈ text ∧ ∃ b, b ∈ text ∧ a ≠ b)
    (hcount : ∀ b, b ∈ text → text.count b % 2 ^ 32 ≠ 0)
    (htree : buildTree pq text = Outcome.ok (t, root))
    (hdepth : treeDepth t.m_nodes.length t root ≤ 32)
    (hstream : compressStream pq text = Outcome.ok bs)
    (hbits : bs.getBitCount < 2 ^ 32) :
    ∃ art, huffmanCompress pq text = Outcome.ok art
      ∧ text.length < 2 ^ 32
      ∧ ∀ fuel, bs.getBitCount ≤ fuel → huffmanDecompress fuel art = Outcome.ok text := by
  obtain ⟨art, h1, h2⟩ :=
    roundtrip_counted pq text t root bs hbytes htwo hcount htree hdepth hstream hbits
  exact ⟨art, h1,
    Nat.lt_of_le_of_lt
      (length_le_bitCount pq text t root bs hbytes htwo hcount htree hdepth hstream) hbits,
    h2⟩

set_option maxRecDepth 100000 in
/-- The text `mississippi` with the list queue: a tree of depth 3 and a stream of 60
bits. -/
theorem roundtrip_of_counted_bytes_witness :
    ∃ art,
      huffmanCompress listQueue [109, 105, 115, 115, 105, 115, 115, 105, 112, 112, 105]
        = Outcome.ok art
      ∧ [109, 105, 115, 115, 105, 115, 115, 105, 112, 112, 105].length < 2 ^ 32
      ∧ ∀ fuel, BitStream.getBitCount ⟨60, 0, 60, [92, 203, 109, 194, 211, 51, 59, 112, 0, 0, 0]⟩
            ≤ fuel →
          huffmanDecompress fuel art
            = Outcome.ok [109, 105, 115, 115, 105, 115, 115, 105, 112, 112, 105] :=
  roundtrip_of_counted_bytes listQueue [109, 105, 115, 115, 105, 115, 115, 105, 112, 112, 105]
    ⟨[⟨105, 0, 0⟩, ⟨109, 0, 0⟩, ⟨112, 0, 0⟩, ⟨115, 0, 0⟩, ⟨0, 2, 3⟩, ⟨0, 5, 1⟩, ⟨0, 4, 6⟩]⟩ 7
    ⟨60, 0, 60, [92, 203, 109, 194, 211, 51, 59, 112, 0, 0, 0]⟩
    (by decide) ⟨109, by decide, 105, by decide, by decide⟩ (by decide) (by decide) (by decide)
    (by decide) (by decide)

set_option maxRecDepth 100000 in
/-- C22, counterexample: the text of `2^32` bytes `a`, one byte `b` and two bytes `c` has
all bytes in `1..127` and three distinct byte values; the 32-bit counter of `a` has wrapped
to zero, so the tree holds `b` and `c` only (depth 1) and the stream has 22 bits. Every
`a` is skipped by the encode loop, and decompressing the artifact gives `b c c`. -/
theorem roundtrip_fails_on_wrapped_count :
    (∀ b, b ∈ wrapText → 1 ≤ b ∧ b ≤ 127)
      ∧ 98 ∈ wrapText ∧ 99 ∈ wrapText
      ∧ buildTree listQueue wrapText
          = Outcome.ok (⟨[⟨98, 0, 0⟩, ⟨99, 0, 0⟩, ⟨0, 1, 2⟩]⟩, 3)
      ∧ treeDepth 3 ⟨[⟨98, 0, 0⟩, ⟨99, 0, 0⟩, ⟨0, 1, 2⟩]⟩ 3 = 1
      ∧ (∃ bs art, compressStream listQueue wrapText = Outcome.ok bs
          ∧ huffmanCompress listQueue wrapText = Outcome.ok art
          ∧ bs.getBitCount = 22
          ∧ art.bitcount = 22
          ∧ ∀ fuel, 22 ≤ fuel → huffmanDecompress fuel art = Outcome.ok [98, 99, 99])
      ∧ wrapText ≠ [98, 99, 99] := by
  refine ⟨?_, (wrapText_mem 98).mpr (Or.inr (Or.inl rfl)),
    (wrapText_mem 99).mpr (Or.inr (Or.inr rfl)), buildTree_wrapText, by decide, wrapText_run, ?_⟩
  · intro b hb
    rcases (wrapText_mem b).mp hb with h | h | h <;> omega
  · intro h
    have h97 : 97 ∈ wrapText := (wrapText_mem 97).mpr (Or.inl rfl)
    rw [h] at h97
    revert h97
    decide

/-- C23 (as amended): for every input of fewer than `2^32` bytes with at least two counted
symbols, the tree built by `huffmanCompress` is optimal. The tree found under the root in
the arena has the counted symbols as its leaves, and its number of code bits, the sum over
its leaves of the count of the symbol times the depth of the leaf, is less than or equal
to that of every full binary tree whose leaves are the counted symbols. -/
theorem built_tree_is_optimal (pq : PQueue) (text : List Nat) (t : BinaryTree) (root : Nat)
    (other : HTree)
    (htwo : 2 ≤ (countedSymbols text).length)
    (htree : buildTree pq text = Outcome.ok (t, root))
    (hlen : text.length < 2 ^ 32)
    (hleaves : other.leaves.Perm (countedSymbols text)) :
    ∃ s, Embeds t 0 s root ∧ s.leaves.Perm (countedSymbols text)
      ∧ codeLengthUnder (fun c => text.count c) t.m_nodes.length t root 0
          = HTree.codeLength (fun c => text.count c) s 0
      ∧ HTree.codeLength (fun c => text.count c) s 0
          ≤ HTree.codeLength (fun c => text.count c) other 0 :=
  buildTree_optimal pq text t root htwo htree hlen other hleaves

set_option maxRecDepth 100000 in
/-- The text `mississippi` with the list queue, compared with the balanced tree over its
four symbols. -/
theorem built_tree_is_optimal_witness :
    ∃ s,
      Embeds
          ⟨[⟨105, 0, 0⟩, ⟨109, 0, 0⟩, ⟨112, 0, 0⟩, ⟨115, 0, 0⟩, ⟨0, 2, 3⟩, ⟨0, 5, 1⟩,
            ⟨0, 4, 6⟩]⟩ 0 s 7
        ∧ s.leaves.Perm (countedSymbols [109, 105, 115, 115, 105, 115, 115, 105, 112, 112, 105])
        ∧ codeLengthUnder
            (fun c => [109, 105, 115, 115, 105, 115, 115, 105, 112, 112, 105].count c)
            (BinaryTree.mk [⟨105, 0, 0⟩, ⟨109, 0, 0⟩, ⟨112, 0, 0⟩, ⟨115, 0, 0⟩, ⟨0, 2, 3⟩,
              ⟨0, 5, 1⟩, ⟨0, 4, 6⟩]).m_nodes.length
            ⟨[⟨105, 0, 0⟩, ⟨109, 0, 0⟩, ⟨112, 0, 0⟩, ⟨115, 0, 0⟩, ⟨0, 2, 3⟩, ⟨0, 5, 1⟩,
              ⟨0, 4, 6⟩]⟩ 7 0
            = HTree.codeLength
                (fun c => [109, 105, 115, 115, 105, 115, 115, 105, 112, 112, 105].count c) s 0
        ∧ HTree.codeLength
            (fun c => [109, 105, 115, 115, 105, 115, 115, 105, 112, 112, 105].count c) s 0
          ≤ HTree.codeLength
              (fun c => [109, 105, 115, 115, 105, 115, 115, 105, 112, 112, 105].count c)
              (HTree.node (HTree.node (HTree.leaf 105) (HTree.leaf 109))
                (HTree.node (HTree.leaf 112) (HTree.leaf 115))) 0 :=
  built_tree_is_optimal listQueue [109, 105, 115, 115, 105, 115, 115, 105, 112, 112, 105]
    ⟨[⟨105, 0, 0⟩, ⟨109, 0, 0⟩, ⟨112, 0, 0⟩, ⟨115, 0, 0⟩, ⟨0, 2, 3⟩, ⟨0, 5, 1⟩, ⟨0, 4, 6⟩]⟩ 7
    (HTree.node (HTree.node (HTree.leaf 105) (HTree.leaf 109))
      (HTree.node (HTree.leaf 112) (HTree.leaf 115)))
    (by decide) (by decide) (by decide) (by decide)

set_option maxRecDepth 100000 in
/-- C23, counterexample: the text of `2^31` bytes `a`, `2^31 + 1` bytes `b`, `2^31 + 2`
bytes `c` and `2^31 + 10` bytes `d`, with the list queue. All four symbols are counted with
their true counts, but the parent of `a` and `b` enters the queue with the frequency `1`
instead of `2^32 + 1`, so the merge loop builds the chain `((a b) c) d`. Its code bits are
`9 * 2^31 + 17`; the balanced tree `(a b) (c d)` over the same symbols needs
`8 * 2^31 + 26`. -/
theorem wrapped_sums_miss_the_optimum :
    2 ≤ (countedSymbols skewText).length
      ∧ buildTree listQueue skewText
          = Outcome.ok (⟨[⟨97, 0, 0⟩, ⟨98, 0, 0⟩, ⟨99, 0, 0⟩, ⟨100, 0, 0⟩, ⟨0, 1, 2⟩,
              ⟨0, 5, 3⟩, ⟨0, 6, 4⟩]⟩, 7)
      ∧ (leafValues ⟨[⟨97, 0, 0⟩, ⟨98, 0, 0⟩, ⟨99, 0, 0⟩, ⟨100, 0, 0⟩, ⟨0, 1, 2⟩, ⟨0, 5, 3⟩,
          ⟨0, 6, 4⟩]⟩).Perm (countedSymbols skewText)
      ∧ (HTree.node (HTree.node (HTree.leaf 97) (HTree.leaf 98))
          (HTree.node (HTree.leaf 99) (HTree.leaf 100))).leaves.Perm (countedSymbols skewText)
      ∧ codeLengthUnder (fun c => skewText.count c) 7
          ⟨[⟨97, 0, 0⟩, ⟨98, 0, 0⟩, ⟨99, 0, 0⟩, ⟨100, 0, 0⟩, ⟨0, 1, 2⟩, ⟨0, 5, 3⟩,
            ⟨0, 6, 4⟩]⟩ 7 0 = 9 * 2 ^ 31 + 17
      ∧ HTree.codeLength (fun c => skewText.count c)
          (HTree.node (HTree.node (HTree.leaf 97) (HTree.leaf 98))
            (HTree.node (HTree.leaf 99) (HTree.leaf 100))) 0 = 8 * 2 ^ 31 + 26
      ∧ HTree.codeLength (fun c => skewText.count c)
          (HTree.node (HTree.node (HTree.leaf 97) (HTree.leaf 98))
            (HTree.node (HTree.leaf 99) (HTree.leaf 100))) 0
        < codeLengthUnder (fun c => skewText.count c) 7
            ⟨[⟨97, 0, 0⟩, ⟨98, 0, 0⟩, ⟨99, 0, 0⟩, ⟨100, 0, 0⟩, ⟨0, 1, 2⟩, ⟨0, 5, 3⟩,
              ⟨0, 6, 4⟩]⟩ 7 0 := by
  rw [countedSymbols_skewText, count_skewText]
  exact ⟨by decide, buildTree_skewText, by decide, by decide, by decide, by decide, by decide⟩

end Huffman
